import Mathlib

/-!
# Verification of the outline engine (`Outliner`)

Shallow embedding of the `Outliner` class of the annotation editor: input
quantization and bounding-box computation, the sweep-line union-boundary
extraction (`getOutlines` with `#breakEdge`, `#insert`, `#remove`,
`#binarySearch`), the polygon-loop reconstruction (`#getOutlines`), and the
line-strip merging/partitioning used by `getUnderlinesAndStrikeouts`.

Numbers are modelled by `ℚ` (the source uses IEEE doubles; every claim below is
about the ideal arithmetic the quantization is designed to realize).  JS object
references are modelled by values except where a claim is about aliasing, which
gets an explicit store model.  Fallible construction (the source throws a
`TypeError` on an empty box list when indexing past the end of the edge array)
is modelled by `Option`.
-/

namespace Outliner

/-- An input axis-aligned rectangle `{x, y, width, height}` in page
coordinates, as supplied by the caller. -/
structure Box where
  x : ℚ
  y : ℚ
  width : ℚ
  height : ℚ
deriving DecidableEq, Repr

/-- A vertical edge `[x, y1, y2, isLeft]` as pushed by the constructor. -/
structure Edge where
  x : ℚ
  y1 : ℚ
  y2 : ℚ
  isLeft : Bool
deriving DecidableEq, Repr

/-- A broken edge fragment `[x, y1, y2]` as produced by `#breakEdge`. -/
structure Frag where
  x : ℚ
  y1 : ℚ
  y2 : ℚ
deriving DecidableEq, Repr

/-- `const NUMBER_OF_DIGITS = 4`. -/
def NUMBER_OF_DIGITS : ℕ := 4

/-- `const EPSILON = 10 ** -NUMBER_OF_DIGITS`. -/
def EPSILON : ℚ := 1 / 10 ^ NUMBER_OF_DIGITS

/-- `Math.floor(v / EPSILON) * EPSILON`. -/
def quantFloor (v : ℚ) : ℚ := ⌊v / EPSILON⌋ * EPSILON

/-- `Math.ceil(v / EPSILON) * EPSILON`. -/
def quantCeil (v : ℚ) : ℚ := ⌈v / EPSILON⌉ * EPSILON

/-- `x1 = Math.floor((x - borderWidth) / EPSILON) * EPSILON`. -/
def boxX1 (bw : ℚ) (b : Box) : ℚ := quantFloor (b.x - bw)

/-- `x2 = Math.ceil((x + width + borderWidth) / EPSILON) * EPSILON`. -/
def boxX2 (bw : ℚ) (b : Box) : ℚ := quantCeil (b.x + b.width + bw)

/-- `y1 = Math.floor((y - borderWidth) / EPSILON) * EPSILON`. -/
def boxY1 (bw : ℚ) (b : Box) : ℚ := quantFloor (b.y - bw)

/-- `y2 = Math.ceil((y + height + borderWidth) / EPSILON) * EPSILON`. -/
def boxY2 (bw : ℚ) (b : Box) : ℚ := quantCeil (b.y + b.height + bw)

/-- The two edges `left = [x1, y1, y2, true]`, `right = [x2, y1, y2, false]`
pushed for one input box. -/
def boxEdges (bw : ℚ) (b : Box) : List Edge :=
  [⟨boxX1 bw b, boxY1 bw b, boxY2 bw b, true⟩,
   ⟨boxX2 bw b, boxY1 bw b, boxY2 bw b, false⟩]

/-- `this.#verticalEdges` right after the first constructor loop: the
quantized edges of the input boxes, in input order, left before right. -/
def verticalEdgesRaw (bw : ℚ) (boxes : List Box) : List Edge :=
  boxes.flatMap (boxEdges bw)

/-- Fold of `Math.min` over a list.  The source starts the fold at
`Infinity`; for the non-empty lists reaching this fold the result is the same
as folding from the first element.  The `0` default of the empty case is never
used: the constructor faults on an empty box list before using it. -/
def foldMinQ : List ℚ → ℚ
  | [] => 0
  | a :: l => l.foldl min a

/-- Fold of `Math.max` over a list, as `foldMinQ`. -/
def foldMaxQ : List ℚ → ℚ
  | [] => 0
  | a :: l => l.foldl max a

/-- Running `minX` over the first constructor loop. -/
def minXOf (bw : ℚ) (boxes : List Box) : ℚ := foldMinQ (boxes.map (boxX1 bw))

/-- Running `maxX` over the first constructor loop. -/
def maxXOf (bw : ℚ) (boxes : List Box) : ℚ := foldMaxQ (boxes.map (boxX2 bw))

/-- Running `minY` over the first constructor loop. -/
def minYOf (bw : ℚ) (boxes : List Box) : ℚ := foldMinQ (boxes.map (boxY1 bw))

/-- Running `maxY` over the first constructor loop. -/
def maxYOf (bw : ℚ) (boxes : List Box) : ℚ := foldMaxQ (boxes.map (boxY2 bw))

/-- One member `{x1, y1, x2}` of a baseline group's `boxes` array. -/
structure LBox where
  x1 : ℚ
  y1 : ℚ
  x2 : ℚ
deriving DecidableEq, Repr

/-- One value of the `lineByBaseHeight` map: `{boxes, minY1}`. -/
structure LGroup where
  boxes : List LBox
  minY1 : ℚ
deriving DecidableEq, Repr

/-- Insert one quantized box into `lineByBaseHeight[y2]`, creating the entry
(`{boxes: [], minY1: Infinity}` followed by the push and
`minY1 = Math.min(Infinity, y1) = y1`) when absent. -/
def pushGroup (y2 : ℚ) (lb : LBox) : List (ℚ × LGroup) → List (ℚ × LGroup)
  | [] => [(y2, ⟨[lb], lb.y1⟩)]
  | (k, g) :: rest =>
    if k = y2 then (k, ⟨g.boxes ++ [lb], min g.minY1 lb.y1⟩) :: rest
    else (k, g) :: pushGroup y2 lb rest

/-- The `lineByBaseHeight` object after the first constructor loop, as an
association list in key-insertion order (JS object keys are the decimal
strings of the quantized `y2` values, which are in bijection with the `ℚ`
keys used here). -/
def lineByBaseHeight (bw : ℚ) (boxes : List Box) : List (ℚ × LGroup) :=
  boxes.foldl
    (fun acc b => pushGroup (boxY2 bw b) ⟨boxX1 bw b, boxY1 bw b, boxX2 bw b⟩ acc) []

/-- ASCII codes of the decimal digits of a natural number (big-endian),
fuelled structural version of repeated division by 10. -/
def natCodesAux : ℕ → ℕ → List ℕ
  | 0, _ => []
  | _, 0 => []
  | fuel + 1, n => natCodesAux fuel (n / 10) ++ [48 + n % 10]

/-- ASCII codes of the canonical decimal string of a natural number. -/
def natCodes (n : ℕ) : List ℕ := if n = 0 then [48] else natCodesAux (n + 1) n

/-- ASCII codes of the fractional part `f/10000` (`0 ≤ f < 10000`), four
digits with trailing zeros stripped — the shortest decimal form. -/
def fracCodes (f : ℕ) : List ℕ :=
  (([f / 1000 % 10, f / 100 % 10, f / 10 % 10, f % 10].reverse.dropWhile
      (· == 0)).reverse).map (fun d => 48 + d)

/-- ASCII codes of the JS decimal string of a number `q` lying on the
`10⁻⁴` grid (every `lineByBaseHeight` key is a quantized `y2`, a grid
multiple, and JS prints such a float as exactly this shortest decimal:
integer part, and a `.`-separated fractional part only when nonzero; a
leading `-` when negative). -/
def jsNumCodes (q : ℚ) : List ℕ :=
  let n : ℤ := ⌊q * 10000⌋
  let m : ℕ := n.natAbs
  let core := natCodes (m / 10000) ++
    (if m % 10000 = 0 then [] else 46 :: fracCodes (m % 10000))
  if n < 0 then 45 :: core else core

/-- JS `a >= b` on two strings (UTF-16 code-unit lexicographic order); a
proper prefix compares smaller. -/
def codesGe : List ℕ → List ℕ → Bool
  | _, [] => true
  | [], _ :: _ => false
  | a :: as, b :: bs => if a = b then codesGe as bs else decide (b < a)

/-- The comparison `currentY2 >= prevY2` of the baseline-merging loop.  Both
operands are strings (`Object.keys` members), so JS compares them as strings,
not as numbers. -/
def jsStrGe (a b : ℚ) : Bool := codesGe (jsNumCodes a) (jsNumCodes b)

/-- A stable insertion of `a` into a sorted list: `a` is placed before the
first element not below it, so elements equal under `le` keep their original
relative order when used by `stableSort`. -/
def insSorted (le : α → α → Bool) (a : α) : List α → List α
  | [] => [a]
  | b :: l => if le a b then a :: b :: l else b :: insSorted le a l

/-- A stable comparison sort, modelling `Array.prototype.sort` (which the
language specification requires to be stable) for a consistent comparator
`c` via `le a b ↔ c(a, b) ≤ 0`. -/
def stableSort (le : α → α → Bool) (l : List α) : List α :=
  l.foldr (insSorted le) []

/-- One step of the merging loop over `sortedYValues`: `cur` is the entry
added last to `newLineByBaseHeight` (i.e. the entry at `sortedYValues[i-1]`).
Merging replaces it (`delete` of the previous key followed by adding the
current key) by the concatenated group with the smaller `minY1`. -/
def mergeGo (cur : ℚ × LGroup) : List (ℚ × LGroup) → List (ℚ × LGroup)
  | [] => [cur]
  | (y2, g) :: rest =>
    if jsStrGe y2 cur.1 && decide (cur.2.minY1 ≥ g.minY1) then
      mergeGo (y2, ⟨cur.2.boxes ++ g.boxes, min cur.2.minY1 g.minY1⟩) rest
    else
      cur :: mergeGo (y2, g) rest

/-- `sortedYValues`: the group entries sorted by numeric key
(`(a, b) => +a - +b`). -/
def sortedGroups (bw : ℚ) (boxes : List Box) : List (ℚ × LGroup) :=
  stableSort (fun a b => decide (a.1 ≤ b.1)) (lineByBaseHeight bw boxes)

/-- `newLineByBaseHeight` after the baseline-merging loop (`structuredClone`
is the identity on values). -/
def mergedGroups (bw : ℚ) (boxes : List Box) : List (ℚ × LGroup) :=
  match sortedGroups bw boxes with
  | [] => []
  | g :: rest => mergeGo g rest

/-- Comparator `(a, b) => +a.x1 - +b.x1` of the per-group box sort. -/
def lboxLe (a b : LBox) : Bool := decide (a.x1 ≤ b.x1)

/-- The partition loop: `lastB` is `partitionedBoxes.at(-1)`; a new run is
pushed when `currentBox.x2 - lastBox.x2 > maxSpaceSize`, otherwise the last
run is replaced by the merged record. -/
def partitionGo (maxSpace : ℚ) (lastB : LBox) : List LBox → List LBox
  | [] => [lastB]
  | b :: rest =>
    if b.x2 - lastB.x2 > maxSpace then lastB :: partitionGo maxSpace b rest
    else partitionGo maxSpace ⟨min b.x1 lastB.x1, min b.y1 lastB.y1, max b.x2 lastB.x2⟩ rest

/-- `partitionedLines`: per final baseline group, sort its boxes by `x1` and
partition them with `maxSpaceSize = averageHeight * 2 = (y2 - minY1) * 2`. -/
def partitionedLines (bw : ℚ) (boxes : List Box) : List (ℚ × List LBox) :=
  (mergedGroups bw boxes).map fun g =>
    let boxesSorted := stableSort lboxLe g.2.boxes
    let maxSpaceSize := (g.1 - g.2.minY1) * 2
    match boxesSorted with
    | [] => (g.1, [])
    | b :: rest => (g.1, partitionGo maxSpaceSize b rest)

/-- One output line strip `{x1, x2, y1, y2}` in box-relative coordinates. -/
structure LineRect where
  x1 : ℚ
  x2 : ℚ
  y1 : ℚ
  y2 : ℚ
deriving DecidableEq, Repr

/-- The final `lineRects` list: every partitioned run, rescaled to
box-relative coordinates. -/
def lineRectsOf (bw sminX sminY w h : ℚ) (boxes : List Box) : List LineRect :=
  (partitionedLines bw boxes).flatMap fun p =>
    p.2.map fun b =>
      ⟨(b.x1 - sminX) / w, (b.x2 - sminX) / w, (b.y1 - sminY) / h, (p.1 - sminY) / h⟩

/-- The `this.#box` record `{x, y, width, height, lastPoint}`. -/
structure BBox where
  x : ℚ
  y : ℚ
  width : ℚ
  height : ℚ
  lastPoint : ℚ × ℚ
deriving DecidableEq, Repr

/-- The engine state after construction: `#box`, the rescaled
`#verticalEdges`, and `#lineRects`. -/
structure OState where
  box : BBox
  verticalEdges : List Edge
  lineRects : List LineRect
deriving DecidableEq, Repr

/-- The constructor.  `none` models the `TypeError` thrown on an empty box
list: `this.#verticalEdges.at(isLTR ? -1 : -2)` is `undefined` there and the
subsequent `lastEdge[0]` faults before anything is returned.  `lastPoint` is
read off the raw (page-coordinate) edge before the rescaling loop. -/
def construct (boxes : List Box) (borderWidth innerMargin : ℚ) (isLTR : Bool)
    (skipLineRects : Bool) : Option OState :=
  let edges := verticalEdgesRaw borderWidth boxes
  let minX := minXOf borderWidth boxes
  let maxX := maxXOf borderWidth boxes
  let minY := minYOf borderWidth boxes
  let maxY := maxYOf borderWidth boxes
  let bboxWidth := maxX - minX + 2 * innerMargin
  let bboxHeight := maxY - minY + 2 * innerMargin
  let shiftedMinX := minX - innerMargin
  let shiftedMinY := minY - innerMargin
  match (if isLTR then edges.getLast? else edges.dropLast.getLast?) with
  | none => none
  | some lastE =>
    let lastPoint := (lastE.x, lastE.y2)
    let scaled := edges.map fun e =>
      Edge.mk ((e.x - shiftedMinX) / bboxWidth) ((e.y1 - shiftedMinY) / bboxHeight)
        ((e.y2 - shiftedMinY) / bboxHeight) e.isLeft
    let lrs := if skipLineRects then [] else
      lineRectsOf borderWidth shiftedMinX shiftedMinY bboxWidth bboxHeight boxes
    some ⟨⟨shiftedMinX, shiftedMinY, bboxWidth, bboxHeight, lastPoint⟩, scaled, lrs⟩

/-- An active interval `[y1, y2]` of the sweep. -/
abbrev Interval := ℚ × ℚ

/-- `array[i]` with an out-of-range default (such reads never go out of
range in the modelled loops). -/
def ivVal (arr : List Interval) (i : ℕ) : Interval := arr.getD i (0, 0)

/-- The key (`y1` start, i.e. `array[i][0]`) of the interval stored at index
`i`. -/
def ivKey (arr : List Interval) (i : ℕ) : ℚ := (ivVal arr i).1

/-- The sorting relation of the interval array: ordered by start. -/
def ivLe (a b : Interval) : Prop := a.1 ≤ b.1

/-- The loop of `#binarySearch`: `middle = (start + end) >> 1`, exact-match
returns `middle`, otherwise the search narrows; fuel bounds the iteration
count (the range shrinks strictly, so `length + 1` fuel never runs out). -/
def binarySearchAux (arr : List Interval) (y : ℚ) : ℕ → ℤ → ℤ → ℤ
  | 0, _, e => e + 1
  | fuel + 1, s, e =>
    if s ≤ e then
      let m := (s + e) / 2
      let y1 := ivKey arr m.toNat
      if y1 = y then m
      else if y1 < y then binarySearchAux arr y fuel (m + 1) e
      else binarySearchAux arr y fuel s (m - 1)
    else e + 1

/-- `#binarySearch(y)` on the interval array. -/
def binarySearch (arr : List Interval) (y : ℚ) : ℕ :=
  (binarySearchAux arr y (arr.length + 1) 0 ((arr.length : ℤ) - 1)).toNat

/-- `array.splice(n, 0, a)`: insert `a` at index `n` (append when `n` is at
or past the end). -/
def insertAt : ℕ → α → List α → List α
  | 0, a, l => a :: l
  | _ + 1, a, [] => [a]
  | n + 1, a, b :: l => b :: insertAt n a l

/-- `#insert([, y1, y2])`. -/
def insert (ivs : List Interval) (y1 y2 : ℚ) : List Interval :=
  insertAt (binarySearch ivs y1) (y1, y2) ivs

/-- The forward scan of `#remove`: from index `i` upward, stop at the first
interval whose start differs from `y1`, return the first exact match. -/
def findFwdAux (y1 y2 : ℚ) : List Interval → ℕ → Option ℕ
  | [], _ => none
  | iv :: rest, i =>
    if iv.1 ≠ y1 then none
    else if iv.1 = y1 ∧ iv.2 = y2 then some i
    else findFwdAux y1 y2 rest (i + 1)

/-- The backward scan of `#remove`: from index `i - 1` downward. -/
def findBwdAux (ivs : List Interval) (y1 y2 : ℚ) : ℕ → Option ℕ
  | 0 => none
  | i + 1 =>
    let iv := ivVal ivs i
    if iv.1 ≠ y1 then none
    else if iv.1 = y1 ∧ iv.2 = y2 then some i
    else findBwdAux ivs y1 y2 i

/-- `#remove([, y1, y2])`: locate the start, scan forward then backward for
the exact `(y1, y2)` match, and splice out exactly that one interval (or
nothing when no match exists). -/
def remove (ivs : List Interval) (y1 y2 : ℚ) : List Interval :=
  let idx := binarySearch ivs y1
  match findFwdAux y1 y2 (ivs.drop idx) idx with
  | some i => ivs.eraseIdx i
  | none =>
    match findBwdAux ivs y1 y2 idx with
    | some i => ivs.eraseIdx i
    | none => ivs

/-- The inner loop of `#breakEdge` for one interval `[s, e]`, over the `jj`
fragments present at the start of the round.  Returns the in-place fragments
and the fragments pushed past `jj` (`none` models the early `return []`
taken when the only remaining in-place fragment is fully covered). -/
def breakInner (x s e : ℚ) : List Frag → ℕ → Option (List Frag × List Frag)
  | [], _ => some ([], [])
  | f :: rest, jj =>
    if e ≤ f.y1 ∨ f.y2 ≤ s then
      (breakInner x s e rest jj).map (fun p => (f :: p.1, p.2))
    else if f.y1 ≥ s then
      if f.y2 > e then
        (breakInner x s e rest jj).map (fun p => (⟨f.x, e, f.y2⟩ :: p.1, p.2))
      else if jj = 1 then none
      else breakInner x s e rest (jj - 1)
    else
      (breakInner x s e rest jj).map
        (fun p => (⟨f.x, f.y1, s⟩ :: p.1, (if f.y2 > e then [⟨x, e, f.y2⟩] else []) ++ p.2))

/-- One outer-loop round of `#breakEdge`: run the inner loop over the
current `results` with `jj = results.length`, rejoining the in-place and
pushed fragments (`none`, the early `return []`, absorbs the rest). -/
def breakEdgeStep (x : ℚ) (st : Option (List Frag)) (iv : Interval) :
    Option (List Frag) :=
  match st with
  | none => none
  | some L => (breakInner x iv.1 iv.2 L L.length).map (fun p => p.1 ++ p.2)

/-- `#breakEdge(edge)`: subtract from `[y1, y2]` the intervals at positions
below `#binarySearch(y2)`, in order; once the early `return []` fires the
result is `[]`. -/
def breakEdge (ivs : List Interval) (eg : Edge) : List Frag :=
  let index := binarySearch ivs eg.y2
  let result := (ivs.take index).foldl (breakEdgeStep eg.x)
    (some [⟨eg.x, eg.y1, eg.y2⟩])
  match result with
  | none => []
  | some L => L

/-- Comparator `(a, b) => a[0] - b[0] || a[1] - b[1] || a[2] - b[2]` of the
edge sort, as `c(a, b) ≤ 0`. -/
def edgeLe (a b : Edge) : Bool :=
  decide (a.x < b.x) ||
    (decide (a.x = b.x) &&
      (decide (a.y1 < b.y1) || (decide (a.y1 = b.y1) && decide (a.y2 ≤ b.y2))))

/-- One iteration of the sweep loop of `getOutlines`: a left edge is broken
against the current intervals and then inserted; a right edge is removed
first and then broken against the reduced intervals. -/
def sweepStep (st : List Interval × List Frag) (eg : Edge) : List Interval × List Frag :=
  if eg.isLeft then
    (insert st.1 eg.y1 eg.y2, st.2 ++ breakEdge st.1 eg)
  else
    let ivs := remove st.1 eg.y1 eg.y2
    (ivs, st.2 ++ breakEdge ivs eg)

/-- `outlineVerticalEdges`: the concatenation of all surviving fragments of
the sweep, processed in list order starting from an empty interval set. -/
def sweepFragments (es : List Edge) : List Frag :=
  (es.foldl sweepStep ([], [])).2

/-- A vertex `[x, y, edge]` of `#getOutlines`, with the edge reference
modelled by the fragment's index. -/
structure Vertex where
  x : ℚ
  y : ℚ
  id : ℕ
deriving DecidableEq, Repr

/-- Comparator `(a, b) => a[1] - b[1] || a[0] - b[0]` of the vertex sort. -/
def vertexLe (a b : Vertex) : Bool :=
  decide (a.y < b.y) || (decide (a.y = b.y) && decide (a.x ≤ b.x))

/-- The vertex list: for each fragment, `[x, y1, edge]` then `[x, y2, edge]`. -/
def vertexList (frags : List Frag) : List Vertex :=
  frags.enum.flatMap fun p => [⟨p.2.x, p.2.y1, p.1⟩, ⟨p.2.x, p.2.y2, p.1⟩]

/-- `edge1.push(edge2)`: append neighbor `j` to fragment `i`'s neighbor
list. -/
def neighborAdd (nbr : List (List ℕ)) (i j : ℕ) : List (List ℕ) :=
  nbr.set i (nbr.getD i [] ++ [j])

/-- The pairing loop over the sorted vertices: each consecutive pair links
its two fragments as mutual neighbors and adds both to `allEdges` (a JS
`Set`, i.e. an insertion-ordered duplicate-free list). -/
def buildAdj : List Vertex → List (List ℕ) × List ℕ → List (List ℕ) × List ℕ
  | v1 :: v2 :: rest, st =>
    let nbr := neighborAdd st.1 v1.id v2.id
    let nbr := neighborAdd nbr v2.id v1.id
    let ae := if v1.id ∈ st.2 then st.2 else st.2 ++ [v1.id]
    let ae := if v2.id ∈ ae then ae else ae ++ [v2.id]
    buildAdj rest (nbr, ae)
  | _, st => st

/-- The two neighbor slots `edge[3]`, `edge[4]` of a fragment (`none` models
`undefined` when fewer than two neighbors were pushed). -/
def nbrGet (nbr : List (List ℕ)) (i : ℕ) : Option ℕ × Option ℕ :=
  ((nbr.getD i []).get? 0, (nbr.getD i []).get? 1)

/-- `allEdges.has(e)` for a possibly-`undefined` operand. -/
def inRem (o : Option ℕ) (rem : List ℕ) : Bool :=
  match o with
  | none => false
  | some i => decide (i ∈ rem)

/-- The inner `while (true)` walk of `#getOutlines`: follow whichever
neighbor slot is still unvisited, deleting it from the set, emitting a
horizontal move whenever the abscissa changes, and closing with the final
`outline.push(lastPointX, lastPointY)` on break. -/
def walkInner (frags : List Frag) (nbr : List (List ℕ)) :
    ℕ → List ℕ → Option ℕ × Option ℕ → ℚ → ℚ → List ℚ → List ℚ × List ℕ
  | 0, rem, _, lastPX, lastPY, out => (out ++ [lastPX, lastPY], rem)
  | fuel + 1, rem, es, lastPX, lastPY, out =>
    let next : Option ℕ :=
      if inRem es.1 rem then es.1 else if inRem es.2 rem then es.2 else none
    match next with
    | none => (out ++ [lastPX, lastPY], rem)
    | some i =>
      let rem2 := rem.erase i
      let f := frags.getD i ⟨0, 0, 0⟩
      let out2 :=
        if lastPX ≠ f.x then
          out ++ [lastPX, lastPY, f.x, if lastPY = f.y1 then f.y1 else f.y2]
        else out
      let lastPX2 := if lastPX ≠ f.x then f.x else lastPX
      let lastPY2 := if lastPY = f.y1 then f.y2 else f.y1
      walkInner frags nbr fuel rem2 (nbrGet nbr i) lastPX2 lastPY2 out2

/-- The outer `while (allEdges.size > 0)` loop: start a new outline
`[x, y2]` at the set's first element with `lastPoint = (x, y1)`, walk the
loop, and collect the closed outline.  The fuel (the set's size) never runs
out, as every outer step consumes at least one element. -/
def walkOuter (frags : List Frag) (nbr : List (List ℕ)) :
    ℕ → List ℕ → List (List ℚ) → List (List ℚ)
  | 0, _, acc => acc
  | _ + 1, [], acc => acc
  | fuel + 1, i :: rem, acc =>
    let f := frags.getD i ⟨0, 0, 0⟩
    let w := walkInner frags nbr rem.length rem (nbrGet nbr i) f.x f.y1 [f.x, f.y2]
    walkOuter frags nbr fuel w.2 (acc ++ [w.1])

/-- The return value of `getOutlines`: `{outlines, box, lineRects}`. -/
structure Outlines where
  outlines : List (List ℚ)
  box : BBox
  lineRects : List LineRect
deriving DecidableEq, Repr

/-- `#getOutlines(outlineVerticalEdges)`: vertex generation, stable sort by
`(y, x)`, neighbor pairing, and the loop walk. -/
def polygonize (frags : List Frag) (box : BBox) (lrs : List LineRect) : Outlines :=
  let verts := stableSort vertexLe (vertexList frags)
  let adj := buildAdj verts (frags.map (fun _ => []), [])
  ⟨walkOuter frags adj.1 adj.2.length adj.2 [], box, lrs⟩

/-- `getOutlines()`: stable-sort the rescaled vertical edges by
`(x, y1, y2)`, sweep them left to right, and reconstruct the polygon
loops. -/
def getOutlines (st : OState) : Outlines :=
  let sorted := stableSort edgeLe st.verticalEdges
  polygonize (sweepFragments sorted) st.box st.lineRects

/-- `getUnderlinesAndStrikeouts()`: `{box, lineRects}`. -/
def getUnderlinesAndStrikeouts (st : OState) : BBox × List LineRect :=
  (st.box, st.lineRects)

/-- `t` lies strictly inside some fragment of `L`. -/
def fragCovers (L : List Frag) (t : ℚ) : Prop := ∃ f ∈ L, f.y1 < t ∧ t < f.y2

/-- `t` lies in some closed interval of `ivs`. -/
def ivPtCovers (ivs : List Interval) (t : ℚ) : Prop :=
  ∃ iv ∈ ivs, iv.1 ≤ t ∧ t ≤ iv.2

/-- `t` lies in some closed interval of `ivs` whose start is below `ylim`
(the claim's "interval whose start is less than the edge's `y2`"). -/
def ivPtCoversLt (ivs : List Interval) (ylim t : ℚ) : Prop :=
  ∃ iv ∈ ivs, iv.1 < ylim ∧ iv.1 ≤ t ∧ t ≤ iv.2

/-- Two fragments with disjoint interiors, separated in `y`. -/
def fragSep (f g : Frag) : Prop := f.y2 ≤ g.y1 ∨ g.y2 ≤ f.y1

/-- The in-place result of one `#breakEdge` round for one fragment: kept
when disjoint, shrunk or deleted when its start lies in the interval,
truncated at the interval start otherwise. -/
def breakKeep (s e : ℚ) (f : Frag) : List Frag :=
  if e ≤ f.y1 ∨ f.y2 ≤ s then [f]
  else if f.y1 ≥ s then (if f.y2 > e then [⟨f.x, e, f.y2⟩] else [])
  else [⟨f.x, f.y1, s⟩]

/-- The pushed result of one `#breakEdge` round for one fragment: the right
part of a split. -/
def breakPush (x s e : ℚ) (f : Frag) : List Frag :=
  if e ≤ f.y1 ∨ f.y2 ≤ s then []
  else if f.y1 ≥ s then []
  else (if f.y2 > e then [⟨x, e, f.y2⟩] else [])

/-- The fragment list after one `#breakEdge` round: in-place fragments in
order, then the pushed fragments in order. -/
def breakRound (x s e : ℚ) (L : List Frag) : List Frag :=
  L.flatMap (breakKeep s e) ++ L.flatMap (breakPush x s e)

/-- The invariant of the `#breakEdge` outer loop, for the surviving-list
state: fragments sit inside the edge with the edge's abscissa, their open
interiors are exactly the edge points not covered by a processed interval,
their endpoints are edge endpoints or covered, and they are pairwise
separated. -/
def breakInv (eg : Edge) (P : List Interval) (L : List Frag) : Prop :=
  (∀ f ∈ L, f.x = eg.x ∧ eg.y1 ≤ f.y1 ∧ f.y1 < f.y2 ∧ f.y2 ≤ eg.y2) ∧
  (∀ t : ℚ, fragCovers L t ↔ (eg.y1 < t ∧ t < eg.y2 ∧ ¬ ivPtCovers P t)) ∧
  (∀ f ∈ L, (f.y1 = eg.y1 ∨ ivPtCovers P f.y1) ∧ (f.y2 = eg.y2 ∨ ivPtCovers P f.y2)) ∧
  List.Pairwise fragSep L

/-- The invariant of the `#breakEdge` outer loop including the
early-returned state, where every edge point is covered. -/
def breakStateInv (eg : Edge) (P : List Interval) : Option (List Frag) → Prop
  | none => ∀ t : ℚ, eg.y1 < t → t < eg.y2 → ivPtCovers P t
  | some L => breakInv eg P L

/-- An abstract axis-aligned rectangle, as swept by `getOutlines`: the
rescaled quantized boxes are of this shape, with the two vertical edges
`[x1, y1, y2, true]` and `[x2, y1, y2, false]`. -/
structure Rect where
  x1 : ℚ
  x2 : ℚ
  y1 : ℚ
  y2 : ℚ
deriving DecidableEq, Repr

/-- The left edge pushed for a rectangle. -/
def leftE (r : Rect) : Edge := ⟨r.x1, r.y1, r.y2, true⟩

/-- The right edge pushed for a rectangle. -/
def rightE (r : Rect) : Edge := ⟨r.x2, r.y1, r.y2, false⟩

/-- Both vertical edges of a rectangle, left first. -/
def rectEdges (r : Rect) : List Edge := [leftE r, rightE r]

/-- The vertical-edge list of a rectangle set, in input order. -/
def edgesOf (rs : List Rect) : List Edge := rs.flatMap rectEdges

/-- All `2n` edge abscissae of a rectangle set. -/
def rectXs (rs : List Rect) : List ℚ := rs.flatMap (fun r => [r.x1, r.x2])

/-- The `[y1, y2]` interval a rectangle contributes to the active set. -/
def spanOf (r : Rect) : Interval := (r.y1, r.y2)

/-- Closed membership in one rectangle. -/
def inRect (r : Rect) (p : ℚ × ℚ) : Prop :=
  r.x1 ≤ p.1 ∧ p.1 ≤ r.x2 ∧ r.y1 ≤ p.2 ∧ p.2 ≤ r.y2

/-- Membership in the union of the rectangles. -/
def inUnion (rs : List Rect) (p : ℚ × ℚ) : Prop := ∃ r ∈ rs, inRect r p

/-- `p` is interior to the union: some closed square neighborhood of `p`
lies inside the union. -/
def interiorPt (rs : List Rect) (p : ℚ × ℚ) : Prop :=
  ∃ δ : ℚ, 0 < δ ∧ ∀ q : ℚ × ℚ, |q.1 - p.1| ≤ δ → |q.2 - p.2| ≤ δ → inUnion rs q

/-- `(x, t)` lies on a rectangle's vertical edge, strictly inside its
`y`-span. -/
def onEdgeOpen (rs : List Rect) (x t : ℚ) : Prop :=
  ∃ r ∈ rs, (x = r.x1 ∨ x = r.x2) ∧ r.y1 < t ∧ t < r.y2

/-- `(x, t)` is covered by a rectangle strictly spanning the abscissa `x`. -/
def spansCovered (rs : List Rect) (x t : ℚ) : Prop :=
  ∃ r ∈ rs, r.x1 < x ∧ x < r.x2 ∧ r.y1 ≤ t ∧ t ≤ r.y2

/-- `(x, t)` lies strictly inside a fragment surviving the sweep of the
rectangles' edges in ascending `(x, y1, y2)` order. -/
def emittedOpen (rs : List Rect) (x t : ℚ) : Prop :=
  ∃ f ∈ sweepFragments (stableSort edgeLe (edgesOf rs)), f.x = x ∧ f.y1 < t ∧ t < f.y2

/-- `(x, t)` lies on (the closure of) a fragment surviving the sweep. -/
def emittedClosed (rs : List Rect) (x t : ℚ) : Prop :=
  ∃ f ∈ sweepFragments (stableSort edgeLe (edgesOf rs)), f.x = x ∧ f.y1 ≤ t ∧ t ≤ f.y2

/-- The multiset of active intervals after the sweep has processed exactly
the edges of `done`: one `[y1, y2]` span per rectangle whose left edge is
processed and whose right edge is not. -/
def activeIvs (rs : List Rect) (done : List Edge) : Multiset Interval :=
  (rs.map (fun r =>
    if leftE r ∈ done ∧ rightE r ∉ done then ({spanOf r} : Multiset Interval)
    else 0)).sum

/-- The edge comparator as a relation (`c(a, b) ≤ 0` for the source's
three-way lexicographic comparator). -/
def edgeLeP (a b : Edge) : Prop :=
  a.x < b.x ∨ (a.x = b.x ∧ (a.y1 < b.y1 ∨ (a.y1 = b.y1 ∧ a.y2 ≤ b.y2)))

/-- Minimum of a rational list, with default `1`. -/
def qListMin : List ℚ → ℚ
  | [] => 1
  | a :: l => min a (qListMin l)

/-- The invariant of the sweep loop of `getOutlines`, after the edges of
`done` have been processed: the active interval array is sorted by start
and holds, as a multiset, exactly one `[y1, y2]` span per rectangle whose
left edge is processed and whose right edge is not; every accumulated
fragment sits inside a processed edge at that edge's abscissa; and a point
lies strictly inside an accumulated fragment at abscissa `x` iff it lies
strictly inside a processed edge at `x` and no rectangle strictly spanning
`x` covers it. -/
def sweepInv (rs : List Rect) (done : List Edge) (st : List Interval × List Frag) : Prop :=
  List.Pairwise ivLe st.1 ∧
  (st.1 : Multiset Interval) = activeIvs rs done ∧
  (∀ g ∈ st.2, ∃ e' ∈ done, g.x = e'.x ∧ e'.y1 ≤ g.y1 ∧ g.y1 < g.y2 ∧ g.y2 ≤ e'.y2) ∧
  (∀ x t : ℚ, (∃ g ∈ st.2, g.x = x ∧ g.y1 < t ∧ t < g.y2) ↔
    ((∃ e' ∈ done, e'.x = x ∧ e'.y1 < t ∧ t < e'.y2) ∧ ¬ spansCovered rs x t))

/-- `0 ≤ v ≤ 1`: a box-relative coordinate within the claimed range. -/
def unitQ (v : ℚ) : Prop := 0 ≤ v ∧ v ≤ 1

/-- All three coordinates of a fragment lie in `[0, 1]`. -/
def fragIn (g : Frag) : Prop := unitQ g.x ∧ unitQ g.y1 ∧ unitQ g.y2

/-- All coordinates of an edge lie in `[0, 1]` and its span is
nondegenerate. -/
def edgeIn (e : Edge) : Prop := unitQ e.x ∧ unitQ e.y1 ∧ unitQ e.y2 ∧ e.y1 < e.y2

/-- Both interval endpoints lie in `[0, 1]` and are ordered. -/
def ivIn (iv : Interval) : Prop := unitQ iv.1 ∧ unitQ iv.2 ∧ iv.1 ≤ iv.2

/-- All four coordinates of a line strip lie in `[0, 1]`. -/
def lrIn (lr : LineRect) : Prop :=
  unitQ lr.x1 ∧ unitQ lr.x2 ∧ unitQ lr.y1 ∧ unitQ lr.y2

/-- All coordinates of a baseline box lie within the given page bounds. -/
def lboxIn (loX hiX loY hiY : ℚ) (c : LBox) : Prop :=
  loX ≤ c.x1 ∧ c.x1 ≤ hiX ∧ loY ≤ c.y1 ∧ c.y1 ≤ hiY ∧ loX ≤ c.x2 ∧ c.x2 ≤ hiX

/-- All keys and member boxes of a baseline-group list lie within the given
page bounds. -/
def groupsIn (loX hiX loY hiY : ℚ) (gs : List (ℚ × LGroup)) : Prop :=
  ∀ p ∈ gs, (loY ≤ p.1 ∧ p.1 ≤ hiY) ∧ ∀ c ∈ p.2.boxes, lboxIn loX hiX loY hiY c

/-! ## Basic lemmas -/

theorem EPSILON_pos : 0 < EPSILON := by norm_num [EPSILON, NUMBER_OF_DIGITS]

theorem quantFloor_le (v : ℚ) : quantFloor v ≤ v := by
  have h := Int.floor_le (v / EPSILON)
  have hε := EPSILON_pos
  calc quantFloor v = (⌊v / EPSILON⌋ : ℚ) * EPSILON := rfl
    _ ≤ (v / EPSILON) * EPSILON := by exact mul_le_mul_of_nonneg_right h hε.le
    _ = v := by field_simp

theorem le_quantCeil (v : ℚ) : v ≤ quantCeil v := by
  have h := Int.le_ceil (v / EPSILON)
  have hε := EPSILON_pos
  calc v = (v / EPSILON) * EPSILON := by field_simp
    _ ≤ (⌈v / EPSILON⌉ : ℚ) * EPSILON := by exact mul_le_mul_of_nonneg_right h hε.le
    _ = quantCeil v := rfl

theorem boxX1_lt_boxX2 (bw : ℚ) (b : Box) (hw : 0 < b.width) (hbw : 0 ≤ bw) :
    boxX1 bw b < boxX2 bw b :=
  lt_of_le_of_lt (quantFloor_le _)
    (lt_of_lt_of_le (by linarith : b.x - bw < b.x + b.width + bw) (le_quantCeil _))

theorem boxY1_lt_boxY2 (bw : ℚ) (b : Box) (hh : 0 < b.height) (hbw : 0 ≤ bw) :
    boxY1 bw b < boxY2 bw b :=
  lt_of_le_of_lt (quantFloor_le _)
    (lt_of_lt_of_le (by linarith : b.y - bw < b.y + b.height + bw) (le_quantCeil _))

theorem verticalEdgesRaw_length (bw : ℚ) (boxes : List Box) :
    (verticalEdgesRaw bw boxes).length = 2 * boxes.length := by
  induction boxes with
  | nil => rfl
  | cons b rest ih =>
    simp only [verticalEdgesRaw, List.flatMap_cons, List.length_append] at *
    simp [boxEdges] at *
    omega

theorem verticalEdgesRaw_append (bw : ℚ) (l1 l2 : List Box) :
    verticalEdgesRaw bw (l1 ++ l2) = verticalEdgesRaw bw l1 ++ verticalEdgesRaw bw l2 := by
  simp [verticalEdgesRaw]

/-! ## The interval structure: binary search, insert, remove -/

theorem ivKey_eq_get (arr : List Interval) (i : ℕ) (h : i < arr.length) :
    ivKey arr i = (arr.get ⟨i, h⟩).1 := by
  simp [ivKey, ivVal, List.getD_eq_getElem?_getD, List.getElem?_eq_getElem h,
    List.get_eq_getElem]

theorem ivVal_mem (l : List Interval) (j : ℕ) (hj : j < l.length) :
    ivVal l j ∈ l := by
  rw [ivVal, List.getD_eq_getElem?_getD, List.getElem?_eq_getElem hj]
  exact List.getElem_mem hj

theorem ivVal_drop (l : List Interval) (n k : ℕ) :
    ivVal (l.drop n) k = ivVal l (n + k) := by
  simp [ivVal, List.getD_eq_getElem?_getD, List.getElem?_drop]

theorem ivVal_cons_zero (iv : Interval) (l : List Interval) :
    ivVal (iv :: l) 0 = iv := rfl

theorem ivVal_cons_succ (iv : Interval) (l : List Interval) (k : ℕ) :
    ivVal (iv :: l) (k + 1) = ivVal l k := by
  simp [ivVal]

theorem ivKey_mono (arr : List Interval) (hs : List.Pairwise ivLe arr)
    {i j : ℕ} (hij : i ≤ j) (hj : j < arr.length) : ivKey arr i ≤ ivKey arr j := by
  rcases eq_or_lt_of_le hij with rfl | hlt
  · exact le_refl _
  · have hi : i < arr.length := lt_trans hlt hj
    have h := (List.pairwise_iff_get.mp hs) ⟨i, hi⟩ ⟨j, hj⟩ hlt
    rw [ivKey_eq_get arr i hi, ivKey_eq_get arr j hj]
    exact h

theorem binarySearchAux_spec (arr : List Interval) (y : ℚ)
    (hs : List.Pairwise ivLe arr) :
    ∀ (fuel : ℕ) (s e : ℤ), 0 ≤ s → -1 ≤ e → e < (arr.length : ℤ) →
      (∀ i : ℕ, (i : ℤ) < s → ivKey arr i < y) →
      (∀ i : ℕ, e < (i : ℤ) → i < arr.length → y < ivKey arr i) →
      e - s < (fuel : ℤ) →
      0 ≤ binarySearchAux arr y fuel s e ∧
      binarySearchAux arr y fuel s e ≤ (arr.length : ℤ) ∧
      (∀ i : ℕ, (i : ℤ) < binarySearchAux arr y fuel s e → ivKey arr i ≤ y) ∧
      (∀ i : ℕ, binarySearchAux arr y fuel s e ≤ (i : ℤ) → i < arr.length →
        y ≤ ivKey arr i)
  | 0, s, e, h0s, h1e, helen, hlow, hhigh, hfuel => by
    simp only [binarySearchAux]
    refine ⟨by omega, by omega, fun i hi => ?_, fun i hi hilen => ?_⟩
    · exact le_of_lt (hlow i (by omega))
    · exact le_of_lt (hhigh i (by omega) hilen)
  | fuel + 1, s, e, h0s, h1e, helen, hlow, hhigh, hfuel => by
    simp only [binarySearchAux]
    by_cases hse : s ≤ e
    · rw [if_pos hse]
      set m : ℤ := (s + e) / 2 with hm
      have hm1 : s ≤ m := by omega
      have hm2 : m ≤ e := by omega
      have hmnat : (m.toNat : ℤ) = m := Int.toNat_of_nonneg (by omega)
      have hmlen : m.toNat < arr.length := by omega
      by_cases heq : ivKey arr m.toNat = y
      · rw [if_pos heq]
        refine ⟨by omega, by omega, fun i hi => ?_, fun i hi hilen => ?_⟩
        · exact le_of_le_of_eq (ivKey_mono arr hs (by omega) hmlen) heq
        · exact le_of_eq_of_le heq.symm (ivKey_mono arr hs (by omega) hilen)
      · rw [if_neg heq]
        by_cases hlt : ivKey arr m.toNat < y
        · rw [if_pos hlt]
          exact binarySearchAux_spec arr y hs fuel (m + 1) e (by omega) h1e helen
            (fun i hi => lt_of_le_of_lt (ivKey_mono arr hs (by omega) hmlen) hlt)
            hhigh (by omega)
        · rw [if_neg hlt]
          have hgt : y < ivKey arr m.toNat := lt_of_le_of_ne (not_lt.mp hlt) (Ne.symm heq)
          exact binarySearchAux_spec arr y hs fuel s (m - 1) h0s (by omega) (by omega)
            hlow
            (fun i hi hilen => lt_of_lt_of_le hgt (ivKey_mono arr hs (by omega) hilen))
            (by omega)
    · rw [if_neg hse]
      refine ⟨by omega, by omega, fun i hi => ?_, fun i hi hilen => ?_⟩
      · exact le_of_lt (hlow i (by omega))
      · exact le_of_lt (hhigh i (by omega) hilen)

theorem binarySearch_spec (arr : List Interval) (y : ℚ)
    (hs : List.Pairwise ivLe arr) :
    binarySearch arr y ≤ arr.length ∧
    (∀ i : ℕ, i < binarySearch arr y → ivKey arr i ≤ y) ∧
    (∀ i : ℕ, binarySearch arr y ≤ i → i < arr.length → y ≤ ivKey arr i) := by
  have h := binarySearchAux_spec arr y hs (arr.length + 1) 0 ((arr.length : ℤ) - 1)
    (by omega) (by omega) (by omega)
    (fun i hi => absurd hi (by omega))
    (fun i hi hilen => absurd hi (by omega))
    (by omega)
  obtain ⟨h0, hlen, hlow, hhigh⟩ := h
  unfold binarySearch
  refine ⟨by omega, fun i hi => hlow i (by omega), fun i hi hilen => hhigh i (by omega) hilen⟩

theorem mem_insertAt (a x : α) : ∀ (n : ℕ) (l : List α),
    x ∈ insertAt n a l ↔ x = a ∨ x ∈ l
  | 0, l => by simp [insertAt, eq_comm]
  | n + 1, [] => by simp [insertAt, eq_comm]
  | n + 1, b :: l => by
    simp only [insertAt, List.mem_cons, mem_insertAt a x n l]
    tauto

theorem insertAt_perm (a : α) : ∀ (n : ℕ) (l : List α),
    List.Perm (insertAt n a l) (a :: l)
  | 0, l => List.Perm.refl _
  | n + 1, [] => List.Perm.refl _
  | n + 1, b :: l =>
    List.Perm.trans (List.Perm.cons b (insertAt_perm a n l)) (List.Perm.swap a b l)

theorem insertAt_sorted (a : Interval) :
    ∀ (n : ℕ) (l : List Interval), List.Pairwise ivLe l →
      (∀ i : ℕ, i < n → i < l.length → ivKey l i ≤ a.1) →
      (∀ i : ℕ, n ≤ i → i < l.length → a.1 ≤ ivKey l i) →
      List.Pairwise ivLe (insertAt n a l)
  | 0, l, hs, hlow, hhigh => by
    refine List.Pairwise.cons (fun x hx => ?_) hs
    obtain ⟨⟨i, hi⟩, hgx⟩ := List.mem_iff_get.mp hx
    have := hhigh i (by omega) hi
    rw [ivKey_eq_get l i hi, hgx] at this
    exact this
  | n + 1, [], _, _, _ => by simp [insertAt, List.Pairwise]
  | n + 1, b :: l, hs, hlow, hhigh => by
    simp only [insertAt]
    refine List.Pairwise.cons (fun x hx => ?_) ?_
    · rcases (mem_insertAt a x n l).mp hx with rfl | hxl
      · have := hlow 0 (by omega) (by simp)
        simpa [ivKey, ivVal] using this
      · exact List.rel_of_pairwise_cons hs hxl
    · refine insertAt_sorted a n l (List.Pairwise.of_cons hs)
        (fun i hi hilen => ?_) (fun i hi hilen => ?_)
      · have := hlow (i + 1) (by omega) (by simpa using hilen)
        simpa [ivKey, ivVal_cons_succ] using this
      · have := hhigh (i + 1) (by omega) (by simpa using hilen)
        simpa [ivKey, ivVal_cons_succ] using this

theorem insert_sorted (ivs : List Interval) (y1 y2 : ℚ)
    (hs : List.Pairwise ivLe ivs) : List.Pairwise ivLe (insert ivs y1 y2) := by
  obtain ⟨hlen, hlow, hhigh⟩ := binarySearch_spec ivs y1 hs
  exact insertAt_sorted (y1, y2) (binarySearch ivs y1) ivs hs
    (fun i hi hilen => hlow i hi) (fun i hi hilen => hhigh i hi hilen)

theorem insert_multiset (ivs : List Interval) (y1 y2 : ℚ) :
    (insert ivs y1 y2 : Multiset Interval) = (y1, y2) ::ₘ (ivs : Multiset Interval) :=
  Quot.sound (insertAt_perm (y1, y2) (binarySearch ivs y1) ivs)

theorem findFwdAux_some (y1 y2 : ℚ) :
    ∀ (l : List Interval) (i0 j : ℕ), findFwdAux y1 y2 l i0 = some j →
      i0 ≤ j ∧ j - i0 < l.length ∧ ivVal l (j - i0) = (y1, y2)
  | [], i0, j, h => by simp [findFwdAux] at h
  | iv :: rest, i0, j, h => by
    simp only [findFwdAux] at h
    by_cases h1 : iv.1 ≠ y1
    · rw [if_pos h1] at h; exact absurd h (by simp)
    · rw [if_neg h1] at h
      by_cases h2 : iv.1 = y1 ∧ iv.2 = y2
      · rw [if_pos h2] at h
        obtain rfl : i0 = j := by simpa using h
        refine ⟨le_refl _, by simp, ?_⟩
        simp only [Nat.sub_self, ivVal_cons_zero]
        exact Prod.ext h2.1 h2.2
      · rw [if_neg h2] at h
        obtain ⟨ha, hb, hc⟩ := findFwdAux_some y1 y2 rest (i0 + 1) j h
        refine ⟨by omega, by simp; omega, ?_⟩
        have he : j - i0 = (j - (i0 + 1)) + 1 := by omega
        rw [he, ivVal_cons_succ]
        exact hc

theorem findFwdAux_finds (y1 y2 : ℚ) :
    ∀ (l : List Interval) (i0 k : ℕ), k < l.length → ivVal l k = (y1, y2) →
      (∀ k', k' ≤ k → (ivVal l k').1 = y1) →
      ∃ j, findFwdAux y1 y2 l i0 = some j
  | [], i0, k, hk, _, _ => absurd hk (by simp)
  | iv :: rest, i0, k, hk, hkv, hall => by
    have hhead : iv.1 = y1 := by simpa [ivVal_cons_zero] using hall 0 (by omega)
    simp only [findFwdAux, if_neg (by simp [hhead] : ¬iv.1 ≠ y1)]
    by_cases h2 : iv.1 = y1 ∧ iv.2 = y2
    · exact ⟨i0, by rw [if_pos h2]⟩
    · rw [if_neg h2]
      match k, hk, hkv with
      | 0, _, hkv =>
        rw [ivVal_cons_zero] at hkv
        exact absurd ⟨hhead, by rw [hkv]⟩ h2
      | k + 1, hk, hkv =>
        exact findFwdAux_finds y1 y2 rest (i0 + 1) k (by simpa using hk)
          (by rwa [ivVal_cons_succ] at hkv)
          (fun k' hk' => by
            have := hall (k' + 1) (by omega)
            rwa [ivVal_cons_succ] at this)

theorem findBwdAux_some (ivs : List Interval) (y1 y2 : ℚ) :
    ∀ (i0 j : ℕ), findBwdAux ivs y1 y2 i0 = some j →
      j < i0 ∧ ivVal ivs j = (y1, y2)
  | 0, j, h => by simp [findBwdAux] at h
  | m + 1, j, h => by
    simp only [findBwdAux] at h
    by_cases h1 : (ivVal ivs m).1 ≠ y1
    · rw [if_pos h1] at h; exact absurd h (by simp)
    · rw [if_neg h1] at h
      by_cases h2 : (ivVal ivs m).1 = y1 ∧ (ivVal ivs m).2 = y2
      · rw [if_pos h2] at h
        obtain rfl : m = j := by simpa using h
        exact ⟨by omega, Prod.ext h2.1 h2.2⟩
      · rw [if_neg h2] at h
        obtain ⟨ha, hb⟩ := findBwdAux_some ivs y1 y2 m j h
        exact ⟨by omega, hb⟩

theorem findBwdAux_finds (ivs : List Interval) (y1 y2 : ℚ) :
    ∀ (i0 k : ℕ), k < i0 → ivVal ivs k = (y1, y2) →
      (∀ k', k ≤ k' → k' < i0 → (ivVal ivs k').1 = y1) →
      ∃ j, findBwdAux ivs y1 y2 i0 = some j
  | 0, k, hk, _, _ => absurd hk (by omega)
  | m + 1, k, hk, hkv, hall => by
    have hm : (ivVal ivs m).1 = y1 := hall m (by omega) (by omega)
    simp only [findBwdAux, if_neg (by simp [hm] : ¬(ivVal ivs m).1 ≠ y1)]
    by_cases h2 : (ivVal ivs m).1 = y1 ∧ (ivVal ivs m).2 = y2
    · exact ⟨m, by rw [if_pos h2]⟩
    · rw [if_neg h2]
      have hkm : k ≠ m := by
        rintro rfl
        exact h2 ⟨hm, by rw [hkv]⟩
      exact findBwdAux_finds ivs y1 y2 m k (by omega) hkv
        (fun k' ha hb => hall k' ha (by omega))

theorem eraseIdx_cons_multiset :
    ∀ (l : List Interval) (j : ℕ), j < l.length →
      (l : Multiset Interval) = ivVal l j ::ₘ (l.eraseIdx j : Multiset Interval)
  | [], j, hj => absurd hj (by simp)
  | b :: l, 0, _ => by simp [ivVal_cons_zero]
  | b :: l, j + 1, hj => by
    have ih := eraseIdx_cons_multiset l j (by simpa using hj)
    rw [ivVal_cons_succ, List.eraseIdx_cons_succ]
    calc ((b :: l : List Interval) : Multiset Interval)
        = b ::ₘ (l : Multiset Interval) := rfl
      _ = b ::ₘ (ivVal l j ::ₘ (l.eraseIdx j : Multiset Interval)) := by rw [← ih]
      _ = ivVal l j ::ₘ b ::ₘ (l.eraseIdx j : Multiset Interval) :=
          Multiset.cons_swap _ _ _
      _ = ivVal l j ::ₘ ((b :: l.eraseIdx j : List Interval) : Multiset Interval) := rfl

theorem remove_eq_fwd (ivs : List Interval) (y1 y2 : ℚ) (j : ℕ)
    (hF : findFwdAux y1 y2 (ivs.drop (binarySearch ivs y1)) (binarySearch ivs y1) =
      some j) : remove ivs y1 y2 = ivs.eraseIdx j := by
  simp [remove, hF]

theorem remove_eq_bwd (ivs : List Interval) (y1 y2 : ℚ) (j : ℕ)
    (hF : findFwdAux y1 y2 (ivs.drop (binarySearch ivs y1)) (binarySearch ivs y1) = none)
    (hB : findBwdAux ivs y1 y2 (binarySearch ivs y1) = some j) :
    remove ivs y1 y2 = ivs.eraseIdx j := by
  simp [remove, hF, hB]

theorem remove_eq_none (ivs : List Interval) (y1 y2 : ℚ)
    (hF : findFwdAux y1 y2 (ivs.drop (binarySearch ivs y1)) (binarySearch ivs y1) = none)
    (hB : findBwdAux ivs y1 y2 (binarySearch ivs y1) = none) :
    remove ivs y1 y2 = ivs := by
  simp [remove, hF, hB]

theorem remove_sorted (ivs : List Interval) (y1 y2 : ℚ)
    (hs : List.Pairwise ivLe ivs) : List.Pairwise ivLe (remove ivs y1 y2) := by
  rcases hF : findFwdAux y1 y2 (ivs.drop (binarySearch ivs y1)) (binarySearch ivs y1)
    with _ | j
  · rcases hB : findBwdAux ivs y1 y2 (binarySearch ivs y1) with _ | j
    · rw [remove_eq_none ivs y1 y2 hF hB]; exact hs
    · rw [remove_eq_bwd ivs y1 y2 j hF hB]
      exact List.Pairwise.sublist (List.eraseIdx_sublist ivs j) hs
  · rw [remove_eq_fwd ivs y1 y2 j hF]
    exact List.Pairwise.sublist (List.eraseIdx_sublist ivs j) hs

theorem remove_multiset_mem (ivs : List Interval) (y1 y2 : ℚ)
    (hs : List.Pairwise ivLe ivs) (hmem : (y1, y2) ∈ ivs) :
    (ivs : Multiset Interval) = (y1, y2) ::ₘ (remove ivs y1 y2 : Multiset Interval) := by
  obtain ⟨hblen, hlow, hhigh⟩ := binarySearch_spec ivs y1 hs
  obtain ⟨⟨p, hple⟩, hp⟩ := List.mem_iff_get.mp hmem
  have hpkey : ivKey ivs p = y1 := by
    rw [ivKey_eq_get ivs p hple, hp]
  have hpval : ivVal ivs p = (y1, y2) := by
    rw [ivVal, List.getD_eq_getElem?_getD, List.getElem?_eq_getElem hple]
    simpa [List.get_eq_getElem] using hp
  rcases hF : findFwdAux y1 y2 (ivs.drop (binarySearch ivs y1)) (binarySearch ivs y1)
    with _ | j
  · -- forward scan failed: the match position must be below the anchor
    have hpidx : p < binarySearch ivs y1 := by
      by_contra hge
      push_neg at hge
      have hdk : ivVal (ivs.drop (binarySearch ivs y1)) (p - binarySearch ivs y1) =
          (y1, y2) := by
        rw [ivVal_drop, show binarySearch ivs y1 + (p - binarySearch ivs y1) = p by omega]
        exact hpval
      have hall : ∀ k', k' ≤ p - binarySearch ivs y1 →
          (ivVal (ivs.drop (binarySearch ivs y1)) k').1 = y1 := by
        intro k' hk'
        rw [ivVal_drop]
        have h1 : ivKey ivs (binarySearch ivs y1 + k') ≤ y1 := by
          calc ivKey ivs (binarySearch ivs y1 + k') ≤ ivKey ivs p :=
              ivKey_mono ivs hs (by omega) hple
            _ = y1 := hpkey
        have h2 : y1 ≤ ivKey ivs (binarySearch ivs y1 + k') :=
          hhigh (binarySearch ivs y1 + k') (by omega) (by omega)
        exact le_antisymm h1 h2
      obtain ⟨j, hj⟩ := findFwdAux_finds y1 y2 (ivs.drop (binarySearch ivs y1))
        (binarySearch ivs y1) (p - binarySearch ivs y1) (by simp; omega) hdk hall
      rw [hF] at hj
      exact absurd hj (by simp)
    have hall : ∀ k', p ≤ k' → k' < binarySearch ivs y1 → (ivVal ivs k').1 = y1 := by
      intro k' h1 h2
      have ha : ivKey ivs k' ≤ y1 := hlow k' h2
      have hb : y1 ≤ ivKey ivs k' := by
        calc y1 = ivKey ivs p := hpkey.symm
          _ ≤ ivKey ivs k' := ivKey_mono ivs hs h1 (by omega)
      exact le_antisymm ha hb
    obtain ⟨j, hj⟩ := findBwdAux_finds ivs y1 y2 (binarySearch ivs y1) p hpidx hpval hall
    rw [remove_eq_bwd ivs y1 y2 j hF hj]
    obtain ⟨hjlt, hjv⟩ := findBwdAux_some ivs y1 y2 (binarySearch ivs y1) j hj
    rw [← hjv]
    exact eraseIdx_cons_multiset ivs j (by omega)
  · rw [remove_eq_fwd ivs y1 y2 j hF]
    obtain ⟨hij, hjlen, hjv⟩ :=
      findFwdAux_some y1 y2 (ivs.drop (binarySearch ivs y1)) (binarySearch ivs y1) j hF
    have hjlen2 : j < ivs.length := by
      have := List.length_drop (binarySearch ivs y1) ivs
      omega
    have hv : ivVal ivs j = (y1, y2) := by
      rw [← hjv, ivVal_drop, show binarySearch ivs y1 + (j - binarySearch ivs y1) = j by omega]
    rw [← hv]
    exact eraseIdx_cons_multiset ivs j hjlen2

theorem remove_not_mem (ivs : List Interval) (y1 y2 : ℚ)
    (hmem : (y1, y2) ∉ ivs) : remove ivs y1 y2 = ivs := by
  rcases hF : findFwdAux y1 y2 (ivs.drop (binarySearch ivs y1)) (binarySearch ivs y1)
    with _ | j
  · rcases hB : findBwdAux ivs y1 y2 (binarySearch ivs y1) with _ | j
    · exact remove_eq_none ivs y1 y2 hF hB
    · obtain ⟨hjlt, hjv⟩ := findBwdAux_some ivs y1 y2 (binarySearch ivs y1) j hB
      by_cases hjl : j < ivs.length
      · exact absurd (hjv ▸ ivVal_mem ivs j hjl) hmem
      · rw [remove_eq_bwd ivs y1 y2 j hF hB]
        exact List.eraseIdx_of_length_le (by omega)
  · obtain ⟨hij, hjlen, hjv⟩ :=
      findFwdAux_some y1 y2 (ivs.drop (binarySearch ivs y1)) (binarySearch ivs y1) j hF
    have hjlen2 : j < ivs.length := by
      have := List.length_drop (binarySearch ivs y1) ivs
      omega
    have hv : ivVal ivs j = (y1, y2) := by
      rw [← hjv, ivVal_drop, show binarySearch ivs y1 + (j - binarySearch ivs y1) = j by omega]
    exact absurd (hv ▸ ivVal_mem ivs j hjlen2) hmem

/-! ## C3: the `#breakEdge` subtraction -/

theorem breakInner_none (x s e : ℚ) :
    ∀ (l : List Frag) (jj k : ℕ), jj = l.length + k →
      breakInner x s e l jj = none →
      k = 0 ∧ ∀ f ∈ l, s ≤ f.y1 ∧ f.y2 ≤ e
  | [], jj, k, hjj, h => by simp [breakInner] at h
  | f :: rest, jj, k, hjj, h => by
    simp only [breakInner] at h
    by_cases h1 : e ≤ f.y1 ∨ f.y2 ≤ s
    · rw [if_pos h1] at h
      rcases hrec : breakInner x s e rest jj with _ | p
      · have := breakInner_none x s e rest jj (k + 1)
          (by simp only [List.length_cons] at hjj; omega) hrec
        omega
      · rw [hrec] at h; simp at h
    · rw [if_neg h1] at h
      by_cases h2 : f.y1 ≥ s
      · rw [if_pos h2] at h
        by_cases h3 : f.y2 > e
        · rw [if_pos h3] at h
          rcases hrec : breakInner x s e rest jj with _ | p
          · have := breakInner_none x s e rest jj (k + 1)
              (by simp only [List.length_cons] at hjj; omega) hrec
            omega
          · rw [hrec] at h; simp at h
        · rw [if_neg h3] at h
          by_cases h4 : jj = 1
          · rw [if_pos h4] at h
            have hrest : rest = [] := by
              simp only [List.length_cons] at hjj
              exact List.length_eq_zero.mp (by omega)
            subst hrest
            refine ⟨by simp only [List.length_cons, List.length_nil] at hjj; omega,
              fun g hg => ?_⟩
            rcases List.mem_singleton.mp hg with rfl
            exact ⟨h2, not_lt.mp h3⟩
          · rw [if_neg h4] at h
            have := breakInner_none x s e rest (jj - 1) k
              (by simp only [List.length_cons] at hjj; omega) h
            refine ⟨this.1, fun g hg => ?_⟩
            rcases List.mem_cons.mp hg with rfl | hg
            · exact ⟨h2, not_lt.mp h3⟩
            · exact this.2 g hg
      · rw [if_neg h2] at h
        rcases hrec : breakInner x s e rest jj with _ | p
        · have := breakInner_none x s e rest jj (k + 1)
            (by simp only [List.length_cons] at hjj; omega) hrec
          omega
        · rw [hrec] at h; simp at h

theorem breakInner_some (x s e : ℚ) :
    ∀ (l : List Frag) (jj k : ℕ) (p : List Frag × List Frag), jj = l.length + k →
      breakInner x s e l jj = some p →
      p = (l.flatMap (breakKeep s e), l.flatMap (breakPush x s e))
  | [], jj, k, p, hjj, h => by
    simp only [breakInner, Option.some.injEq] at h
    simp [← h]
  | f :: rest, jj, k, p, hjj, h => by
    simp only [breakInner] at h
    by_cases h1 : e ≤ f.y1 ∨ f.y2 ≤ s
    · rw [if_pos h1] at h
      obtain ⟨q, hq, rfl⟩ := Option.map_eq_some'.mp h
      have hq2 := breakInner_some x s e rest jj (k + 1)
        q (by simp only [List.length_cons] at hjj; omega) hq
      subst hq2
      simp [List.flatMap_cons, breakKeep, breakPush, if_pos h1]
    · rw [if_neg h1] at h
      by_cases h2 : f.y1 ≥ s
      · rw [if_pos h2] at h
        by_cases h3 : f.y2 > e
        · rw [if_pos h3] at h
          obtain ⟨q, hq, rfl⟩ := Option.map_eq_some'.mp h
          have hq2 := breakInner_some x s e rest jj (k + 1)
            q (by simp only [List.length_cons] at hjj; omega) hq
          subst hq2
          simp [List.flatMap_cons, breakKeep, breakPush, if_neg h1, if_pos h2,
            if_pos h3]
        · rw [if_neg h3] at h
          by_cases h4 : jj = 1
          · rw [if_pos h4] at h; exact absurd h (by simp)
          · rw [if_neg h4] at h
            have hq2 := breakInner_some x s e rest (jj - 1) k
              p (by simp only [List.length_cons] at hjj; omega) h
            subst hq2
            simp [List.flatMap_cons, breakKeep, breakPush, if_neg h1, if_pos h2,
              if_neg h3]
      · rw [if_neg h2] at h
        obtain ⟨q, hq, rfl⟩ := Option.map_eq_some'.mp h
        have hq2 := breakInner_some x s e rest jj (k + 1)
          q (by simp only [List.length_cons] at hjj; omega) hq
        subst hq2
        simp [List.flatMap_cons, breakKeep, breakPush, if_neg h1, if_neg h2]

theorem breakRound_mem (x s e : ℚ) (L : List Frag) (g : Frag) :
    g ∈ breakRound x s e L ↔
      ∃ f ∈ L, g ∈ breakKeep s e f ∨ g ∈ breakPush x s e f := by
  constructor
  · intro h
    rcases List.mem_append.mp h with h | h
    · obtain ⟨f, hf, hg⟩ := List.mem_flatMap.mp h
      exact ⟨f, hf, Or.inl hg⟩
    · obtain ⟨f, hf, hg⟩ := List.mem_flatMap.mp h
      exact ⟨f, hf, Or.inr hg⟩
  · rintro ⟨f, hf, hg | hg⟩
    · exact List.mem_append.mpr (Or.inl (List.mem_flatMap.mpr ⟨f, hf, hg⟩))
    · exact List.mem_append.mpr (Or.inr (List.mem_flatMap.mpr ⟨f, hf, hg⟩))

theorem breakCase_disj (x s e : ℚ) (f : Frag) (h1 : e ≤ f.y1 ∨ f.y2 ≤ s) :
    breakKeep s e f = [f] ∧ breakPush x s e f = [] := by
  simp [breakKeep, breakPush, if_pos h1]

theorem breakCase_shrink (x s e : ℚ) (f : Frag) (h1 : ¬(e ≤ f.y1 ∨ f.y2 ≤ s))
    (h2 : f.y1 ≥ s) (h3 : f.y2 > e) :
    breakKeep s e f = [⟨f.x, e, f.y2⟩] ∧ breakPush x s e f = [] := by
  simp [breakKeep, breakPush, if_neg h1, if_pos h2, if_pos h3]

theorem breakCase_drop (x s e : ℚ) (f : Frag) (h1 : ¬(e ≤ f.y1 ∨ f.y2 ≤ s))
    (h2 : f.y1 ≥ s) (h3 : ¬(f.y2 > e)) :
    breakKeep s e f = [] ∧ breakPush x s e f = [] := by
  simp [breakKeep, breakPush, if_neg h1, if_pos h2, if_neg h3]

theorem breakCase_split (x s e : ℚ) (f : Frag) (h1 : ¬(e ≤ f.y1 ∨ f.y2 ≤ s))
    (h2 : ¬(f.y1 ≥ s)) :
    breakKeep s e f = [⟨f.x, f.y1, s⟩] ∧
    breakPush x s e f = (if f.y2 > e then [⟨x, e, f.y2⟩] else []) := by
  simp [breakKeep, breakPush, if_neg h1, if_neg h2]

theorem breakOut_x (x s e : ℚ) (f : Frag) (hx : f.x = x) (g : Frag)
    (hg : g ∈ breakKeep s e f ∨ g ∈ breakPush x s e f) : g.x = x := by
  by_cases h1 : e ≤ f.y1 ∨ f.y2 ≤ s
  · obtain ⟨hK, hP⟩ := breakCase_disj x s e f h1
    rw [hK, hP] at hg
    rcases hg with hg | hg
    · rcases List.mem_singleton.mp hg with rfl; exact hx
    · simp at hg
  · by_cases h2 : f.y1 ≥ s
    · by_cases h3 : f.y2 > e
      · obtain ⟨hK, hP⟩ := breakCase_shrink x s e f h1 h2 h3
        rw [hK, hP] at hg
        rcases hg with hg | hg
        · rcases List.mem_singleton.mp hg with rfl; exact hx
        · simp at hg
      · obtain ⟨hK, hP⟩ := breakCase_drop x s e f h1 h2 h3
        rw [hK, hP] at hg
        rcases hg with hg | hg <;> simp at hg
    · obtain ⟨hK, hP⟩ := breakCase_split x s e f h1 h2
      rw [hK, hP] at hg
      rcases hg with hg | hg
      · rcases List.mem_singleton.mp hg with rfl; exact hx
      · by_cases h3 : f.y2 > e
        · rw [if_pos h3] at hg
          rcases List.mem_singleton.mp hg with rfl; rfl
        · rw [if_neg h3] at hg; simp at hg

theorem breakOut_span (x s e : ℚ) (f : Frag) (hf : f.y1 < f.y2) (g : Frag)
    (hg : g ∈ breakKeep s e f ∨ g ∈ breakPush x s e f) :
    f.y1 ≤ g.y1 ∧ g.y1 < g.y2 ∧ g.y2 ≤ f.y2 := by
  by_cases h1 : e ≤ f.y1 ∨ f.y2 ≤ s
  · obtain ⟨hK, hP⟩ := breakCase_disj x s e f h1
    rw [hK, hP] at hg
    rcases hg with hg | hg
    · rcases List.mem_singleton.mp hg with rfl
      exact ⟨le_refl _, hf, le_refl _⟩
    · simp at hg
  · push_neg at h1
    obtain ⟨ha, hb⟩ := h1
    have h1 : ¬(e ≤ f.y1 ∨ f.y2 ≤ s) := by push_neg; exact ⟨ha, hb⟩
    by_cases h2 : f.y1 ≥ s
    · by_cases h3 : f.y2 > e
      · obtain ⟨hK, hP⟩ := breakCase_shrink x s e f h1 h2 h3
        rw [hK, hP] at hg
        rcases hg with hg | hg
        · rcases List.mem_singleton.mp hg with rfl
          exact ⟨le_of_lt ha, h3, le_refl _⟩
        · simp at hg
      · obtain ⟨hK, hP⟩ := breakCase_drop x s e f h1 h2 h3
        rw [hK, hP] at hg
        rcases hg with hg | hg <;> simp at hg
    · obtain ⟨hK, hP⟩ := breakCase_split x s e f h1 h2
      push_neg at h2
      rw [hK, hP] at hg
      rcases hg with hg | hg
      · rcases List.mem_singleton.mp hg with rfl
        exact ⟨le_refl _, h2, le_of_lt hb⟩
      · by_cases h3 : f.y2 > e
        · rw [if_pos h3] at hg
          rcases List.mem_singleton.mp hg with rfl
          exact ⟨le_of_lt ha, h3, le_refl _⟩
        · rw [if_neg h3] at hg; simp at hg

theorem breakOut_interior (x s e : ℚ) (f : Frag) (hf : f.y1 < f.y2) (hse : s ≤ e)
    (t : ℚ) :
    (∃ g, (g ∈ breakKeep s e f ∨ g ∈ breakPush x s e f) ∧ g.y1 < t ∧ t < g.y2) ↔
      (f.y1 < t ∧ t < f.y2 ∧ ¬(s ≤ t ∧ t ≤ e)) := by
  by_cases h1 : e ≤ f.y1 ∨ f.y2 ≤ s
  · obtain ⟨hK, hP⟩ := breakCase_disj x s e f h1
    rw [hK, hP]
    constructor
    · rintro ⟨g, hm | hm, hg1, hg2⟩
      · rcases List.mem_singleton.mp hm with rfl
        refine ⟨hg1, hg2, ?_⟩
        rintro ⟨hc1, hc2⟩
        rcases h1 with h1 | h1 <;> linarith
      · simp at hm
    · rintro ⟨ht1, ht2, _⟩
      exact ⟨f, Or.inl (List.mem_singleton.mpr rfl), ht1, ht2⟩
  · have h1' := h1
    push_neg at h1'
    obtain ⟨ha, hb⟩ := h1'
    by_cases h2 : f.y1 ≥ s
    · by_cases h3 : f.y2 > e
      · obtain ⟨hK, hP⟩ := breakCase_shrink x s e f h1 h2 h3
        rw [hK, hP]
        constructor
        · rintro ⟨g, hm | hm, hg1, hg2⟩
          · rcases List.mem_singleton.mp hm with rfl
            simp only at hg1 hg2
            refine ⟨by linarith, hg2, ?_⟩
            rintro ⟨hc1, hc2⟩
            linarith
          · simp at hm
        · rintro ⟨ht1, ht2, ht3⟩
          have he : e < t := by
            by_contra hle
            exact ht3 ⟨by linarith, by linarith⟩
          exact ⟨⟨f.x, e, f.y2⟩, Or.inl (List.mem_singleton.mpr rfl), he, ht2⟩
      · obtain ⟨hK, hP⟩ := breakCase_drop x s e f h1 h2 h3
        rw [hK, hP]
        constructor
        · rintro ⟨g, hm | hm, _, _⟩ <;> simp at hm
        · rintro ⟨ht1, ht2, ht3⟩
          exact absurd ⟨by linarith, by linarith⟩ ht3
    · obtain ⟨hK, hP⟩ := breakCase_split x s e f h1 h2
      push_neg at h2
      rw [hK, hP]
      constructor
      · rintro ⟨g, hm | hm, hg1, hg2⟩
        · rcases List.mem_singleton.mp hm with rfl
          simp only at hg1 hg2
          refine ⟨hg1, by linarith, ?_⟩
          rintro ⟨hc1, hc2⟩
          linarith
        · by_cases h3 : f.y2 > e
          · rw [if_pos h3] at hm
            rcases List.mem_singleton.mp hm with rfl
            simp only at hg1 hg2
            refine ⟨by linarith, hg2, ?_⟩
            rintro ⟨hc1, hc2⟩
            linarith
          · rw [if_neg h3] at hm; simp at hm
      · rintro ⟨ht1, ht2, ht3⟩
        rcases lt_or_le t s with h | h
        · exact ⟨⟨f.x, f.y1, s⟩, Or.inl (List.mem_singleton.mpr rfl), ht1, h⟩
        · have he : e < t := by
            by_contra hle
            exact ht3 ⟨h, by linarith⟩
          have h3 : f.y2 > e := by linarith
          refine ⟨⟨x, e, f.y2⟩, Or.inr ?_, he, ht2⟩
          rw [if_pos h3]
          exact List.mem_singleton.mpr rfl

theorem breakOut_ends (x s e : ℚ) (f : Frag) (hse : s ≤ e) (g : Frag)
    (hg : g ∈ breakKeep s e f ∨ g ∈ breakPush x s e f) :
    (g.y1 = f.y1 ∨ (s ≤ g.y1 ∧ g.y1 ≤ e)) ∧
    (g.y2 = f.y2 ∨ (s ≤ g.y2 ∧ g.y2 ≤ e)) := by
  by_cases h1 : e ≤ f.y1 ∨ f.y2 ≤ s
  · obtain ⟨hK, hP⟩ := breakCase_disj x s e f h1
    rw [hK, hP] at hg
    rcases hg with hg | hg
    · rcases List.mem_singleton.mp hg with rfl
      exact ⟨Or.inl rfl, Or.inl rfl⟩
    · simp at hg
  · by_cases h2 : f.y1 ≥ s
    · by_cases h3 : f.y2 > e
      · obtain ⟨hK, hP⟩ := breakCase_shrink x s e f h1 h2 h3
        rw [hK, hP] at hg
        rcases hg with hg | hg
        · rcases List.mem_singleton.mp hg with rfl
          exact ⟨Or.inr ⟨hse, le_refl _⟩, Or.inl rfl⟩
        · simp at hg
      · obtain ⟨hK, hP⟩ := breakCase_drop x s e f h1 h2 h3
        rw [hK, hP] at hg
        rcases hg with hg | hg <;> simp at hg
    · obtain ⟨hK, hP⟩ := breakCase_split x s e f h1 h2
      rw [hK, hP] at hg
      rcases hg with hg | hg
      · rcases List.mem_singleton.mp hg with rfl
        exact ⟨Or.inl rfl, Or.inr ⟨le_refl _, hse⟩⟩
      · by_cases h3 : f.y2 > e
        · rw [if_pos h3] at hg
          rcases List.mem_singleton.mp hg with rfl
          exact ⟨Or.inr ⟨hse, le_refl _⟩, Or.inl rfl⟩
        · rw [if_neg h3] at hg; simp at hg

theorem breakOut_sep (x s e : ℚ) (f : Frag) (hse : s ≤ e) (g1 g2 : Frag)
    (hg1 : g1 ∈ breakKeep s e f) (hg2 : g2 ∈ breakPush x s e f) :
    fragSep g1 g2 := by
  by_cases h1 : e ≤ f.y1 ∨ f.y2 ≤ s
  · rw [(breakCase_disj x s e f h1).2] at hg2
    simp at hg2
  · by_cases h2 : f.y1 ≥ s
    · by_cases h3 : f.y2 > e
      · rw [(breakCase_shrink x s e f h1 h2 h3).2] at hg2
        simp at hg2
      · rw [(breakCase_drop x s e f h1 h2 h3).2] at hg2
        simp at hg2
    · rw [(breakCase_split x s e f h1 h2).1] at hg1
      rw [(breakCase_split x s e f h1 h2).2] at hg2
      rcases List.mem_singleton.mp hg1 with rfl
      by_cases h3 : f.y2 > e
      · rw [if_pos h3] at hg2
        rcases List.mem_singleton.mp hg2 with rfl
        exact Or.inl hse
      · rw [if_neg h3] at hg2; simp at hg2

theorem ivPtCovers_append_singleton (P : List Interval) (iv : Interval) (t : ℚ) :
    ivPtCovers (P ++ [iv]) t ↔ ivPtCovers P t ∨ (iv.1 ≤ t ∧ t ≤ iv.2) := by
  constructor
  · rintro ⟨j, hj, h1, h2⟩
    rcases List.mem_append.mp hj with hj | hj
    · exact Or.inl ⟨j, hj, h1, h2⟩
    · rcases List.mem_singleton.mp hj with rfl
      exact Or.inr ⟨h1, h2⟩
  · rintro (⟨j, hj, h1, h2⟩ | ⟨h1, h2⟩)
    · exact ⟨j, List.mem_append.mpr (Or.inl hj), h1, h2⟩
    · exact ⟨iv, List.mem_append.mpr (Or.inr (List.mem_singleton.mpr rfl)), h1, h2⟩

theorem ivPtCovers_mono_append {P : List Interval} {iv : Interval} {t : ℚ}
    (h : ivPtCovers P t) : ivPtCovers (P ++ [iv]) t :=
  (ivPtCovers_append_singleton P iv t).mpr (Or.inl h)

theorem length_le_one_pairwise {R : α → α → Prop} :
    ∀ (l : List α), l.length ≤ 1 → List.Pairwise R l
  | [], _ => List.Pairwise.nil
  | [a], _ => by simp
  | a :: b :: l, h => by simp at h

theorem breakKeep_length (s e : ℚ) (f : Frag) : (breakKeep s e f).length ≤ 1 := by
  unfold breakKeep
  by_cases h1 : e ≤ f.y1 ∨ f.y2 ≤ s <;> by_cases h2 : f.y1 ≥ s <;>
    by_cases h3 : f.y2 > e <;> simp [h1, h2, h3]

theorem breakPush_length (x s e : ℚ) (f : Frag) : (breakPush x s e f).length ≤ 1 := by
  unfold breakPush
  by_cases h1 : e ≤ f.y1 ∨ f.y2 ≤ s <;> by_cases h2 : f.y1 ≥ s <;>
    by_cases h3 : f.y2 > e <;> simp [h1, h2, h3]

theorem fragSep_of_sub {f1 f2 g1 g2 : Frag} (h : fragSep f1 f2)
    (h1 : f1.y1 ≤ g1.y1 ∧ g1.y2 ≤ f1.y2) (h2 : f2.y1 ≤ g2.y1 ∧ g2.y2 ≤ f2.y2) :
    fragSep g1 g2 := by
  rcases h with h | h
  · exact Or.inl (by linarith [h1.2, h2.1])
  · exact Or.inr (by linarith [h2.2, h1.1])

theorem breakRound_pairwise (x s e : ℚ) (L : List Frag) (hse : s ≤ e)
    (hL : List.Pairwise fragSep L) (hspan : ∀ f ∈ L, f.y1 < f.y2) :
    List.Pairwise fragSep (breakRound x s e L) := by
  have hLmem : List.Pairwise (fun f1 f2 => f1 ∈ L ∧ f2 ∈ L ∧ fragSep f1 f2) L :=
    List.Pairwise.and_mem.mp hL
  rw [breakRound, List.pairwise_append]
  refine ⟨?_, ?_, ?_⟩
  · rw [List.flatMap_def, List.pairwise_flatten]
    refine ⟨?_, ?_⟩
    · intro l2 hl2
      obtain ⟨f, hf, rfl⟩ := List.mem_map.mp hl2
      exact length_le_one_pairwise _ (breakKeep_length s e f)
    · rw [List.pairwise_map]
      refine hLmem.imp ?_
      rintro f1 f2 ⟨hf1, hf2, hsep⟩ g1 hg1 g2 hg2
      exact fragSep_of_sub hsep
        ⟨(breakOut_span x s e f1 (hspan f1 hf1) g1 (Or.inl hg1)).1,
         (breakOut_span x s e f1 (hspan f1 hf1) g1 (Or.inl hg1)).2.2⟩
        ⟨(breakOut_span x s e f2 (hspan f2 hf2) g2 (Or.inl hg2)).1,
         (breakOut_span x s e f2 (hspan f2 hf2) g2 (Or.inl hg2)).2.2⟩
  · rw [List.flatMap_def, List.pairwise_flatten]
    refine ⟨?_, ?_⟩
    · intro l2 hl2
      obtain ⟨f, hf, rfl⟩ := List.mem_map.mp hl2
      exact length_le_one_pairwise _ (breakPush_length x s e f)
    · rw [List.pairwise_map]
      refine hLmem.imp ?_
      rintro f1 f2 ⟨hf1, hf2, hsep⟩ g1 hg1 g2 hg2
      exact fragSep_of_sub hsep
        ⟨(breakOut_span x s e f1 (hspan f1 hf1) g1 (Or.inr hg1)).1,
         (breakOut_span x s e f1 (hspan f1 hf1) g1 (Or.inr hg1)).2.2⟩
        ⟨(breakOut_span x s e f2 (hspan f2 hf2) g2 (Or.inr hg2)).1,
         (breakOut_span x s e f2 (hspan f2 hf2) g2 (Or.inr hg2)).2.2⟩
  · intro a ha b hb
    obtain ⟨f1, hf1, hga⟩ := List.mem_flatMap.mp ha
    obtain ⟨f2, hf2, hgb⟩ := List.mem_flatMap.mp hb
    by_cases hff : f1 = f2
    · subst hff
      exact breakOut_sep x s e f1 hse a b hga hgb
    · have hsep : fragSep f1 f2 :=
        List.Pairwise.forall (fun p q h => Or.symm h) hL hf1 hf2 hff
      exact fragSep_of_sub hsep
        ⟨(breakOut_span x s e f1 (hspan f1 hf1) a (Or.inl hga)).1,
         (breakOut_span x s e f1 (hspan f1 hf1) a (Or.inl hga)).2.2⟩
        ⟨(breakOut_span x s e f2 (hspan f2 hf2) b (Or.inr hgb)).1,
         (breakOut_span x s e f2 (hspan f2 hf2) b (Or.inr hgb)).2.2⟩

theorem breakInv_round (eg : Edge) (P : List Interval) (L : List Frag) (s e : ℚ)
    (hse : s ≤ e) (h : breakInv eg P L) :
    breakInv eg (P ++ [(s, e)]) (breakRound eg.x s e L) := by
  obtain ⟨hA, hB, hC, hD⟩ := h
  refine ⟨?_, ?_, ?_, ?_⟩
  · intro g hg
    obtain ⟨f, hf, hgm⟩ := (breakRound_mem _ _ _ _ _).mp hg
    obtain ⟨hx, hb1, hb2, hb3⟩ := hA f hf
    obtain ⟨hs1, hs2, hs3⟩ := breakOut_span eg.x s e f hb2 g hgm
    exact ⟨breakOut_x eg.x s e f hx g hgm, le_trans hb1 hs1, hs2, le_trans hs3 hb3⟩
  · intro t
    constructor
    · rintro ⟨g, hg, hg1, hg2⟩
      obtain ⟨f, hf, hgm⟩ := (breakRound_mem _ _ _ _ _).mp hg
      obtain ⟨hx, hb1, hb2, hb3⟩ := hA f hf
      obtain ⟨ht1, ht2, ht3⟩ := (breakOut_interior eg.x s e f hb2 hse t).mp
        ⟨g, hgm, hg1, hg2⟩
      obtain ⟨hq1, hq2, hq3⟩ := (hB t).mp ⟨f, hf, ht1, ht2⟩
      refine ⟨hq1, hq2, ?_⟩
      rw [ivPtCovers_append_singleton]
      rintro (hc | hc)
      · exact hq3 hc
      · exact ht3 hc
    · rintro ⟨hq1, hq2, hcov⟩
      rw [ivPtCovers_append_singleton] at hcov
      obtain ⟨f, hf, ht1, ht2⟩ := (hB t).mpr ⟨hq1, hq2, fun hc => hcov (Or.inl hc)⟩
      obtain ⟨hx, hb1, hb2, hb3⟩ := hA f hf
      obtain ⟨g, hgm, hg1, hg2⟩ := (breakOut_interior eg.x s e f hb2 hse t).mpr
        ⟨ht1, ht2, fun hc => hcov (Or.inr hc)⟩
      exact ⟨g, (breakRound_mem _ _ _ _ _).mpr ⟨f, hf, hgm⟩, hg1, hg2⟩
  · intro g hg
    obtain ⟨f, hf, hgm⟩ := (breakRound_mem _ _ _ _ _).mp hg
    obtain ⟨he1, he2⟩ := breakOut_ends eg.x s e f hse g hgm
    obtain ⟨hc1, hc2⟩ := hC f hf
    constructor
    · rcases he1 with he1 | he1
      · rw [he1]
        rcases hc1 with hc1 | hc1
        · exact Or.inl hc1
        · exact Or.inr (ivPtCovers_mono_append hc1)
      · exact Or.inr ((ivPtCovers_append_singleton P (s, e) g.y1).mpr (Or.inr he1))
    · rcases he2 with he2 | he2
      · rw [he2]
        rcases hc2 with hc2 | hc2
        · exact Or.inl hc2
        · exact Or.inr (ivPtCovers_mono_append hc2)
      · exact Or.inr ((ivPtCovers_append_singleton P (s, e) g.y2).mpr (Or.inr he2))
  · exact breakRound_pairwise eg.x s e L hse hD (fun f hf => (hA f hf).2.2.1)

theorem breakNone_step (eg : Edge) (P : List Interval) (L : List Frag) (s e : ℚ)
    (h : breakInv eg P L) (hcov : ∀ f ∈ L, s ≤ f.y1 ∧ f.y2 ≤ e) :
    ∀ t : ℚ, eg.y1 < t → t < eg.y2 → ivPtCovers (P ++ [(s, e)]) t := by
  intro t ht1 ht2
  rw [ivPtCovers_append_singleton]
  by_cases hP : ivPtCovers P t
  · exact Or.inl hP
  · obtain ⟨f, hf, hg1, hg2⟩ := (h.2.1 t).mpr ⟨ht1, ht2, hP⟩
    obtain ⟨hc1, hc2⟩ := hcov f hf
    exact Or.inr ⟨by linarith, by linarith⟩

theorem breakFold_inv (eg : Edge) :
    ∀ (todo done : List Interval) (st : Option (List Frag)),
      (∀ iv ∈ todo, iv.1 ≤ iv.2) → breakStateInv eg done st →
      breakStateInv eg (done ++ todo) (todo.foldl (breakEdgeStep eg.x) st)
  | [], done, st, _, h => by simpa using h
  | iv :: rest, done, st, hwf, h => by
    rw [List.foldl_cons]
    have hres : breakStateInv eg (done ++ [iv]) (breakEdgeStep eg.x st iv) := by
      rcases st with _ | L
      · intro t ht1 ht2
        exact ivPtCovers_mono_append (h t ht1 ht2)
      · rcases hbi : breakInner eg.x iv.1 iv.2 L L.length with _ | p
        · have hn := breakInner_none eg.x iv.1 iv.2 L L.length 0 (by omega) hbi
          have hstep : breakEdgeStep eg.x (some L) iv = none := by
            simp [breakEdgeStep, hbi]
          rw [hstep]
          intro t ht1 ht2
          exact breakNone_step eg done L iv.1 iv.2 h hn.2 t ht1 ht2
        · have hp := breakInner_some eg.x iv.1 iv.2 L L.length 0 p (by omega) hbi
          have hstep : breakEdgeStep eg.x (some L) iv =
              some (breakRound eg.x iv.1 iv.2 L) := by
            simp [breakEdgeStep, hbi, hp, breakRound]
          rw [hstep]
          exact breakInv_round eg done L iv.1 iv.2 (hwf iv (by simp)) h
    have hrec := breakFold_inv eg rest (done ++ [iv]) _
      (fun j hj => hwf j (by simp [hj])) hres
    simpa [List.append_assoc] using hrec

theorem take_covers_imp (ivs : List Interval) (idx : ℕ) (ylim t : ℚ) (ht : t < ylim)
    (h : ivPtCovers (ivs.take idx) t) : ivPtCoversLt ivs ylim t := by
  obtain ⟨iv, hiv, h1, h2⟩ := h
  exact ⟨iv, List.take_subset idx ivs hiv, by linarith, h1, h2⟩

theorem covers_lt_imp_take (ivs : List Interval) (ylim t : ℚ)
    (hs : List.Pairwise ivLe ivs) (h : ivPtCoversLt ivs ylim t) :
    ivPtCovers (ivs.take (binarySearch ivs ylim)) t := by
  obtain ⟨iv, hiv, hlt, h1, h2⟩ := h
  obtain ⟨hblen, hlow, hhigh⟩ := binarySearch_spec ivs ylim hs
  obtain ⟨⟨p, hple⟩, hp⟩ := List.mem_iff_get.mp hiv
  have hkey : ivKey ivs p = iv.1 := by rw [ivKey_eq_get ivs p hple, hp]
  have hpidx : p < binarySearch ivs ylim := by
    by_contra hge
    push_neg at hge
    have := hhigh p hge hple
    rw [hkey] at this
    linarith
  refine ⟨iv, ?_, h1, h2⟩
  rw [List.mem_iff_get]
  refine ⟨⟨p, ?_⟩, ?_⟩
  · simp only [List.length_take]
    omega
  · simp only [List.get_eq_getElem, List.getElem_take]
    simpa [List.get_eq_getElem] using hp

theorem breakEdge_spec (ivs : List Interval) (eg : Edge)
    (hs : List.Pairwise ivLe ivs) (hwf : ∀ iv ∈ ivs, iv.1 ≤ iv.2)
    (hy : eg.y1 < eg.y2) :
    (∀ f ∈ breakEdge ivs eg, f.x = eg.x ∧ eg.y1 ≤ f.y1 ∧ f.y1 < f.y2 ∧ f.y2 ≤ eg.y2) ∧
    (∀ t : ℚ, fragCovers (breakEdge ivs eg) t ↔
      (eg.y1 < t ∧ t < eg.y2 ∧ ¬ ivPtCoversLt ivs eg.y2 t)) ∧
    (∀ f ∈ breakEdge ivs eg,
      (f.y1 = eg.y1 ∨ ivPtCoversLt ivs eg.y2 f.y1) ∧
      (f.y2 = eg.y2 ∨ ivPtCoversLt ivs eg.y2 f.y2)) ∧
    List.Pairwise fragSep (breakEdge ivs eg) := by
  have hbase : breakStateInv eg [] (some [⟨eg.x, eg.y1, eg.y2⟩]) := by
    refine ⟨?_, ?_, ?_, ?_⟩
    · rintro f hf
      rcases List.mem_singleton.mp hf with rfl
      exact ⟨rfl, le_refl _, hy, le_refl _⟩
    · intro t
      constructor
      · rintro ⟨f, hf, h1, h2⟩
        rcases List.mem_singleton.mp hf with rfl
        refine ⟨h1, h2, ?_⟩
        rintro ⟨iv, hiv, _⟩
        simp at hiv
      · rintro ⟨h1, h2, _⟩
        exact ⟨_, List.mem_singleton.mpr rfl, h1, h2⟩
    · rintro f hf
      rcases List.mem_singleton.mp hf with rfl
      exact ⟨Or.inl rfl, Or.inl rfl⟩
    · exact List.pairwise_singleton _ _
  have hfold := breakFold_inv eg (ivs.take (binarySearch ivs eg.y2)) []
    (some [⟨eg.x, eg.y1, eg.y2⟩])
    (fun iv hiv => hwf iv (List.take_subset _ ivs hiv)) hbase
  rw [List.nil_append] at hfold
  rcases hres : (ivs.take (binarySearch ivs eg.y2)).foldl (breakEdgeStep eg.x)
      (some [⟨eg.x, eg.y1, eg.y2⟩]) with _ | L
  · have hBE : breakEdge ivs eg = [] := by simp [breakEdge, hres]
    rw [hres] at hfold
    rw [hBE]
    refine ⟨by simp, ?_, by simp, by simp⟩
    intro t
    constructor
    · rintro ⟨f, hf, _⟩
      simp at hf
    · rintro ⟨h1, h2, hnc⟩
      exact absurd (take_covers_imp ivs _ eg.y2 t h2 (hfold t h1 h2)) hnc
  · have hBE : breakEdge ivs eg = L := by simp [breakEdge, hres]
    rw [hres] at hfold
    obtain ⟨hA, hB, hC, hD⟩ := hfold
    rw [hBE]
    refine ⟨hA, ?_, ?_, hD⟩
    · intro t
      rw [hB t]
      constructor
      · rintro ⟨h1, h2, hnc⟩
        exact ⟨h1, h2, fun hc => hnc (covers_lt_imp_take ivs eg.y2 t hs hc)⟩
      · rintro ⟨h1, h2, hnc⟩
        exact ⟨h1, h2, fun hc => hnc (take_covers_imp ivs _ eg.y2 t h2 hc)⟩
    · intro f hf
      obtain ⟨hx, hb1, hb2, hb3⟩ := hA f hf
      obtain ⟨hc1, hc2⟩ := hC f hf
      constructor
      · rcases hc1 with hc1 | hc1
        · exact Or.inl hc1
        · exact Or.inr (take_covers_imp ivs _ eg.y2 f.y1 (by linarith) hc1)
      · rcases hc2 with hc2 | hc2
        · exact Or.inl hc2
        · rcases eq_or_lt_of_le hb3 with heq | hlt
          · exact Or.inl heq
          · exact Or.inr (take_covers_imp ivs _ eg.y2 f.y2 hlt hc2)

/-- **C3, confirmed.**  For every edge `(x, y1, y2)` with `y1 < y2` and
every well-formed active interval array sorted by start, `#breakEdge`
returns exactly the maximal sub-segments of `[y1, y2]` not covered by any
active interval whose start is less than `y2`: every returned fragment
carries the edge's abscissa and sits inside `[y1, y2]`; a point lies
strictly inside some returned fragment iff it lies strictly inside the edge
and is not covered by such an interval; every fragment endpoint is an edge
endpoint or is itself covered (so no fragment can be extended); and the
fragments are pairwise separated.  The result may be empty (edge fully
covered) or contain more than one fragment (edge split by covered gaps). -/
theorem c3_break_edge_maximal_uncovered (ivs : List Interval) (eg : Edge)
    (hs : List.Pairwise ivLe ivs) (hwf : ∀ iv ∈ ivs, iv.1 ≤ iv.2)
    (hy : eg.y1 < eg.y2) :
    (∀ f ∈ breakEdge ivs eg, f.x = eg.x ∧ eg.y1 ≤ f.y1 ∧ f.y1 < f.y2 ∧ f.y2 ≤ eg.y2) ∧
    (∀ t : ℚ, fragCovers (breakEdge ivs eg) t ↔
      (eg.y1 < t ∧ t < eg.y2 ∧ ¬ ivPtCoversLt ivs eg.y2 t)) ∧
    (∀ f ∈ breakEdge ivs eg,
      (f.y1 = eg.y1 ∨ ivPtCoversLt ivs eg.y2 f.y1) ∧
      (f.y2 = eg.y2 ∨ ivPtCoversLt ivs eg.y2 f.y2)) ∧
    List.Pairwise fragSep (breakEdge ivs eg) :=
  breakEdge_spec ivs eg hs hwf hy

/-- **C3, witness**: the characterization applied to the edge
`(5, 0, 3)` against the single active interval `[1, 2]`. -/
theorem c3_witness :
    List.Pairwise ivLe [((1 : ℚ), (2 : ℚ))] ∧ (∀ iv ∈ [((1 : ℚ), (2 : ℚ))], iv.1 ≤ iv.2) ∧
    (Edge.mk 5 0 3 true).y1 < (Edge.mk 5 0 3 true).y2 ∧
    ((∀ f ∈ breakEdge [((1 : ℚ), (2 : ℚ))] (Edge.mk 5 0 3 true),
        f.x = (Edge.mk 5 0 3 true).x ∧ (Edge.mk 5 0 3 true).y1 ≤ f.y1 ∧
        f.y1 < f.y2 ∧ f.y2 ≤ (Edge.mk 5 0 3 true).y2) ∧
      (∀ t : ℚ, fragCovers (breakEdge [((1 : ℚ), (2 : ℚ))] (Edge.mk 5 0 3 true)) t ↔
        ((Edge.mk 5 0 3 true).y1 < t ∧ t < (Edge.mk 5 0 3 true).y2 ∧
          ¬ ivPtCoversLt [((1 : ℚ), (2 : ℚ))] (Edge.mk 5 0 3 true).y2 t)) ∧
      (∀ f ∈ breakEdge [((1 : ℚ), (2 : ℚ))] (Edge.mk 5 0 3 true),
        (f.y1 = (Edge.mk 5 0 3 true).y1 ∨
          ivPtCoversLt [((1 : ℚ), (2 : ℚ))] (Edge.mk 5 0 3 true).y2 f.y1) ∧
        (f.y2 = (Edge.mk 5 0 3 true).y2 ∨
          ivPtCoversLt [((1 : ℚ), (2 : ℚ))] (Edge.mk 5 0 3 true).y2 f.y2)) ∧
      List.Pairwise fragSep (breakEdge [((1 : ℚ), (2 : ℚ))] (Edge.mk 5 0 3 true))) := by
  have h1 : List.Pairwise ivLe [((1 : ℚ), (2 : ℚ))] := List.pairwise_singleton _ _
  have h2 : ∀ iv ∈ [((1 : ℚ), (2 : ℚ))], iv.1 ≤ iv.2 := by
    rintro iv hiv
    rcases List.mem_singleton.mp hiv with rfl
    norm_num
  have h3 : (Edge.mk 5 0 3 true).y1 < (Edge.mk 5 0 3 true).y2 := by norm_num
  exact ⟨h1, h2, h3, c3_break_edge_maximal_uncovered [((1 : ℚ), (2 : ℚ))]
    (Edge.mk 5 0 3 true) h1 h2 h3⟩

/-! ## C8: the active interval array invariants -/

/-- **C8, counterexample.**  The claim says ties are kept in insertion
order.  Inserting `(0, 1)` and then `(0, 2)` produces `[(0, 2), (0, 1)]`:
the binary search returns the exact-match anchor and the splice puts the
*newer* interval first, so equal-`y1` ties are **not** in insertion order
(which would be `[(0, 1), (0, 2)]`). -/
theorem c8_counterexample :
    insert (insert [] 0 1) 0 2 = [(0, 2), (0, 1)] ∧
    [((0 : ℚ), (2 : ℚ)), (0, 1)] ≠ [((0 : ℚ), (1 : ℚ)), (0, 2)] := by
  constructor
  · norm_num [insert, binarySearch, binarySearchAux, insertAt, ivKey, ivVal]
  · simp only [ne_eq, List.cons.injEq, Prod.mk.injEq]
    norm_num

/-- **C8, amended.**  The active interval array is kept sorted by start
`y1` after every insert and remove (equal-`y1` ties sit in the
binary-search-determined order, not necessarily insertion order); an insert
adds exactly its interval (never merging); a remove deletes exactly one
interval whose `(y1, y2)` both match exactly — even among duplicates — and
deletes nothing when no exact match exists. -/
theorem c8_amended (ivs : List Interval) (y1 y2 : ℚ)
    (hs : List.Pairwise ivLe ivs) :
    List.Pairwise ivLe (insert ivs y1 y2) ∧
    (insert ivs y1 y2 : Multiset Interval) = (y1, y2) ::ₘ (ivs : Multiset Interval) ∧
    List.Pairwise ivLe (remove ivs y1 y2) ∧
    ((y1, y2) ∈ ivs →
      (ivs : Multiset Interval) = (y1, y2) ::ₘ (remove ivs y1 y2 : Multiset Interval)) ∧
    ((y1, y2) ∉ ivs → remove ivs y1 y2 = ivs) :=
  ⟨insert_sorted ivs y1 y2 hs, insert_multiset ivs y1 y2, remove_sorted ivs y1 y2 hs,
   fun h => remove_multiset_mem ivs y1 y2 hs h, fun h => remove_not_mem ivs y1 y2 h⟩

/-- **C8, witness**: `c8_amended` applied to the duplicate-holding sorted
array `[(0, 1), (0, 1)]`. -/
theorem c8_witness :
    List.Pairwise ivLe [((0 : ℚ), (1 : ℚ)), ((0 : ℚ), (1 : ℚ))] ∧
    (List.Pairwise ivLe (insert [((0 : ℚ), (1 : ℚ)), ((0 : ℚ), (1 : ℚ))] 0 1) ∧
     (insert [((0 : ℚ), (1 : ℚ)), ((0 : ℚ), (1 : ℚ))] 0 1 : Multiset Interval) =
       (0, 1) ::ₘ ([((0 : ℚ), (1 : ℚ)), ((0 : ℚ), (1 : ℚ))] : Multiset Interval) ∧
     List.Pairwise ivLe (remove [((0 : ℚ), (1 : ℚ)), ((0 : ℚ), (1 : ℚ))] 0 1) ∧
     (((0 : ℚ), (1 : ℚ)) ∈ [((0 : ℚ), (1 : ℚ)), ((0 : ℚ), (1 : ℚ))] →
       ([((0 : ℚ), (1 : ℚ)), ((0 : ℚ), (1 : ℚ))] : Multiset Interval) =
         (0, 1) ::ₘ (remove [((0 : ℚ), (1 : ℚ)), ((0 : ℚ), (1 : ℚ))] 0 1 : Multiset Interval)) ∧
     (((0 : ℚ), (1 : ℚ)) ∉ [((0 : ℚ), (1 : ℚ)), ((0 : ℚ), (1 : ℚ))] →
       remove [((0 : ℚ), (1 : ℚ)), ((0 : ℚ), (1 : ℚ))] 0 1 =
         [((0 : ℚ), (1 : ℚ)), ((0 : ℚ), (1 : ℚ))])) := by
  have hs : List.Pairwise ivLe [((0 : ℚ), (1 : ℚ)), ((0 : ℚ), (1 : ℚ))] := by
    norm_num [List.pairwise_cons, ivLe]
  exact ⟨hs, c8_amended [((0 : ℚ), (1 : ℚ)), ((0 : ℚ), (1 : ℚ))] 0 1 hs⟩

/-! ## C9: construction on empty and degenerate input -/

/-- **C9, counterexample.**  The claim says the engine "never silently
returns a result whose bounding box or coordinates are NaN-polluted".  For
the single degenerate box `{x:0, y:0, width:0, height:0}` (no border, no
margin) construction succeeds silently and the bounding-box width is `0`, so
every rescaled abscissa in the returned state is `(x - shiftedMinX) / 0` —
`0/0`, i.e. `NaN` in the source's float arithmetic. -/
theorem c9_counterexample :
    (construct [⟨0, 0, 0, 0⟩] 0 0 true true).map (fun st => st.box.width) = some 0 := by
  norm_num [construct, verticalEdgesRaw, boxEdges, boxX1, boxX2, boxY1, boxY2,
    quantFloor, quantCeil, EPSILON, NUMBER_OF_DIGITS, minXOf, maxXOf, minYOf, maxYOf,
    foldMinQ, foldMaxQ]

/-- **C9, amended.**  Constructing with an empty box list does fail fast (the
trailing-edge lookup faults before anything is returned, modelled by `none`);
but construction with any non-empty box list always succeeds — even when the
quantized bounding box is degenerate and the box-relative rescaling divides
by zero (silent NaN in the source), as `c9_counterexample` shows. -/
theorem c9_amended :
    (∀ (bw im : ℚ) (ltr sk : Bool), construct [] bw im ltr sk = none) ∧
    ∀ (boxes : List Box) (bw im : ℚ) (ltr sk : Bool), boxes ≠ [] →
      (construct boxes bw im ltr sk).isSome = true := by
  constructor
  · intro bw im ltr sk
    simp [construct, verticalEdgesRaw]
  · intro boxes bw im ltr sk hne
    have hlen : (verticalEdgesRaw bw boxes).length = 2 * boxes.length :=
      verticalEdgesRaw_length bw boxes
    have hpos : 0 < boxes.length := List.length_pos.mpr hne
    have h1 : (verticalEdgesRaw bw boxes).getLast?.isSome := by
      rw [List.getLast?_isSome]
      intro h
      rw [h] at hlen
      simp only [List.length_nil] at hlen
      omega
    have h2 : (verticalEdgesRaw bw boxes).dropLast.getLast?.isSome := by
      rw [List.getLast?_isSome]
      intro h
      have := congrArg List.length h
      rw [List.length_dropLast, hlen] at this
      simp only [List.length_nil] at this
      omega
    rcases h : (if ltr then (verticalEdgesRaw bw boxes).getLast?
        else (verticalEdgesRaw bw boxes).dropLast.getLast?) with _ | lastE
    · exfalso
      cases ltr <;> simp at h <;> simp [h] at h1 h2
    · simp only [construct, h, Option.isSome_some]

/-- **C9, witness** for `c9_amended`: the empty list is rejected and the
one-unit-box list is accepted. -/
theorem c9_witness :
    construct [] 0 0 true true = none ∧
    (construct [⟨0, 0, 1, 1⟩] 0 0 true true).isSome = true :=
  ⟨c9_amended.1 0 0 true true,
   c9_amended.2 [⟨0, 0, 1, 1⟩] 0 0 true true (by simp)⟩

/-! ## C6: the `lastPoint` -/

/-- **C6, counterexample.**  With the boxes supplied right-to-left
(`{x:10, w:1}` then `{x:0, w:1}`, no border) and `isLTR = true`, the
rightmost quantized edge in ascending `(x, y1, y2)` sort order is
`[11, 0, 1, false]`, whose `(x, y2)` endpoint is `(11, 1)`; but the
constructed `lastPoint` is `(1, 1)` — the right edge of the *last input*
box, not of the sort-order rightmost edge. -/
theorem c6_counterexample :
    (construct [⟨10, 0, 1, 1⟩, ⟨0, 0, 1, 1⟩] 0 0 true true).map
        (fun st => st.box.lastPoint) = some (1, 1) ∧
    (stableSort edgeLe (verticalEdgesRaw 0 [⟨10, 0, 1, 1⟩, ⟨0, 0, 1, 1⟩])).getLast? =
      some ⟨11, 0, 1, false⟩ ∧
    ((1 : ℚ), (1 : ℚ)) ≠ ((11 : ℚ), (1 : ℚ)) := by
  refine ⟨?_, ?_, by norm_num [Prod.ext_iff]⟩
  · norm_num [construct, verticalEdgesRaw, boxEdges, boxX1, boxX2, boxY1, boxY2,
      quantFloor, quantCeil, EPSILON, NUMBER_OF_DIGITS, minXOf, maxXOf, minYOf, maxYOf,
      foldMinQ, foldMaxQ]
  · norm_num [stableSort, insSorted, edgeLe, verticalEdgesRaw, boxEdges,
      boxX1, boxX2, boxY1, boxY2, quantFloor, quantCeil, EPSILON, NUMBER_OF_DIGITS]

/-- **C6, amended.**  For every non-empty input list the `lastPoint` is the
`(x, y2)` endpoint of the last *constructed* (input-order) vertical edge:
the right edge of the final input box when `isLTR`, and the left edge of the
final input box otherwise.  (It coincides with the sort-order rightmost edge
only when the caller supplies the boxes in reading order.) -/
theorem c6_amended (bs : List Box) (b : Box) (bw im : ℚ) (sk : Bool) :
    (construct (bs ++ [b]) bw im true sk).map (fun st => st.box.lastPoint) =
      some (boxX2 bw b, boxY2 bw b) ∧
    (construct (bs ++ [b]) bw im false sk).map (fun st => st.box.lastPoint) =
      some (boxX1 bw b, boxY2 bw b) := by
  have hsplit : verticalEdgesRaw bw (bs ++ [b]) =
      (verticalEdgesRaw bw bs ++ [⟨boxX1 bw b, boxY1 bw b, boxY2 bw b, true⟩]) ++
        [⟨boxX2 bw b, boxY1 bw b, boxY2 bw b, false⟩] := by
    rw [verticalEdgesRaw_append]
    simp [verticalEdgesRaw, boxEdges]
  have hlast : (verticalEdgesRaw bw (bs ++ [b])).getLast? =
      some ⟨boxX2 bw b, boxY1 bw b, boxY2 bw b, false⟩ := by
    rw [hsplit, List.getLast?_concat]
  have hlast2 : (verticalEdgesRaw bw (bs ++ [b])).dropLast.getLast? =
      some ⟨boxX1 bw b, boxY1 bw b, boxY2 bw b, true⟩ := by
    rw [hsplit, List.dropLast_concat, List.getLast?_concat]
  constructor <;> simp [construct, hlast, hlast2]

/-! ## C5: the run-partition gap condition -/

/-- **C5, counterexample.**  Same-baseline boxes with x-ranges `[0, 10]` and
`[12, 40]` and line height `10` (`maxSpaceSize = 20`): the gap between the
second box's left edge and the previous run's right edge is `2 ≤ 20`, so the
claim requires the second box to extend the run into `[0, 40]`; the code
instead compares right edges (`40 - 10 = 30 > 20`) and starts a new run. -/
theorem c5_counterexample :
    partitionedLines 0 [⟨0, 0, 10, 10⟩, ⟨12, 0, 28, 10⟩] =
      [(10, [⟨0, 0, 10⟩, ⟨12, 0, 40⟩])] ∧
    (12 : ℚ) - 10 ≤ 2 * (10 - 0) := by
  refine ⟨?_, by norm_num⟩
  norm_num [partitionedLines, mergedGroups, sortedGroups, stableSort, insSorted,
    lineByBaseHeight, pushGroup, boxY1, boxY2, boxX1, boxX2, quantFloor, quantCeil,
    EPSILON, NUMBER_OF_DIGITS, mergeGo, jsStrGe, jsNumCodes, natCodes, natCodesAux,
    fracCodes, codesGe, lboxLe, partitionGo]

/-- **C5, amended.**  A box starts a new run iff the difference between its
*right* edge and the previous run's right edge (`currentBox.x2 - lastBox.x2`,
not the left-edge gap the claim describes) exceeds
`2 × (baseline_y2 − minY1)`; otherwise it extends the current run, whose
x-span becomes the union of both spans and whose `y1` becomes the minimum of
both.  The claim's concrete example is unaffected: same-baseline boxes at
`[0,10]`, `[12,20]`, `[200,210]` with line height `10` still partition into
the runs `[0,20]` and `[200,210]`. -/
theorem c5_amended :
    (∀ (ms : ℚ) (r b : LBox) (rest : List LBox),
      partitionGo ms r (b :: rest) =
        if b.x2 - r.x2 > ms then r :: partitionGo ms b rest
        else partitionGo ms ⟨min b.x1 r.x1, min b.y1 r.y1, max b.x2 r.x2⟩ rest) ∧
    partitionedLines 0 [⟨0, 0, 10, 10⟩, ⟨12, 0, 8, 10⟩, ⟨200, 0, 10, 10⟩] =
      [(10, [⟨0, 0, 20⟩, ⟨200, 0, 210⟩])] := by
  refine ⟨fun ms r b rest => rfl, ?_⟩
  norm_num [partitionedLines, mergedGroups, sortedGroups, stableSort, insSorted,
    lineByBaseHeight, pushGroup, boxY1, boxY2, boxX1, boxX2, quantFloor, quantCeil,
    EPSILON, NUMBER_OF_DIGITS, mergeGo, jsStrGe, jsNumCodes, natCodes, natCodesAux,
    fracCodes, codesGe, lboxLe, partitionGo]

/-! ## C4: the baseline-merge condition -/

/-- **C4, counterexample.**  Baseline groups at `y2 = 9` (`minY1 = 8`) and
`y2 = 10` (`minY1 = 5`), processed in ascending `y2` order: the preceding
group's `minY1` (8) is ≥ the current group's (5), so the claim requires the
two groups to merge; but the merging loop compares the `y2` *keys as JS
strings* and `"10" >= "9"` is false, so the groups stay separate. -/
theorem c4_counterexample :
    sortedGroups 0 [⟨0, 8, 1, 1⟩, ⟨0, 5, 1, 5⟩] =
      [(9, ⟨[⟨0, 8, 1⟩], 8⟩), (10, ⟨[⟨0, 5, 1⟩], 5⟩)] ∧
    (8 : ℚ) ≥ 5 ∧
    mergedGroups 0 [⟨0, 8, 1, 1⟩, ⟨0, 5, 1, 5⟩] =
      [(9, ⟨[⟨0, 8, 1⟩], 8⟩), (10, ⟨[⟨0, 5, 1⟩], 5⟩)] := by
  refine ⟨?_, by norm_num, ?_⟩ <;>
  norm_num [mergedGroups, sortedGroups, stableSort, insSorted, lineByBaseHeight,
    pushGroup, boxY1, boxY2, boxX1, boxX2, quantFloor, quantCeil, EPSILON,
    NUMBER_OF_DIGITS, mergeGo, jsStrGe, jsNumCodes, natCodes, natCodesAux,
    fracCodes, codesGe]

/-- **C4, amended.**  A later baseline group is merged into the immediately
preceding kept group iff the preceding group's `minY1` is ≥ the current
group's `minY1` *and* the decimal string of the current `y2` key is
JS-lexicographically ≥ that of the preceding key (the loop compares
`Object.keys` members, which are strings); the merged group keeps the
concatenation of both groups' boxes and the minimum of both `minY1`s.  The
claim's `y2 = 100 / y2 = 101` example does merge (the string comparison
succeeds there) into one group at `101` with `minY1 = 85`. -/
theorem c4_amended :
    (∀ (cur : ℚ × LGroup) (y2 : ℚ) (g : LGroup) (rest : List (ℚ × LGroup)),
      mergeGo cur ((y2, g) :: rest) =
        if jsStrGe y2 cur.1 = true ∧ cur.2.minY1 ≥ g.minY1 then
          mergeGo (y2, ⟨cur.2.boxes ++ g.boxes, min cur.2.minY1 g.minY1⟩) rest
        else cur :: mergeGo (y2, g) rest) ∧
    mergedGroups 0 [⟨0, 90, 1, 10⟩, ⟨0, 85, 1, 16⟩] =
      [(101, ⟨[⟨0, 90, 1⟩, ⟨0, 85, 1⟩], 85⟩)] := by
  constructor
  · intro cur y2 g rest
    by_cases h1 : jsStrGe y2 cur.1 = true <;> by_cases h2 : cur.2.minY1 ≥ g.minY1 <;>
      simp [mergeGo, h1, h2]
  · norm_num [mergedGroups, sortedGroups, stableSort, insSorted, lineByBaseHeight,
      pushGroup, boxY1, boxY2, boxX1, boxX2, quantFloor, quantCeil, EPSILON,
      NUMBER_OF_DIGITS, mergeGo, jsStrGe, jsNumCodes, natCodes, natCodesAux,
      fracCodes, codesGe]

/-! ## Sorting lemmas for the stable comparator sort -/

theorem insSorted_mem (le : α → α → Bool) (a x : α) :
    ∀ (l : List α), x ∈ insSorted le a l ↔ x = a ∨ x ∈ l
  | [] => by simp [insSorted, eq_comm]
  | b :: l => by
    by_cases h : le a b = true
    · simp [insSorted, h, eq_comm]
    · simp only [insSorted, if_neg h, List.mem_cons, insSorted_mem le a x l]
      tauto

theorem insSorted_perm (le : α → α → Bool) (a : α) :
    ∀ (l : List α), List.Perm (insSorted le a l) (a :: l)
  | [] => List.Perm.refl _
  | b :: l => by
    by_cases h : le a b = true
    · rw [insSorted, if_pos h]
    · rw [insSorted, if_neg h]
      exact List.Perm.trans (List.Perm.cons b (insSorted_perm le a l))
        (List.Perm.swap a b l)

theorem stableSort_perm (le : α → α → Bool) :
    ∀ (l : List α), List.Perm (stableSort le l) l
  | [] => List.Perm.refl _
  | a :: l => by
    rw [stableSort, List.foldr_cons]
    exact List.Perm.trans (insSorted_perm le a _)
      (List.Perm.cons a (stableSort_perm le l))

theorem insSorted_pairwise (le : α → α → Bool)
    (htot : ∀ a b : α, le a b = true ∨ le b a = true)
    (htrans : ∀ a b c : α, le a b = true → le b c = true → le a c = true) (a : α) :
    ∀ (l : List α), List.Pairwise (fun x y => le x y = true) l →
      List.Pairwise (fun x y => le x y = true) (insSorted le a l)
  | [], _ => by simp [insSorted]
  | b :: l, h => by
    by_cases hab : le a b = true
    · rw [insSorted, if_pos hab]
      refine List.Pairwise.cons (fun x hx => ?_) h
      rcases List.mem_cons.mp hx with rfl | hx
      · exact hab
      · exact htrans a b x hab (List.rel_of_pairwise_cons h hx)
    · rw [insSorted, if_neg hab]
      have hba : le b a = true := (htot a b).resolve_left hab
      refine List.Pairwise.cons (fun x hx => ?_)
        (insSorted_pairwise le htot htrans a l (List.Pairwise.of_cons h))
      rcases (insSorted_mem le a x l).mp hx with rfl | hx
      · exact hba
      · exact List.rel_of_pairwise_cons h hx

theorem stableSort_pairwise (le : α → α → Bool)
    (htot : ∀ a b : α, le a b = true ∨ le b a = true)
    (htrans : ∀ a b c : α, le a b = true → le b c = true → le a c = true) :
    ∀ (l : List α), List.Pairwise (fun x y => le x y = true) (stableSort le l)
  | [] => List.Pairwise.nil
  | a :: l => by
    rw [stableSort, List.foldr_cons]
    exact insSorted_pairwise le htot htrans a _ (stableSort_pairwise le htot htrans l)

theorem edgeLe_iff (a b : Edge) : edgeLe a b = true ↔ edgeLeP a b := by
  simp only [edgeLe, edgeLeP, Bool.or_eq_true, Bool.and_eq_true, decide_eq_true_eq]

theorem edgeLe_total (a b : Edge) : edgeLe a b = true ∨ edgeLe b a = true := by
  rw [edgeLe_iff, edgeLe_iff]
  unfold edgeLeP
  rcases lt_trichotomy a.x b.x with h | h | h
  · exact Or.inl (Or.inl h)
  · rcases lt_trichotomy a.y1 b.y1 with h2 | h2 | h2
    · exact Or.inl (Or.inr ⟨h, Or.inl h2⟩)
    · rcases le_total a.y2 b.y2 with h3 | h3
      · exact Or.inl (Or.inr ⟨h, Or.inr ⟨h2, h3⟩⟩)
      · exact Or.inr (Or.inr ⟨h.symm, Or.inr ⟨h2.symm, h3⟩⟩)
    · exact Or.inr (Or.inr ⟨h.symm, Or.inl h2⟩)
  · exact Or.inr (Or.inl h)

theorem edgeLe_trans (a b c : Edge) (h1 : edgeLe a b = true) (h2 : edgeLe b c = true) :
    edgeLe a c = true := by
  rw [edgeLe_iff] at h1 h2 ⊢
  unfold edgeLeP at h1 h2 ⊢
  rcases h1 with h1 | ⟨h1x, h1r⟩
  · rcases h2 with h2 | ⟨h2x, _⟩
    · exact Or.inl (lt_trans h1 h2)
    · exact Or.inl (h2x ▸ h1)
  · rcases h2 with h2 | ⟨h2x, h2r⟩
    · exact Or.inl (h1x ▸ h2)
    · refine Or.inr ⟨h1x.trans h2x, ?_⟩
      rcases h1r with h1r | ⟨h1y, h1z⟩
      · rcases h2r with h2r | ⟨h2y, _⟩
        · exact Or.inl (lt_trans h1r h2r)
        · exact Or.inl (h2y ▸ h1r)
      · rcases h2r with h2r | ⟨h2y, h2z⟩
        · exact Or.inl (h1y ▸ h2r)
        · exact Or.inr ⟨h1y.trans h2y, le_trans h1z h2z⟩

/-! ## Helpers for the sweep characterization -/

theorem qListMin_pos : ∀ (l : List ℚ), (∀ a ∈ l, 0 < a) → 0 < qListMin l
  | [], _ => by norm_num [qListMin]
  | a :: l, h => by
    rw [qListMin]
    exact lt_min (h a (by simp)) (qListMin_pos l (fun b hb => h b (by simp [hb])))

theorem qListMin_le : ∀ (l : List ℚ), ∀ a ∈ l, qListMin l ≤ a
  | [], b, hb => absurd hb (by simp)
  | a :: l, b, hb => by
    rw [qListMin]
    rcases List.mem_cons.mp hb with rfl | hb
    · exact min_le_left _ _
    · exact le_trans (min_le_right _ _) (qListMin_le l b hb)

theorem mem_rectXs_x1 {rs : List Rect} {r : Rect} (h : r ∈ rs) : r.x1 ∈ rectXs rs := by
  unfold rectXs
  rw [List.mem_flatMap]
  exact ⟨r, h, by simp⟩

theorem mem_rectXs_x2 {rs : List Rect} {r : Rect} (h : r ∈ rs) : r.x2 ∈ rectXs rs := by
  unfold rectXs
  rw [List.mem_flatMap]
  exact ⟨r, h, by simp⟩

theorem rectXs_facts : ∀ (rs : List Rect), (rectXs rs).Nodup →
    ∀ r ∈ rs, ∀ c ∈ rs, (r.x1 = c.x1 → r = c) ∧ (r.x2 = c.x2 → r = c) ∧ r.x1 ≠ c.x2
  | [], _, r, hr, _, _ => absurd hr (by simp)
  | hd :: rest, hnd, r, hr, c, hc => by
    have hnd2 : (hd.x1 :: hd.x2 :: rectXs rest).Nodup := by
      simpa [rectXs, List.flatMap_cons] using hnd
    have hx1a : hd.x1 ≠ hd.x2 := by
      intro he
      exact (List.nodup_cons.mp hnd2).1 (by simp [he])
    have hx1b : hd.x1 ∉ rectXs rest := by
      intro hm
      exact (List.nodup_cons.mp hnd2).1 (by simp [hm])
    have hnd3 := (List.nodup_cons.mp hnd2).2
    have hx2b : hd.x2 ∉ rectXs rest := (List.nodup_cons.mp hnd3).1
    have hnd4 : (rectXs rest).Nodup := (List.nodup_cons.mp hnd3).2
    rcases List.mem_cons.mp hr with hre | hrT
    · rcases List.mem_cons.mp hc with hce | hcT
      · subst hre; subst hce
        exact ⟨fun _ => rfl, fun _ => rfl, hx1a⟩
      · subst hre
        refine ⟨fun he => ?_, fun he => ?_, fun he => ?_⟩
        · exact absurd (show r.x1 ∈ rectXs rest by rw [he]; exact mem_rectXs_x1 hcT) hx1b
        · exact absurd (show r.x2 ∈ rectXs rest by rw [he]; exact mem_rectXs_x2 hcT) hx2b
        · exact absurd (show r.x1 ∈ rectXs rest by rw [he]; exact mem_rectXs_x2 hcT) hx1b
    · rcases List.mem_cons.mp hc with hce | hcT
      · subst hce
        refine ⟨fun he => ?_, fun he => ?_, fun he => ?_⟩
        · exact absurd (show c.x1 ∈ rectXs rest by rw [← he]; exact mem_rectXs_x1 hrT) hx1b
        · exact absurd (show c.x2 ∈ rectXs rest by rw [← he]; exact mem_rectXs_x2 hrT) hx2b
        · exact absurd (show c.x2 ∈ rectXs rest by rw [← he]; exact mem_rectXs_x1 hrT) hx2b
      · exact rectXs_facts rest hnd4 r hrT c hcT

theorem rectXs_nodup_rects : ∀ (rs : List Rect), (rectXs rs).Nodup → rs.Nodup
  | [], _ => List.nodup_nil
  | h :: rest, hnd => by
    have hnd' : (h.x1 :: h.x2 :: rectXs rest).Nodup := by
      simpa [rectXs, List.flatMap_cons] using hnd
    have h1 : h.x1 ∉ (h.x2 :: rectXs rest) := (List.nodup_cons.mp hnd').1
    have hnd2 : (h.x2 :: rectXs rest).Nodup := (List.nodup_cons.mp hnd').2
    refine List.nodup_cons.mpr ⟨fun hm => ?_, rectXs_nodup_rects rest (List.nodup_cons.mp hnd2).2⟩
    exact h1 (by simp [mem_rectXs_x1 hm])

theorem edgesOf_map_x (rs : List Rect) : (edgesOf rs).map Edge.x = rectXs rs := by
  induction rs with
  | nil => rfl
  | cons r rest ih =>
    simp [edgesOf, rectXs, List.flatMap_cons, rectEdges, leftE, rightE] at *
    exact ih

theorem mem_edgesOf (rs : List Rect) (eg : Edge) :
    eg ∈ edgesOf rs ↔ ∃ r ∈ rs, eg = leftE r ∨ eg = rightE r := by
  unfold edgesOf
  rw [List.mem_flatMap]
  constructor
  · rintro ⟨r, hr, hm⟩
    simp only [rectEdges, List.mem_cons, List.mem_singleton, List.not_mem_nil,
      or_false] at hm
    exact ⟨r, hr, hm⟩
  · rintro ⟨r, hr, hm⟩
    refine ⟨r, hr, ?_⟩
    simp only [rectEdges, List.mem_cons, List.mem_singleton, List.not_mem_nil,
      or_false]
    exact hm

theorem mem_indicator_sum (p : Rect → Prop) [DecidablePred p] (iv : Interval) :
    ∀ (rs : List Rect),
      iv ∈ (rs.map (fun r =>
          if p r then ({spanOf r} : Multiset Interval) else 0)).sum ↔
        ∃ r ∈ rs, p r ∧ iv = spanOf r
  | [] => by simp
  | r :: rest => by
    simp only [List.map_cons, List.sum_cons, Multiset.mem_add,
      mem_indicator_sum p iv rest]
    by_cases hp : p r
    · rw [if_pos hp]
      simp only [Multiset.mem_singleton, List.mem_cons]
      constructor
      · rintro (rfl | ⟨c, hc, hpc, rfl⟩)
        · exact ⟨r, Or.inl rfl, hp, rfl⟩
        · exact ⟨c, Or.inr hc, hpc, rfl⟩
      · rintro ⟨c, rfl | hc, hpc, rfl⟩
        · exact Or.inl rfl
        · exact Or.inr ⟨c, hc, hpc, rfl⟩
    · rw [if_neg hp]
      simp only [Multiset.not_mem_zero, false_or, List.mem_cons]
      constructor
      · rintro ⟨c, hc, hpc, rfl⟩
        exact ⟨c, Or.inr hc, hpc, rfl⟩
      · rintro ⟨c, rfl | hc, hpc, rfl⟩
        · exact absurd hpc hp
        · exact ⟨c, hc, hpc, rfl⟩

theorem indicator_sum_flip (F G : Rect → Multiset Interval) (r0 : Rect) :
    ∀ (rs : List Rect), r0 ∈ rs → rs.Nodup →
      (∀ r ∈ rs, r ≠ r0 → F r = G r) → G r0 = spanOf r0 ::ₘ F r0 →
      (rs.map G).sum = spanOf r0 ::ₘ (rs.map F).sum
  | [], h0, _, _, _ => absurd h0 (by simp)
  | r :: rest, h0, hnd, hsame, hflip => by
    simp only [List.map_cons, List.sum_cons]
    by_cases hrr : r = r0
    · subst hrr
      have hnr : r ∉ rest := (List.nodup_cons.mp hnd).1
      have hmap : rest.map G = rest.map F := by
        refine List.map_congr_left (fun c hc => ?_)
        exact (hsame c (by simp [hc]) (fun he => hnr (he ▸ hc))).symm
      rw [hmap, hflip, Multiset.cons_add]
    · have h0' : r0 ∈ rest := by
        rcases List.mem_cons.mp h0 with he | he
        · exact absurd he.symm hrr
        · exact he
      have ih := indicator_sum_flip F G r0 rest h0' (List.nodup_cons.mp hnd).2
        (fun c hc hne => hsame c (by simp [hc]) hne) hflip
      rw [hsame r (by simp) hrr, ih, Multiset.add_cons]

/-! ## The sweep invariant and the C1 characterization -/

theorem mem_activeIvs (rs : List Rect) (done : List Edge) (iv : Interval) :
    iv ∈ activeIvs rs done ↔
      ∃ r ∈ rs, (leftE r ∈ done ∧ rightE r ∉ done) ∧ iv = spanOf r := by
  unfold activeIvs
  exact mem_indicator_sum _ iv rs

theorem activeIvs_nil : ∀ (rs : List Rect), activeIvs rs [] = 0
  | [] => rfl
  | r :: rest => by
    have ih := activeIvs_nil rest
    unfold activeIvs at ih ⊢
    simp only [List.map_cons, List.sum_cons, ih]
    rw [if_neg (by simp)]
    simp

theorem sweepStep_left (rs : List Rect) (hnd : (rectXs rs).Nodup)
    (hwf : ∀ r ∈ rs, r.x1 < r.x2 ∧ r.y1 < r.y2)
    (done : List Edge) (r0 : Rect) (hr0 : r0 ∈ rs)
    (hL : ∀ r ∈ rs, (leftE r ∈ done ↔ r.x1 < r0.x1))
    (hR : ∀ r ∈ rs, (rightE r ∈ done ↔ r.x2 < r0.x1))
    (hCd : ∀ e' ∈ done, e'.x < r0.x1)
    (st : List Interval × List Frag) (hinv : sweepInv rs done st) :
    sweepInv rs (done ++ [leftE r0]) (sweepStep st (leftE r0)) := by
  obtain ⟨hA, hB, hC, hD⟩ := hinv
  have hfacts := rectXs_facts rs hnd
  have hrs_nd := rectXs_nodup_rects rs hnd
  have hx12 := (hwf r0 hr0).1
  have hy12 : (leftE r0).y1 < (leftE r0).y2 := (hwf r0 hr0).2
  have hwfiv : ∀ iv ∈ st.1, iv.1 ≤ iv.2 := by
    intro iv hiv
    have hm : iv ∈ activeIvs rs done := by
      rw [← hB]; exact Multiset.mem_coe.mpr hiv
    obtain ⟨r, hr, _, heq⟩ := (mem_activeIvs rs done iv).mp hm
    rw [heq]
    exact le_of_lt (hwf r hr).2
  have hbspec := breakEdge_spec st.1 (leftE r0) hA hwfiv hy12
  have hLinj : ∀ r ∈ rs, leftE r = leftE r0 → r = r0 := by
    intro r hr he
    exact (hfacts r hr r0 hr0).1 (congrArg Edge.x he)
  have hRnotL : ∀ r : Rect, rightE r ≠ leftE r0 := by
    intro r he
    have h2 := congrArg Edge.isLeft he
    simp [leftE, rightE] at h2
  have hcond : ∀ r ∈ rs, r ≠ r0 →
      ((leftE r ∈ done ++ [leftE r0] ∧ rightE r ∉ done ++ [leftE r0]) ↔
        (leftE r ∈ done ∧ rightE r ∉ done)) := by
    intro r hr hne
    simp only [List.mem_append, List.mem_singleton]
    constructor
    · rintro ⟨hl | hl, hr2⟩
      · exact ⟨hl, fun hm => hr2 (Or.inl hm)⟩
      · exact absurd (hLinj r hr hl) hne
    · rintro ⟨hl, hr2⟩
      refine ⟨Or.inl hl, ?_⟩
      rintro (hm | hm)
      · exact hr2 hm
      · exact hRnotL r hm
  have hflip : activeIvs rs (done ++ [leftE r0]) = spanOf r0 ::ₘ activeIvs rs done := by
    unfold activeIvs
    refine indicator_sum_flip _ _ r0 rs hr0 hrs_nd (fun r hr hne => ?_) ?_
    · simp only [hcond r hr hne]
    · have hnew : leftE r0 ∈ done ++ [leftE r0] ∧ rightE r0 ∉ done ++ [leftE r0] := by
        refine ⟨List.mem_append.mpr (Or.inr (List.mem_singleton.mpr rfl)), ?_⟩
        rintro hm
        rcases List.mem_append.mp hm with hm | hm
        · exact absurd ((hR r0 hr0).mp hm) (by linarith)
        · exact hRnotL r0 (List.mem_singleton.mp hm)
      have hold : ¬(leftE r0 ∈ done ∧ rightE r0 ∉ done) := by
        rintro ⟨hm, _⟩
        exact absurd ((hL r0 hr0).mp hm) (lt_irrefl _)
      rw [if_pos hnew, if_neg hold, Multiset.cons_zero]
  have hstrict : ∀ iv : Interval, iv ∈ st.1 ↔
      ∃ r ∈ rs, (r.x1 < r0.x1 ∧ r0.x1 < r.x2) ∧ iv = spanOf r := by
    intro iv
    constructor
    · intro hiv
      have hm : iv ∈ activeIvs rs done := by
        rw [← hB]; exact Multiset.mem_coe.mpr hiv
      obtain ⟨r, hr, ⟨hl, hrr⟩, heq⟩ := (mem_activeIvs rs done iv).mp hm
      refine ⟨r, hr, ⟨(hL r hr).mp hl, ?_⟩, heq⟩
      have h2 : ¬ r.x2 < r0.x1 := fun h => hrr ((hR r hr).mpr h)
      have h3 : r0.x1 ≠ r.x2 := (hfacts r0 hr0 r hr).2.2
      exact lt_of_le_of_ne (not_lt.mp h2) h3
    · rintro ⟨r, hr, ⟨hl, hrr⟩, heq⟩
      have hm : iv ∈ activeIvs rs done := (mem_activeIvs rs done iv).mpr
        ⟨r, hr, ⟨(hL r hr).mpr hl, fun hm2 => absurd ((hR r hr).mp hm2) (by linarith)⟩, heq⟩
      exact Multiset.mem_coe.mp (by rw [hB]; exact hm)
  have hstep : sweepStep st (leftE r0) =
      (insert st.1 r0.y1 r0.y2, st.2 ++ breakEdge st.1 (leftE r0)) := rfl
  rw [hstep]
  refine ⟨insert_sorted st.1 r0.y1 r0.y2 hA, ?_, ?_, ?_⟩
  · show ((insert st.1 r0.y1 r0.y2 : List Interval) : Multiset Interval) =
      activeIvs rs (done ++ [leftE r0])
    rw [insert_multiset, hB, hflip]
    rfl
  · intro g hg
    rcases List.mem_append.mp hg with hg | hg
    · obtain ⟨e', he', hprops⟩ := hC g hg
      exact ⟨e', List.mem_append.mpr (Or.inl he'), hprops⟩
    · obtain ⟨hgx, h1, h2, h3⟩ := hbspec.1 g hg
      exact ⟨leftE r0, List.mem_append.mpr (Or.inr (List.mem_singleton.mpr rfl)),
        hgx, h1, h2, h3⟩
  · intro x t
    have hnewx : ∀ f ∈ breakEdge st.1 (leftE r0), f.x = (leftE r0).x :=
      fun f hf => (hbspec.1 f hf).1
    by_cases hx : x = r0.x1
    · subst hx
      constructor
      · rintro ⟨g, hg, hgx, h1, h2⟩
        rcases List.mem_append.mp hg with hg | hg
        · obtain ⟨e', he', hex, _⟩ := hC g hg
          exact absurd (hex.symm.trans hgx) (ne_of_lt (hCd e' he'))
        · obtain ⟨ha, hb, hnc⟩ := (hbspec.2.1 t).mp ⟨g, hg, h1, h2⟩
          refine ⟨⟨leftE r0, List.mem_append.mpr (Or.inr (List.mem_singleton.mpr rfl)),
            rfl, ha, hb⟩, ?_⟩
          rintro ⟨r, hr, hs1, hs2, hs3, hs4⟩
          exact hnc ⟨spanOf r, (hstrict (spanOf r)).mpr ⟨r, hr, ⟨hs1, hs2⟩, rfl⟩,
            lt_of_le_of_lt hs3 hb, hs3, hs4⟩
      · rintro ⟨⟨e', he', hex, h1, h2⟩, hnsc⟩
        rcases List.mem_append.mp he' with he' | he'
        · exact absurd hex (ne_of_lt (hCd e' he'))
        · rcases List.mem_singleton.mp he' with rfl
          have hfc : fragCovers (breakEdge st.1 (leftE r0)) t := by
            refine (hbspec.2.1 t).mpr ⟨h1, h2, ?_⟩
            rintro ⟨iv, hiv, hlt, hc1, hc2⟩
            obtain ⟨r, hr, ⟨hsp1, hsp2⟩, heq⟩ := (hstrict iv).mp hiv
            rw [heq] at hc1 hc2
            simp only [spanOf] at hc1 hc2
            exact hnsc ⟨r, hr, hsp1, hsp2, hc1, hc2⟩
          obtain ⟨f, hf, hf1, hf2⟩ := hfc
          exact ⟨f, List.mem_append.mpr (Or.inr hf), hnewx f hf, hf1, hf2⟩
    · constructor
      · rintro ⟨g, hg, hgx, h1, h2⟩
        rcases List.mem_append.mp hg with hg | hg
        · obtain ⟨hdone, hnsc⟩ := (hD x t).mp ⟨g, hg, hgx, h1, h2⟩
          obtain ⟨e', he', hrest⟩ := hdone
          exact ⟨⟨e', List.mem_append.mpr (Or.inl he'), hrest⟩, hnsc⟩
        · exact absurd ((hnewx g hg).symm.trans hgx).symm hx
      · rintro ⟨⟨e', he', hex, h1, h2⟩, hnsc⟩
        rcases List.mem_append.mp he' with he' | he'
        · obtain ⟨g, hg, hrest⟩ := (hD x t).mpr ⟨⟨e', he', hex, h1, h2⟩, hnsc⟩
          exact ⟨g, List.mem_append.mpr (Or.inl hg), hrest⟩
        · rcases List.mem_singleton.mp he' with rfl
          exact absurd hex.symm hx

theorem sweepStep_right (rs : List Rect) (hnd : (rectXs rs).Nodup)
    (hwf : ∀ r ∈ rs, r.x1 < r.x2 ∧ r.y1 < r.y2)
    (done : List Edge) (r0 : Rect) (hr0 : r0 ∈ rs)
    (hL : ∀ r ∈ rs, (leftE r ∈ done ↔ r.x1 < r0.x2))
    (hR : ∀ r ∈ rs, (rightE r ∈ done ↔ r.x2 < r0.x2))
    (hCd : ∀ e' ∈ done, e'.x < r0.x2)
    (st : List Interval × List Frag) (hinv : sweepInv rs done st) :
    sweepInv rs (done ++ [rightE r0]) (sweepStep st (rightE r0)) := by
  obtain ⟨hA, hB, hC, hD⟩ := hinv
  have hfacts := rectXs_facts rs hnd
  have hrs_nd := rectXs_nodup_rects rs hnd
  have hx12 := (hwf r0 hr0).1
  have hy12 : (rightE r0).y1 < (rightE r0).y2 := (hwf r0 hr0).2
  have hLnotR : ∀ r : Rect, leftE r ≠ rightE r0 := by
    intro r he
    have h2 := congrArg Edge.isLeft he
    simp [leftE, rightE] at h2
  have hRinj : ∀ r ∈ rs, rightE r = rightE r0 → r = r0 := by
    intro r hr he
    exact (hfacts r hr r0 hr0).2.1 (congrArg Edge.x he)
  have hold0 : leftE r0 ∈ done ∧ rightE r0 ∉ done :=
    ⟨(hL r0 hr0).mpr hx12, fun hm => absurd ((hR r0 hr0).mp hm) (lt_irrefl _)⟩
  have hmem0 : (r0.y1, r0.y2) ∈ st.1 := by
    apply Multiset.mem_coe.mp
    rw [hB]
    exact (mem_activeIvs rs done _).mpr ⟨r0, hr0, hold0, rfl⟩
  have hcond : ∀ r ∈ rs, r ≠ r0 →
      ((leftE r ∈ done ++ [rightE r0] ∧ rightE r ∉ done ++ [rightE r0]) ↔
        (leftE r ∈ done ∧ rightE r ∉ done)) := by
    intro r hr hne
    simp only [List.mem_append, List.mem_singleton]
    constructor
    · rintro ⟨hl | hl, hr2⟩
      · exact ⟨hl, fun hm => hr2 (Or.inl hm)⟩
      · exact absurd hl (hLnotR r)
    · rintro ⟨hl, hr2⟩
      refine ⟨Or.inl hl, ?_⟩
      rintro (hm | hm)
      · exact hr2 hm
      · exact hne (hRinj r hr hm)
  have hflip : activeIvs rs done = spanOf r0 ::ₘ activeIvs rs (done ++ [rightE r0]) := by
    unfold activeIvs
    refine indicator_sum_flip _ _ r0 rs hr0 hrs_nd (fun r hr hne => ?_) ?_
    · simp only [hcond r hr hne]
    · have hnew : ¬(leftE r0 ∈ done ++ [rightE r0] ∧ rightE r0 ∉ done ++ [rightE r0]) := by
        rintro ⟨_, hr2⟩
        exact hr2 (List.mem_append.mpr (Or.inr (List.mem_singleton.mpr rfl)))
      rw [if_pos hold0, if_neg hnew, Multiset.cons_zero]
  have hB' : ((remove st.1 r0.y1 r0.y2 : List Interval) : Multiset Interval) =
      activeIvs rs (done ++ [rightE r0]) := by
    have h1 := remove_multiset_mem st.1 r0.y1 r0.y2 hA hmem0
    rw [hB, hflip] at h1
    simp only [show ((r0.y1, r0.y2) : Interval) = spanOf r0 from rfl] at h1
    exact ((Multiset.cons_inj_right _).mp h1).symm
  have hA' : List.Pairwise ivLe (remove st.1 r0.y1 r0.y2) :=
    remove_sorted st.1 r0.y1 r0.y2 hA
  have hwfiv' : ∀ iv ∈ remove st.1 r0.y1 r0.y2, iv.1 ≤ iv.2 := by
    intro iv hiv
    have hm : iv ∈ activeIvs rs (done ++ [rightE r0]) := by
      rw [← hB']; exact Multiset.mem_coe.mpr hiv
    obtain ⟨r, hr, _, heq⟩ := (mem_activeIvs rs _ iv).mp hm
    rw [heq]
    exact le_of_lt (hwf r hr).2
  have hbspec := breakEdge_spec (remove st.1 r0.y1 r0.y2) (rightE r0) hA' hwfiv' hy12
  have hstrict : ∀ iv : Interval, iv ∈ remove st.1 r0.y1 r0.y2 ↔
      ∃ r ∈ rs, (r.x1 < r0.x2 ∧ r0.x2 < r.x2) ∧ iv = spanOf r := by
    intro iv
    constructor
    · intro hiv
      have hm : iv ∈ activeIvs rs (done ++ [rightE r0]) := by
        rw [← hB']; exact Multiset.mem_coe.mpr hiv
      obtain ⟨r, hr, ⟨hl, hrr⟩, heq⟩ := (mem_activeIvs rs _ iv).mp hm
      rcases List.mem_append.mp hl with hl | hl
      · refine ⟨r, hr, ⟨(hL r hr).mp hl, ?_⟩, heq⟩
        have h2 : rightE r ∉ done := fun hm2 => hrr (List.mem_append.mpr (Or.inl hm2))
        have h3 : r ≠ r0 := by
          rintro rfl
          exact hrr (List.mem_append.mpr (Or.inr (List.mem_singleton.mpr rfl)))
        have h4 : ¬ r.x2 < r0.x2 := fun h => h2 ((hR r hr).mpr h)
        have h5 : r.x2 ≠ r0.x2 := fun h => h3 ((hfacts r hr r0 hr0).2.1 h)
        exact lt_of_le_of_ne (not_lt.mp h4) (Ne.symm h5)
      · exact absurd (List.mem_singleton.mp hl) (hLnotR r)
    · rintro ⟨r, hr, ⟨hl, hrr⟩, heq⟩
      have hm : iv ∈ activeIvs rs (done ++ [rightE r0]) := by
        refine (mem_activeIvs rs _ iv).mpr ⟨r, hr, ⟨?_, ?_⟩, heq⟩
        · exact List.mem_append.mpr (Or.inl ((hL r hr).mpr hl))
        · rintro hm2
          rcases List.mem_append.mp hm2 with hm2 | hm2
          · exact absurd ((hR r hr).mp hm2) (by linarith)
          · have h6 := hRinj r hr (List.mem_singleton.mp hm2)
            subst h6
            exact absurd hrr (lt_irrefl _)
      exact Multiset.mem_coe.mp (by rw [hB']; exact hm)
  have hstep : sweepStep st (rightE r0) =
      (remove st.1 r0.y1 r0.y2,
        st.2 ++ breakEdge (remove st.1 r0.y1 r0.y2) (rightE r0)) := rfl
  rw [hstep]
  refine ⟨hA', hB', ?_, ?_⟩
  · intro g hg
    rcases List.mem_append.mp hg with hg | hg
    · obtain ⟨e', he', hprops⟩ := hC g hg
      exact ⟨e', List.mem_append.mpr (Or.inl he'), hprops⟩
    · obtain ⟨hgx, h1, h2, h3⟩ := hbspec.1 g hg
      exact ⟨rightE r0, List.mem_append.mpr (Or.inr (List.mem_singleton.mpr rfl)),
        hgx, h1, h2, h3⟩
  · intro x t
    have hnewx : ∀ f ∈ breakEdge (remove st.1 r0.y1 r0.y2) (rightE r0),
        f.x = (rightE r0).x := fun f hf => (hbspec.1 f hf).1
    by_cases hx : x = r0.x2
    · subst hx
      constructor
      · rintro ⟨g, hg, hgx, h1, h2⟩
        rcases List.mem_append.mp hg with hg | hg
        · obtain ⟨e', he', hex, _⟩ := hC g hg
          exact absurd (hex.symm.trans hgx) (ne_of_lt (hCd e' he'))
        · obtain ⟨ha, hb, hnc⟩ := (hbspec.2.1 t).mp ⟨g, hg, h1, h2⟩
          refine ⟨⟨rightE r0, List.mem_append.mpr (Or.inr (List.mem_singleton.mpr rfl)),
            rfl, ha, hb⟩, ?_⟩
          rintro ⟨r, hr, hs1, hs2, hs3, hs4⟩
          exact hnc ⟨spanOf r, (hstrict (spanOf r)).mpr ⟨r, hr, ⟨hs1, hs2⟩, rfl⟩,
            lt_of_le_of_lt hs3 hb, hs3, hs4⟩
      · rintro ⟨⟨e', he', hex, h1, h2⟩, hnsc⟩
        rcases List.mem_append.mp he' with he' | he'
        · exact absurd hex (ne_of_lt (hCd e' he'))
        · rcases List.mem_singleton.mp he' with rfl
          have hfc : fragCovers (breakEdge (remove st.1 r0.y1 r0.y2) (rightE r0)) t := by
            refine (hbspec.2.1 t).mpr ⟨h1, h2, ?_⟩
            rintro ⟨iv, hiv, hlt, hc1, hc2⟩
            obtain ⟨r, hr, ⟨hsp1, hsp2⟩, heq⟩ := (hstrict iv).mp hiv
            rw [heq] at hc1 hc2
            simp only [spanOf] at hc1 hc2
            exact hnsc ⟨r, hr, hsp1, hsp2, hc1, hc2⟩
          obtain ⟨f, hf, hf1, hf2⟩ := hfc
          exact ⟨f, List.mem_append.mpr (Or.inr hf), hnewx f hf, hf1, hf2⟩
    · constructor
      · rintro ⟨g, hg, hgx, h1, h2⟩
        rcases List.mem_append.mp hg with hg | hg
        · obtain ⟨hdone, hnsc⟩ := (hD x t).mp ⟨g, hg, hgx, h1, h2⟩
          obtain ⟨e', he', hrest⟩ := hdone
          exact ⟨⟨e', List.mem_append.mpr (Or.inl he'), hrest⟩, hnsc⟩
        · exact absurd ((hnewx g hg).symm.trans hgx).symm hx
      · rintro ⟨⟨e', he', hex, h1, h2⟩, hnsc⟩
        rcases List.mem_append.mp he' with he' | he'
        · obtain ⟨g, hg, hrest⟩ := (hD x t).mpr ⟨⟨e', he', hex, h1, h2⟩, hnsc⟩
          exact ⟨g, List.mem_append.mpr (Or.inl hg), hrest⟩
        · rcases List.mem_singleton.mp he' with rfl
          exact absurd hex.symm hx

theorem sweep_inv_step (rs : List Rect) (hnd : (rectXs rs).Nodup)
    (hwf : ∀ r ∈ rs, r.x1 < r.x2 ∧ r.y1 < r.y2)
    (done todo : List Edge) (eg : Edge)
    (hperm : List.Perm (done ++ eg :: todo) (edgesOf rs))
    (hsorted : List.Pairwise (fun a b : Edge => a.x < b.x) (done ++ eg :: todo))
    (st : List Interval × List Frag) (hinv : sweepInv rs done st) :
    sweepInv rs (done ++ [eg]) (sweepStep st eg) := by
  obtain ⟨hs1, hs2, hs3⟩ := List.pairwise_append.mp hsorted
  have hdone_lt : ∀ d ∈ done, d.x < eg.x := fun d hd => hs3 d hd eg (by simp)
  have htodo_gt : ∀ d ∈ todo, eg.x < d.x := fun d hd => List.rel_of_pairwise_cons hs2 hd
  have hmem_done : ∀ e', e' ∈ edgesOf rs → (e' ∈ done ↔ e'.x < eg.x) := by
    intro e' he'
    refine ⟨hdone_lt e', fun hx => ?_⟩
    have hm : e' ∈ done ++ eg :: todo := hperm.mem_iff.mpr he'
    rcases List.mem_append.mp hm with hm | hm
    · exact hm
    · rcases List.mem_cons.mp hm with rfl | hm
      · exact absurd hx (lt_irrefl _)
      · exact absurd hx (not_lt.mpr (le_of_lt (htodo_gt e' hm)))
  have heg_mem : eg ∈ edgesOf rs := hperm.subset (by simp)
  obtain ⟨r0, hr0, hcase⟩ := (mem_edgesOf rs eg).mp heg_mem
  rcases hcase with rfl | rfl
  · exact sweepStep_left rs hnd hwf done r0 hr0
      (fun r hr => hmem_done (leftE r) ((mem_edgesOf rs _).mpr ⟨r, hr, Or.inl rfl⟩))
      (fun r hr => hmem_done (rightE r) ((mem_edgesOf rs _).mpr ⟨r, hr, Or.inr rfl⟩))
      hdone_lt st hinv
  · exact sweepStep_right rs hnd hwf done r0 hr0
      (fun r hr => hmem_done (leftE r) ((mem_edgesOf rs _).mpr ⟨r, hr, Or.inl rfl⟩))
      (fun r hr => hmem_done (rightE r) ((mem_edgesOf rs _).mpr ⟨r, hr, Or.inr rfl⟩))
      hdone_lt st hinv

theorem sweep_inv_fold (rs : List Rect) (hnd : (rectXs rs).Nodup)
    (hwf : ∀ r ∈ rs, r.x1 < r.x2 ∧ r.y1 < r.y2) :
    ∀ (todo done : List Edge) (st : List Interval × List Frag),
      List.Perm (done ++ todo) (edgesOf rs) →
      List.Pairwise (fun a b : Edge => a.x < b.x) (done ++ todo) →
      sweepInv rs done st →
      sweepInv rs (done ++ todo) (todo.foldl sweepStep st)
  | [], done, st, _, _, hinv => by simpa using hinv
  | eg :: todo, done, st, hperm, hsorted, hinv => by
    have hstep := sweep_inv_step rs hnd hwf done todo eg hperm hsorted st hinv
    have hrec := sweep_inv_fold rs hnd hwf todo (done ++ [eg]) (sweepStep st eg)
      (by simpa using hperm) (by simpa using hsorted) hstep
    simpa using hrec

theorem sweep_characterization (rs : List Rect) (hnd : (rectXs rs).Nodup)
    (hwf : ∀ r ∈ rs, r.x1 < r.x2 ∧ r.y1 < r.y2) (x t : ℚ) :
    emittedOpen rs x t ↔ onEdgeOpen rs x t ∧ ¬ spansCovered rs x t := by
  have hperm : List.Perm (stableSort edgeLe (edgesOf rs)) (edgesOf rs) :=
    stableSort_perm edgeLe (edgesOf rs)
  have hsorted0 := stableSort_pairwise edgeLe edgeLe_total edgeLe_trans (edgesOf rs)
  have hndx : ((stableSort edgeLe (edgesOf rs)).map Edge.x).Nodup := by
    refine ((hperm.map Edge.x).nodup_iff).mpr ?_
    rw [edgesOf_map_x]
    exact hnd
  have hsorted : List.Pairwise (fun a b : Edge => a.x < b.x)
      (stableSort edgeLe (edgesOf rs)) := by
    have hne : List.Pairwise (fun a b : Edge => a.x ≠ b.x)
        (stableSort edgeLe (edgesOf rs)) := List.pairwise_map.mp hndx
    exact (hsorted0.and hne).imp
      (fun hab => ((edgeLe_iff _ _).mp hab.1).resolve_right (fun h => hab.2 h.1))
  have hbase : sweepInv rs [] ([], []) := by
    refine ⟨List.Pairwise.nil, ?_, ?_, ?_⟩
    · show ((([] : List Interval)) : Multiset Interval) = activeIvs rs []
      rw [activeIvs_nil]
      rfl
    · intro g hg
      exact absurd hg (List.not_mem_nil g)
    · intro x' t'
      constructor
      · rintro ⟨g, hg, _⟩
        exact absurd hg (List.not_mem_nil g)
      · rintro ⟨⟨e', he', _⟩, _⟩
        exact absurd he' (List.not_mem_nil e')
  have hfold := sweep_inv_fold rs hnd hwf (stableSort edgeLe (edgesOf rs)) [] ([], [])
    (by simpa using hperm) (by simpa using hsorted) hbase
  simp only [List.nil_append] at hfold
  obtain ⟨_, _, _, hiff⟩ := hfold
  have h := hiff x t
  have hedge : (∃ e' ∈ stableSort edgeLe (edgesOf rs),
      e'.x = x ∧ e'.y1 < t ∧ t < e'.y2) ↔ onEdgeOpen rs x t := by
    constructor
    · rintro ⟨e', he', hex, h1, h2⟩
      obtain ⟨r, hr, hc⟩ := (mem_edgesOf rs e').mp (hperm.subset he')
      rcases hc with rfl | rfl
      · exact ⟨r, hr, Or.inl hex.symm, h1, h2⟩
      · exact ⟨r, hr, Or.inr hex.symm, h1, h2⟩
    · rintro ⟨r, hr, hside, h1, h2⟩
      rcases hside with rfl | rfl
      · exact ⟨leftE r,
          hperm.mem_iff.mpr ((mem_edgesOf rs (leftE r)).mpr ⟨r, hr, Or.inl rfl⟩),
          rfl, h1, h2⟩
      · exact ⟨rightE r,
          hperm.mem_iff.mpr ((mem_edgesOf rs (rightE r)).mpr ⟨r, hr, Or.inr rfl⟩),
          rfl, h1, h2⟩
  rw [hedge] at h
  exact h

theorem not_interior_of_edge (rs : List Rect) (hnd : (rectXs rs).Nodup)
    (x t : ℚ) (r : Rect) (hr : r ∈ rs) (hside : x = r.x1 ∨ x = r.x2)
    (hnsc : ¬ spansCovered rs x t) : ¬ interiorPt rs (x, t) := by
  have hfacts := rectXs_facts rs hnd
  rintro ⟨δ, hδ, hball⟩
  rcases hside with rfl | rfl
  · set gaps := (rs.map (fun c => r.x1 - c.x2)).filter (fun d => decide (0 < d)) with hg
    have hgpos : 0 < qListMin gaps :=
      qListMin_pos gaps (fun a ha => of_decide_eq_true (List.mem_filter.mp ha).2)
    set w := min δ (qListMin gaps / 2) with hw
    have hwpos : 0 < w := lt_min hδ (by linarith)
    have hq : inUnion rs (r.x1 - w, t) := by
      apply hball
      · show |r.x1 - w - r.x1| ≤ δ
        rw [show r.x1 - w - r.x1 = -w by ring, abs_neg, abs_of_pos hwpos]
        exact min_le_left _ _
      · show |t - t| ≤ δ
        rw [sub_self, abs_zero]
        exact le_of_lt hδ
    obtain ⟨r', hr', ha1, ha2, ha3, ha4⟩ := hq
    have hb1 : r'.x1 ≤ r.x1 - w := ha1
    have hb2 : r.x1 - w ≤ r'.x2 := ha2
    have hb3 : r'.y1 ≤ t := ha3
    have hb4 : t ≤ r'.y2 := ha4
    rcases lt_trichotomy r'.x2 r.x1 with hc | hc | hc
    · have hgm : r.x1 - r'.x2 ∈ gaps := by
        rw [hg]
        refine List.mem_filter.mpr ⟨List.mem_map.mpr ⟨r', hr', rfl⟩, ?_⟩
        exact decide_eq_true (by linarith)
      have h5 := qListMin_le gaps _ hgm
      have h6 : w ≤ qListMin gaps / 2 := min_le_right _ _
      linarith
    · exact (hfacts r hr r' hr').2.2 hc.symm
    · exact hnsc ⟨r', hr', by linarith, hc, hb3, hb4⟩
  · set gaps := (rs.map (fun c => c.x1 - r.x2)).filter (fun d => decide (0 < d)) with hg
    have hgpos : 0 < qListMin gaps :=
      qListMin_pos gaps (fun a ha => of_decide_eq_true (List.mem_filter.mp ha).2)
    set w := min δ (qListMin gaps / 2) with hw
    have hwpos : 0 < w := lt_min hδ (by linarith)
    have hq : inUnion rs (r.x2 + w, t) := by
      apply hball
      · show |r.x2 + w - r.x2| ≤ δ
        rw [show r.x2 + w - r.x2 = w by ring, abs_of_pos hwpos]
        exact min_le_left _ _
      · show |t - t| ≤ δ
        rw [sub_self, abs_zero]
        exact le_of_lt hδ
    obtain ⟨r', hr', ha1, ha2, ha3, ha4⟩ := hq
    have hb1 : r'.x1 ≤ r.x2 + w := ha1
    have hb2 : r.x2 + w ≤ r'.x2 := ha2
    have hb3 : r'.y1 ≤ t := ha3
    have hb4 : t ≤ r'.y2 := ha4
    rcases lt_trichotomy r.x2 r'.x1 with hc | hc | hc
    · have hgm : r'.x1 - r.x2 ∈ gaps := by
        rw [hg]
        refine List.mem_filter.mpr ⟨List.mem_map.mpr ⟨r', hr', rfl⟩, ?_⟩
        exact decide_eq_true (by linarith)
      have h5 := qListMin_le gaps _ hgm
      have h6 : w ≤ qListMin gaps / 2 := min_le_right _ _
      linarith
    · exact (hfacts r' hr' r hr).2.2 hc.symm
    · exact hnsc ⟨r', hr', hc, by linarith, hb3, hb4⟩

/-- **C1, counterexample.**  The claim says interior segments are fully
cancelled, so that the surviving fragments are exactly the boundary of the
union.  For the two *touching* rectangles `[0, 1/2] × [0, 1]` and
`[1/2, 1] × [0, 1]` the sweep emits a fragment on the shared abscissa
`x = 1/2` (twice, in fact), yet the point `(1/2, 1/2)` is interior to the
union: the edge sort has no left/right tiebreak, the right edge of the
first box is processed before the coincident left edge of the second, and
each is broken against an active set that does not cover it. -/
theorem c1_counterexample :
    emittedOpen [Rect.mk 0 (1/2) 0 1, Rect.mk (1/2) 1 0 1] (1/2) (1/2) ∧
      interiorPt [Rect.mk 0 (1/2) 0 1, Rect.mk (1/2) 1 0 1] ((1/2 : ℚ), (1/2 : ℚ)) := by
  constructor
  · have hev : sweepFragments (stableSort edgeLe
        (edgesOf [Rect.mk 0 (1/2) 0 1, Rect.mk (1/2) 1 0 1])) =
        [⟨0, 0, 1⟩, ⟨1/2, 0, 1⟩, ⟨1/2, 0, 1⟩, ⟨1, 0, 1⟩] := by
      norm_num [edgesOf, rectEdges, leftE, rightE, stableSort, insSorted, edgeLe,
        sweepFragments, sweepStep, breakEdge, breakEdgeStep, breakInner, binarySearch,
        binarySearchAux, insert, insertAt, remove, findFwdAux, findBwdAux, ivKey, ivVal]
    refine ⟨⟨1/2, 0, 1⟩, ?_, rfl, by norm_num, by norm_num⟩
    rw [hev]
    norm_num
  · refine ⟨1/4, by norm_num, ?_⟩
    intro q h1 h2
    rw [abs_le] at h1 h2
    obtain ⟨h1a, h1b⟩ := h1
    obtain ⟨h2a, h2b⟩ := h2
    by_cases hq : q.1 ≤ 1/2
    · refine ⟨Rect.mk 0 (1/2) 0 1, by simp, ?_, ?_, ?_, ?_⟩
      · show (0 : ℚ) ≤ q.1
        have : ((1 : ℚ)/2, (1 : ℚ)/2).1 = 1/2 := rfl
        rw [this] at h1a
        linarith
      · exact hq
      · show (0 : ℚ) ≤ q.2
        have : ((1 : ℚ)/2, (1 : ℚ)/2).2 = 1/2 := rfl
        rw [this] at h2a
        linarith
      · show q.2 ≤ (1 : ℚ)
        have : ((1 : ℚ)/2, (1 : ℚ)/2).2 = 1/2 := rfl
        rw [this] at h2b
        linarith
    · refine ⟨Rect.mk (1/2) 1 0 1, by simp, ?_, ?_, ?_, ?_⟩
      · show (1 : ℚ)/2 ≤ q.1
        linarith [not_le.mp hq]
      · show q.1 ≤ (1 : ℚ)
        have : ((1 : ℚ)/2, (1 : ℚ)/2).1 = 1/2 := rfl
        rw [this] at h1b
        linarith
      · show (0 : ℚ) ≤ q.2
        have : ((1 : ℚ)/2, (1 : ℚ)/2).2 = 1/2 := rfl
        rw [this] at h2a
        linarith
      · show q.2 ≤ (1 : ℚ)
        have : ((1 : ℚ)/2, (1 : ℚ)/2).2 = 1/2 := rfl
        rw [this] at h2b
        linarith

/-- **C1, amended.**  The sweep does process the edges in ascending
`(x, y1, y2)` order, breaking a left edge before inserting its span and
removing a right edge's span before breaking it (this is `sweepStep`
applied along `stableSort edgeLe`, as in the source).  But the surviving
fragments are the boundary of the union only when no two of the `2n` edge
abscissae coincide: under that hypothesis (and nondegeneracy), a point lies
strictly inside a surviving fragment at abscissa `x` iff it lies on some
rectangle's vertical edge strictly between that edge's endpoints and no
rectangle strictly spanning `x` covers it — and every such point is a
non-interior point of the union.  When two boxes merely touch
(`c1_counterexample`), the sweep emits fragments strictly interior to the
union, so the claimed cancellation fails. -/
theorem c1_amended (rs : List Rect) (hnd : (rectXs rs).Nodup)
    (hwf : ∀ r ∈ rs, r.x1 < r.x2 ∧ r.y1 < r.y2) (x t : ℚ) :
    (emittedOpen rs x t ↔ onEdgeOpen rs x t ∧ ¬ spansCovered rs x t) ∧
    (emittedOpen rs x t → ¬ interiorPt rs (x, t)) := by
  have hchar := sweep_characterization rs hnd hwf x t
  refine ⟨hchar, fun he => ?_⟩
  obtain ⟨⟨r, hr, hside, _, _⟩, hnsc⟩ := hchar.mp he
  exact not_interior_of_edge rs hnd x t r hr hside hnsc

/-- **C1, witness**: the amended characterization applied to the single
unit square and the midpoint of its left edge. -/
theorem c1_witness :
    (rectXs [Rect.mk (0 : ℚ) 1 0 1]).Nodup ∧
    (∀ r ∈ [Rect.mk (0 : ℚ) 1 0 1], r.x1 < r.x2 ∧ r.y1 < r.y2) ∧
    ((emittedOpen [Rect.mk (0 : ℚ) 1 0 1] 0 (1/2) ↔
        onEdgeOpen [Rect.mk (0 : ℚ) 1 0 1] 0 (1/2) ∧
          ¬ spansCovered [Rect.mk (0 : ℚ) 1 0 1] 0 (1/2)) ∧
      (emittedOpen [Rect.mk (0 : ℚ) 1 0 1] 0 (1/2) →
        ¬ interiorPt [Rect.mk (0 : ℚ) 1 0 1] ((0 : ℚ), (1/2 : ℚ)))) := by
  have h1 : (rectXs [Rect.mk (0 : ℚ) 1 0 1]).Nodup := by
    norm_num [rectXs, List.nodup_cons]
  have h2 : ∀ r ∈ [Rect.mk (0 : ℚ) 1 0 1], r.x1 < r.x2 ∧ r.y1 < r.y2 := by
    intro r hr
    rcases List.mem_singleton.mp hr with rfl
    norm_num
  exact ⟨h1, h2, c1_amended [Rect.mk (0 : ℚ) 1 0 1] h1 h2 0 (1/2)⟩

/-! ## C7: range of the returned coordinates -/

theorem foldl_min_le_init : ∀ (l : List ℚ) (a : ℚ), l.foldl min a ≤ a
  | [], a => le_refl a
  | b :: l, a => le_trans (foldl_min_le_init l (min a b)) (min_le_left a b)

theorem foldl_min_le_mem : ∀ (l : List ℚ) (a c : ℚ), c ∈ l → l.foldl min a ≤ c
  | b :: l, a, c, hc => by
    rcases List.mem_cons.mp hc with rfl | hc
    · exact le_trans (foldl_min_le_init l (min a c)) (min_le_right a c)
    · exact foldl_min_le_mem l (min a b) c hc

theorem init_le_foldl_max : ∀ (l : List ℚ) (a : ℚ), a ≤ l.foldl max a
  | [], a => le_refl a
  | b :: l, a => le_trans (le_max_left a b) (init_le_foldl_max l (max a b))

theorem mem_le_foldl_max : ∀ (l : List ℚ) (a c : ℚ), c ∈ l → c ≤ l.foldl max a
  | b :: l, a, c, hc => by
    rcases List.mem_cons.mp hc with rfl | hc
    · exact le_trans (le_max_right a c) (init_le_foldl_max l (max a c))
    · exact mem_le_foldl_max l (max a b) c hc

theorem foldMinQ_le (l : List ℚ) (a : ℚ) (ha : a ∈ l) : foldMinQ l ≤ a := by
  cases l with
  | nil => exact absurd ha (List.not_mem_nil a)
  | cons b rest =>
    rcases List.mem_cons.mp ha with rfl | ha
    · exact foldl_min_le_init rest a
    · exact foldl_min_le_mem rest b a ha

theorem le_foldMaxQ (l : List ℚ) (a : ℚ) (ha : a ∈ l) : a ≤ foldMaxQ l := by
  cases l with
  | nil => exact absurd ha (List.not_mem_nil a)
  | cons b rest =>
    rcases List.mem_cons.mp ha with rfl | ha
    · exact init_le_foldl_max rest a
    · exact mem_le_foldl_max rest b a ha

theorem remove_subset (ivs : List Interval) (y1 y2 : ℚ) :
    ∀ iv ∈ remove ivs y1 y2, iv ∈ ivs := by
  intro iv hiv
  rcases hF : findFwdAux y1 y2 (ivs.drop (binarySearch ivs y1)) (binarySearch ivs y1)
    with _ | j
  · rcases hB : findBwdAux ivs y1 y2 (binarySearch ivs y1) with _ | j
    · rw [remove_eq_none ivs y1 y2 hF hB] at hiv
      exact hiv
    · rw [remove_eq_bwd ivs y1 y2 j hF hB] at hiv
      exact (List.eraseIdx_sublist ivs j).subset hiv
  · rw [remove_eq_fwd ivs y1 y2 j hF] at hiv
    exact (List.eraseIdx_sublist ivs j).subset hiv

theorem sweep_bounds :
    ∀ (es : List Edge) (st : List Interval × List Frag),
      (∀ e ∈ es, edgeIn e) →
      List.Pairwise ivLe st.1 →
      (∀ iv ∈ st.1, ivIn iv) →
      (∀ g ∈ st.2, fragIn g) →
      (List.Pairwise ivLe (es.foldl sweepStep st).1 ∧
        (∀ iv ∈ (es.foldl sweepStep st).1, ivIn iv)) ∧
      ∀ g ∈ (es.foldl sweepStep st).2, fragIn g
  | [], _, _, hs, hiv, hg => ⟨⟨hs, hiv⟩, hg⟩
  | eg :: es, st, hes, hs, hiv, hg => by
    obtain ⟨hex, hey1, hey2, hyy⟩ := hes eg (by simp)
    have hwfiv : ∀ iv ∈ st.1, iv.1 ≤ iv.2 := fun iv h => (hiv iv h).2.2
    refine sweep_bounds es (sweepStep st eg) (fun e he => hes e (by simp [he])) ?_ ?_ ?_
    · by_cases hL : eg.isLeft
      · have h1 : sweepStep st eg =
            (insert st.1 eg.y1 eg.y2, st.2 ++ breakEdge st.1 eg) := by
          simp [sweepStep, hL]
        rw [h1]
        exact insert_sorted st.1 eg.y1 eg.y2 hs
      · have h1 : sweepStep st eg = (remove st.1 eg.y1 eg.y2,
            st.2 ++ breakEdge (remove st.1 eg.y1 eg.y2) eg) := by
          simp [sweepStep, hL]
        rw [h1]
        exact remove_sorted st.1 eg.y1 eg.y2 hs
    · by_cases hL : eg.isLeft
      · have h1 : sweepStep st eg =
            (insert st.1 eg.y1 eg.y2, st.2 ++ breakEdge st.1 eg) := by
          simp [sweepStep, hL]
        rw [h1]
        intro iv hiv2
        have hm : iv ∈ ((insert st.1 eg.y1 eg.y2 : List Interval) : Multiset Interval) :=
          Multiset.mem_coe.mpr hiv2
        rw [insert_multiset] at hm
        rcases Multiset.mem_cons.mp hm with rfl | hmem
        · exact ⟨hey1, hey2, le_of_lt hyy⟩
        · exact hiv iv (Multiset.mem_coe.mp hmem)
      · have h1 : sweepStep st eg = (remove st.1 eg.y1 eg.y2,
            st.2 ++ breakEdge (remove st.1 eg.y1 eg.y2) eg) := by
          simp [sweepStep, hL]
        rw [h1]
        intro iv hiv2
        exact hiv iv (remove_subset st.1 eg.y1 eg.y2 iv hiv2)
    · by_cases hL : eg.isLeft
      · have h1 : sweepStep st eg =
            (insert st.1 eg.y1 eg.y2, st.2 ++ breakEdge st.1 eg) := by
          simp [sweepStep, hL]
        rw [h1]
        intro g hg2
        rcases List.mem_append.mp hg2 with hg2 | hg2
        · exact hg g hg2
        · obtain ⟨hx, hb1, hb2, hb3⟩ := (breakEdge_spec st.1 eg hs hwfiv hyy).1 g hg2
          refine ⟨by rw [hx]; exact hex, ⟨?_, ?_⟩, ⟨?_, ?_⟩⟩ <;>
            linarith [hey1.1, hey1.2, hey2.1, hey2.2]
      · have h1 : sweepStep st eg = (remove st.1 eg.y1 eg.y2,
            st.2 ++ breakEdge (remove st.1 eg.y1 eg.y2) eg) := by
          simp [sweepStep, hL]
        rw [h1]
        intro g hg2
        rcases List.mem_append.mp hg2 with hg2 | hg2
        · exact hg g hg2
        · have hs' := remove_sorted st.1 eg.y1 eg.y2 hs
          have hwf' : ∀ iv ∈ remove st.1 eg.y1 eg.y2, iv.1 ≤ iv.2 :=
            fun iv h => hwfiv iv (remove_subset st.1 eg.y1 eg.y2 iv h)
          obtain ⟨hx, hb1, hb2, hb3⟩ :=
            (breakEdge_spec (remove st.1 eg.y1 eg.y2) eg hs' hwf' hyy).1 g hg2
          refine ⟨by rw [hx]; exact hex, ⟨?_, ?_⟩, ⟨?_, ?_⟩⟩ <;>
            linarith [hey1.1, hey1.2, hey2.1, hey2.2]

theorem walkInner_bounds (frags : List Frag) (nbr : List (List ℕ))
    (hfr : ∀ i : ℕ, fragIn (frags.getD i ⟨0, 0, 0⟩)) :
    ∀ (fuel : ℕ) (rem : List ℕ) (es : Option ℕ × Option ℕ) (px py : ℚ) (out : List ℚ),
      unitQ px → unitQ py → (∀ v ∈ out, unitQ v) →
      ∀ v ∈ (walkInner frags nbr fuel rem es px py out).1, unitQ v
  | 0, rem, es, px, py, out, hpx, hpy, hout => by
    intro v hv
    rw [walkInner] at hv
    rcases List.mem_append.mp hv with hv | hv
    · exact hout v hv
    · rcases List.mem_cons.mp hv with rfl | hv
      · exact hpx
      · rcases List.mem_singleton.mp hv with rfl
        exact hpy
  | fuel + 1, rem, es, px, py, out, hpx, hpy, hout => by
    intro v hv
    rw [walkInner] at hv
    rcases hnext : (if inRem es.1 rem then es.1 else if inRem es.2 rem then es.2 else none)
      with _ | i
    · rw [hnext] at hv
      simp only at hv
      rcases List.mem_append.mp hv with hv | hv
      · exact hout v hv
      · rcases List.mem_cons.mp hv with rfl | hv
        · exact hpx
        · rcases List.mem_singleton.mp hv with rfl
          exact hpy
    · rw [hnext] at hv
      simp only at hv
      refine walkInner_bounds frags nbr hfr fuel _ _ _ _ _ ?_ ?_ ?_ v hv
      · by_cases hcnd : px ≠ (frags.getD i ⟨0, 0, 0⟩).x
        · rw [if_pos hcnd]
          exact (hfr i).1
        · rw [if_neg hcnd]
          exact hpx
      · by_cases hcnd : py = (frags.getD i ⟨0, 0, 0⟩).y1
        · rw [if_pos hcnd]
          exact (hfr i).2.2
        · rw [if_neg hcnd]
          exact (hfr i).2.1
      · by_cases hcnd : px ≠ (frags.getD i ⟨0, 0, 0⟩).x
        · rw [if_pos hcnd]
          intro u hu
          rcases List.mem_append.mp hu with hu | hu
          · exact hout u hu
          · rcases List.mem_cons.mp hu with rfl | hu
            · exact hpx
            rcases List.mem_cons.mp hu with rfl | hu
            · exact hpy
            rcases List.mem_cons.mp hu with rfl | hu
            · exact (hfr i).1
            rcases List.mem_singleton.mp hu with rfl
            by_cases hcy : py = (frags.getD i ⟨0, 0, 0⟩).y1
            · rw [if_pos hcy]
              exact (hfr i).2.1
            · rw [if_neg hcy]
              exact (hfr i).2.2
        · rw [if_neg hcnd]
          exact hout

theorem walkOuter_bounds (frags : List Frag) (nbr : List (List ℕ))
    (hfr : ∀ i : ℕ, fragIn (frags.getD i ⟨0, 0, 0⟩)) :
    ∀ (fuel : ℕ) (rem : List ℕ) (acc : List (List ℚ)),
      (∀ poly ∈ acc, ∀ v ∈ poly, unitQ v) →
      ∀ poly ∈ walkOuter frags nbr fuel rem acc, ∀ v ∈ poly, unitQ v
  | 0, rem, acc, hacc => by
    rw [walkOuter]
    exact hacc
  | _ + 1, [], acc, hacc => by
    rw [walkOuter]
    exact hacc
  | fuel + 1, i :: rem, acc, hacc => by
    intro poly hpoly
    rw [walkOuter] at hpoly
    refine walkOuter_bounds frags nbr hfr fuel _ _ ?_ poly hpoly
    intro q hq
    rcases List.mem_append.mp hq with hq | hq
    · exact hacc q hq
    · rcases List.mem_singleton.mp hq with rfl
      intro v hv
      refine walkInner_bounds frags nbr hfr rem.length rem (nbrGet nbr i)
        _ _ _ ?_ ?_ ?_ v hv
      · exact (hfr i).1
      · exact (hfr i).2.1
      · intro u hu
        rcases List.mem_cons.mp hu with rfl | hu
        · exact (hfr i).1
        · rcases List.mem_singleton.mp hu with rfl
          exact (hfr i).2.2

theorem polygonize_bounds (frags : List Frag) (box : BBox) (lrs : List LineRect)
    (hfr : ∀ f ∈ frags, fragIn f) :
    ∀ poly ∈ (polygonize frags box lrs).outlines, ∀ v ∈ poly, unitQ v := by
  have hfr' : ∀ i : ℕ, fragIn (frags.getD i ⟨0, 0, 0⟩) := by
    intro i
    by_cases h : i < frags.length
    · rw [List.getD_eq_getElem?_getD, List.getElem?_eq_getElem h]
      simp only [Option.getD_some]
      exact hfr _ (List.getElem_mem h)
    · rw [List.getD_eq_getElem?_getD, List.getElem?_eq_none (by omega)]
      exact ⟨⟨le_refl 0, zero_le_one⟩, ⟨le_refl 0, zero_le_one⟩, ⟨le_refl 0, zero_le_one⟩⟩
  intro poly hpoly
  have hpoly' : poly ∈ walkOuter frags
      (buildAdj (stableSort vertexLe (vertexList frags)) (frags.map (fun _ => []), [])).1
      (buildAdj (stableSort vertexLe (vertexList frags)) (frags.map (fun _ => []), [])).2.length
      (buildAdj (stableSort vertexLe (vertexList frags)) (frags.map (fun _ => []), [])).2
      [] := hpoly
  exact walkOuter_bounds frags _ hfr' _ _ _
    (fun p hp => absurd hp (List.not_mem_nil p)) poly hpoly'

theorem mem_verticalEdgesRaw (bw : ℚ) (boxes : List Box) (e : Edge) :
    e ∈ verticalEdgesRaw bw boxes ↔ ∃ b ∈ boxes,
      e = ⟨boxX1 bw b, boxY1 bw b, boxY2 bw b, true⟩ ∨
      e = ⟨boxX2 bw b, boxY1 bw b, boxY2 bw b, false⟩ := by
  unfold verticalEdgesRaw
  rw [List.mem_flatMap]
  constructor
  · rintro ⟨b, hb, hm⟩
    simp only [boxEdges, List.mem_cons, List.mem_singleton, List.not_mem_nil,
      or_false] at hm
    exact ⟨b, hb, hm⟩
  · rintro ⟨b, hb, hm⟩
    refine ⟨b, hb, ?_⟩
    simp only [boxEdges, List.mem_cons, List.mem_singleton, List.not_mem_nil,
      or_false]
    exact hm

theorem pushGroup_in (loX hiX loY hiY : ℚ) (y2 : ℚ) (lb : LBox)
    (hlb : lboxIn loX hiX loY hiY lb) (hy : loY ≤ y2 ∧ y2 ≤ hiY) :
    ∀ (acc : List (ℚ × LGroup)), groupsIn loX hiX loY hiY acc →
      groupsIn loX hiX loY hiY (pushGroup y2 lb acc)
  | [], _ => by
    intro p hp
    rw [pushGroup] at hp
    rcases List.mem_singleton.mp hp with rfl
    refine ⟨hy, ?_⟩
    intro c hc
    rcases List.mem_singleton.mp hc with rfl
    exact hlb
  | (k, g) :: rest, hacc => by
    intro p hp
    rw [pushGroup] at hp
    by_cases hk : k = y2
    · rw [if_pos hk] at hp
      rcases List.mem_cons.mp hp with rfl | hp
      · refine ⟨(hacc (k, g) (by simp)).1, ?_⟩
        intro c hc
        rcases List.mem_append.mp hc with hc | hc
        · exact (hacc (k, g) (by simp)).2 c hc
        · rcases List.mem_singleton.mp hc with rfl
          exact hlb
      · exact hacc p (by simp [hp])
    · rw [if_neg hk] at hp
      rcases List.mem_cons.mp hp with rfl | hp
      · exact hacc (k, g) (by simp)
      · exact pushGroup_in loX hiX loY hiY y2 lb hlb hy rest
          (fun q hq => hacc q (by simp [hq])) p hp

theorem lineByBaseHeight_fold_in (bw loX hiX loY hiY : ℚ) :
    ∀ (boxes : List Box) (acc : List (ℚ × LGroup)),
      (∀ b ∈ boxes, lboxIn loX hiX loY hiY ⟨boxX1 bw b, boxY1 bw b, boxX2 bw b⟩ ∧
        (loY ≤ boxY2 bw b ∧ boxY2 bw b ≤ hiY)) →
      groupsIn loX hiX loY hiY acc →
      groupsIn loX hiX loY hiY (boxes.foldl (fun acc b =>
        pushGroup (boxY2 bw b) ⟨boxX1 bw b, boxY1 bw b, boxX2 bw b⟩ acc) acc)
  | [], _, _, hacc => hacc
  | b :: boxes, acc, hb, hacc => by
    refine lineByBaseHeight_fold_in bw loX hiX loY hiY boxes _
      (fun c hc => hb c (by simp [hc])) ?_
    exact pushGroup_in loX hiX loY hiY (boxY2 bw b) _ (hb b (by simp)).1
      (hb b (by simp)).2 acc hacc

theorem mergeGo_in (loX hiX loY hiY : ℚ) :
    ∀ (gs : List (ℚ × LGroup)) (cur : ℚ × LGroup),
      ((loY ≤ cur.1 ∧ cur.1 ≤ hiY) ∧ ∀ c ∈ cur.2.boxes, lboxIn loX hiX loY hiY c) →
      groupsIn loX hiX loY hiY gs →
      groupsIn loX hiX loY hiY (mergeGo cur gs)
  | [], cur, hcur, _ => by
    intro p hp
    rw [mergeGo] at hp
    rcases List.mem_singleton.mp hp with rfl
    exact hcur
  | (y2, g) :: rest, cur, hcur, hgs => by
    intro p hp
    rw [mergeGo] at hp
    by_cases hcnd : (jsStrGe y2 cur.1 && decide (cur.2.minY1 ≥ g.minY1)) = true
    · rw [if_pos hcnd] at hp
      refine mergeGo_in loX hiX loY hiY rest
        (y2, ⟨cur.2.boxes ++ g.boxes, min cur.2.minY1 g.minY1⟩) ?_
        (fun q hq => hgs q (by simp [hq])) p hp
      refine ⟨(hgs (y2, g) (by simp)).1, ?_⟩
      intro c hc
      rcases List.mem_append.mp hc with hc | hc
      · exact hcur.2 c hc
      · exact (hgs (y2, g) (by simp)).2 c hc
    · rw [if_neg hcnd] at hp
      rcases List.mem_cons.mp hp with rfl | hp
      · exact hcur
      · exact mergeGo_in loX hiX loY hiY rest (y2, g) (hgs (y2, g) (by simp))
          (fun q hq => hgs q (by simp [hq])) p hp

theorem partitionGo_in (loX hiX loY hiY : ℚ) (ms : ℚ) :
    ∀ (lbs : List LBox) (lastB : LBox), lboxIn loX hiX loY hiY lastB →
      (∀ c ∈ lbs, lboxIn loX hiX loY hiY c) →
      ∀ c ∈ partitionGo ms lastB lbs, lboxIn loX hiX loY hiY c
  | [], lastB, hlast, _, c, hc => by
    rw [partitionGo] at hc
    rcases List.mem_singleton.mp hc with rfl
    exact hlast
  | b :: rest, lastB, hlast, hlbs, c, hc => by
    rw [partitionGo] at hc
    by_cases hcnd : b.x2 - lastB.x2 > ms
    · rw [if_pos hcnd] at hc
      rcases List.mem_cons.mp hc with rfl | hc
      · exact hlast
      · exact partitionGo_in loX hiX loY hiY ms rest b (hlbs b (by simp))
          (fun d hd => hlbs d (by simp [hd])) c hc
    · rw [if_neg hcnd] at hc
      refine partitionGo_in loX hiX loY hiY ms rest _ ?_
        (fun d hd => hlbs d (by simp [hd])) c hc
      obtain ⟨a1, a2, a3, a4, a5, a6⟩ := hlbs b (by simp)
      obtain ⟨d1, d2, d3, d4, d5, d6⟩ := hlast
      exact ⟨le_min a1 d1, le_trans (min_le_left _ _) a2, le_min a3 d3,
        le_trans (min_le_left _ _) a4, le_trans a5 (le_max_left _ _), max_le a6 d6⟩

theorem partitionOne_in (loX hiX loY hiY : ℚ) (ms : ℚ) (lbs : List LBox)
    (hmem : ∀ c ∈ lbs, lboxIn loX hiX loY hiY c) :
    ∀ c ∈ (match lbs with
      | [] => ([] : List LBox)
      | b :: rest => partitionGo ms b rest), lboxIn loX hiX loY hiY c := by
  cases lbs with
  | nil =>
    intro c hc
    exact absurd hc (List.not_mem_nil c)
  | cons b rest =>
    intro c hc
    exact partitionGo_in loX hiX loY hiY ms rest b (hmem b (by simp))
      (fun d hd => hmem d (by simp [hd])) c hc

theorem partitionedLines_eq (bw : ℚ) (boxes : List Box) :
    partitionedLines bw boxes = (mergedGroups bw boxes).map (fun g =>
      (g.1, match stableSort lboxLe g.2.boxes with
        | [] => ([] : List LBox)
        | b :: rest => partitionGo ((g.1 - g.2.minY1) * 2) b rest)) := by
  unfold partitionedLines
  refine List.map_congr_left (fun g hg => ?_)
  cases hs : stableSort lboxLe g.2.boxes <;> rfl

theorem partitionedLines_in (bw loX hiX loY hiY : ℚ) (boxes : List Box)
    (h : groupsIn loX hiX loY hiY (mergedGroups bw boxes)) :
    ∀ p ∈ partitionedLines bw boxes, (loY ≤ p.1 ∧ p.1 ≤ hiY) ∧
      ∀ c ∈ p.2, lboxIn loX hiX loY hiY c := by
  intro p hp
  rw [partitionedLines_eq] at hp
  obtain ⟨g, hg, heq⟩ := List.mem_map.mp hp
  obtain ⟨hkey, hboxes⟩ := h g hg
  have hmem : ∀ c ∈ stableSort lboxLe g.2.boxes, lboxIn loX hiX loY hiY c :=
    fun c hc => hboxes c ((stableSort_perm lboxLe g.2.boxes).subset hc)
  subst heq
  exact ⟨hkey, partitionOne_in loX hiX loY hiY ((g.1 - g.2.minY1) * 2)
    (stableSort lboxLe g.2.boxes) hmem⟩

theorem lineRectsOf_bounds (bw sminX sminY w h loX hiX loY hiY : ℚ) (boxes : List Box)
    (hpl : ∀ p ∈ partitionedLines bw boxes, (loY ≤ p.1 ∧ p.1 ≤ hiY) ∧
      ∀ c ∈ p.2, lboxIn loX hiX loY hiY c)
    (hX : ∀ v, loX ≤ v → v ≤ hiX → unitQ ((v - sminX) / w))
    (hY : ∀ v, loY ≤ v → v ≤ hiY → unitQ ((v - sminY) / h)) :
    ∀ lr ∈ lineRectsOf bw sminX sminY w h boxes, lrIn lr := by
  intro lr hlr
  unfold lineRectsOf at hlr
  obtain ⟨p, hp, hm⟩ := List.mem_flatMap.mp hlr
  obtain ⟨c, hc, heq⟩ := List.mem_map.mp hm
  obtain ⟨hkey, hboxes⟩ := hpl p hp
  obtain ⟨c1, c2, c3, c4, c5, c6⟩ := hboxes c hc
  subst heq
  exact ⟨hX c.x1 c1 c2, hX c.x2 c5 c6, hY c.y1 c3 c4, hY p.1 hkey.1 hkey.2⟩

theorem construct_fields (boxes : List Box) (bw im : ℚ) (isLTR skip : Bool)
    (st : OState) (hc : construct boxes bw im isLTR skip = some st) :
    st.verticalEdges = (verticalEdgesRaw bw boxes).map (fun e =>
      Edge.mk ((e.x - (minXOf bw boxes - im)) /
          (maxXOf bw boxes - minXOf bw boxes + 2 * im))
        ((e.y1 - (minYOf bw boxes - im)) /
          (maxYOf bw boxes - minYOf bw boxes + 2 * im))
        ((e.y2 - (minYOf bw boxes - im)) /
          (maxYOf bw boxes - minYOf bw boxes + 2 * im)) e.isLeft) ∧
    st.lineRects = (if skip then [] else
      lineRectsOf bw (minXOf bw boxes - im) (minYOf bw boxes - im)
        (maxXOf bw boxes - minXOf bw boxes + 2 * im)
        (maxYOf bw boxes - minYOf bw boxes + 2 * im) boxes) := by
  simp only [construct] at hc
  rcases hL : (if isLTR then (verticalEdgesRaw bw boxes).getLast?
      else (verticalEdgesRaw bw boxes).dropLast.getLast?) with _ | lastE
  · rw [hL] at hc
    simp at hc
  · rw [hL] at hc
    simp only [Option.some.injEq] at hc
    rw [← hc]
    exact ⟨rfl, rfl⟩

theorem construct_in (boxes : List Box) (bw im : ℚ) (isLTR skip : Bool) (st : OState)
    (hne : boxes ≠ [])
    (hwf : ∀ b ∈ boxes, 0 < b.width ∧ 0 < b.height) (hbw : 0 ≤ bw) (him : 0 ≤ im)
    (hc : construct boxes bw im isLTR skip = some st) :
    (∀ e ∈ st.verticalEdges, edgeIn e) ∧ (∀ lr ∈ st.lineRects, lrIn lr) := by
  obtain ⟨hve, hlrs⟩ := construct_fields boxes bw im isLTR skip st hc
  obtain ⟨b0, hb0⟩ : ∃ b, b ∈ boxes := by
    cases boxes with
    | nil => exact absurd rfl hne
    | cons b bs => exact ⟨b, by simp⟩
  set loX := minXOf bw boxes with hloX
  set hiX := maxXOf bw boxes with hhiX
  set loY := minYOf bw boxes with hloY
  set hiY := maxYOf bw boxes with hhiY
  have hbX1 : ∀ b ∈ boxes, loX ≤ boxX1 bw b := fun b hb =>
    foldMinQ_le _ _ (List.mem_map.mpr ⟨b, hb, rfl⟩)
  have hbX2 : ∀ b ∈ boxes, boxX2 bw b ≤ hiX := fun b hb =>
    le_foldMaxQ _ _ (List.mem_map.mpr ⟨b, hb, rfl⟩)
  have hbY1 : ∀ b ∈ boxes, loY ≤ boxY1 bw b := fun b hb =>
    foldMinQ_le _ _ (List.mem_map.mpr ⟨b, hb, rfl⟩)
  have hbY2 : ∀ b ∈ boxes, boxY2 bw b ≤ hiY := fun b hb =>
    le_foldMaxQ _ _ (List.mem_map.mpr ⟨b, hb, rfl⟩)
  have hbX12 : ∀ b ∈ boxes, boxX1 bw b < boxX2 bw b := fun b hb =>
    boxX1_lt_boxX2 bw b (hwf b hb).1 hbw
  have hbY12 : ∀ b ∈ boxes, boxY1 bw b < boxY2 bw b := fun b hb =>
    boxY1_lt_boxY2 bw b (hwf b hb).2 hbw
  have hWpos : 0 < hiX - loX + 2 * im := by
    have h1 := hbX1 b0 hb0
    have h2 := hbX2 b0 hb0
    have h3 := hbX12 b0 hb0
    linarith
  have hHpos : 0 < hiY - loY + 2 * im := by
    have h1 := hbY1 b0 hb0
    have h2 := hbY2 b0 hb0
    have h3 := hbY12 b0 hb0
    linarith
  have hXu : ∀ v, loX ≤ v → v ≤ hiX →
      unitQ ((v - (loX - im)) / (hiX - loX + 2 * im)) := by
    intro v h1 h2
    constructor
    · apply div_nonneg _ (le_of_lt hWpos)
      linarith
    · rw [div_le_one hWpos]
      linarith
  have hYu : ∀ v, loY ≤ v → v ≤ hiY →
      unitQ ((v - (loY - im)) / (hiY - loY + 2 * im)) := by
    intro v h1 h2
    constructor
    · apply div_nonneg _ (le_of_lt hHpos)
      linarith
    · rw [div_le_one hHpos]
      linarith
  constructor
  · intro e he
    rw [hve] at he
    obtain ⟨e0, he0, heq⟩ := List.mem_map.mp he
    obtain ⟨b, hb, hcase⟩ := (mem_verticalEdgesRaw bw boxes e0).mp he0
    subst heq
    have hy1 : loY ≤ e0.y1 ∧ e0.y1 ≤ hiY ∧ loY ≤ e0.y2 ∧ e0.y2 ≤ hiY ∧ e0.y1 < e0.y2 := by
      rcases hcase with rfl | rfl <;>
        exact ⟨hbY1 b hb, le_trans (le_of_lt (hbY12 b hb)) (hbY2 b hb),
          le_trans (hbY1 b hb) (le_of_lt (hbY12 b hb)), hbY2 b hb, hbY12 b hb⟩
    have hx : loX ≤ e0.x ∧ e0.x ≤ hiX := by
      rcases hcase with rfl | rfl
      · exact ⟨hbX1 b hb, le_trans (le_of_lt (hbX12 b hb)) (hbX2 b hb)⟩
      · exact ⟨le_trans (hbX1 b hb) (le_of_lt (hbX12 b hb)), hbX2 b hb⟩
    refine ⟨hXu e0.x hx.1 hx.2, hYu e0.y1 hy1.1 hy1.2.1,
      hYu e0.y2 hy1.2.2.1 hy1.2.2.2.1, ?_⟩
    show (e0.y1 - (loY - im)) / (hiY - loY + 2 * im) <
      (e0.y2 - (loY - im)) / (hiY - loY + 2 * im)
    have h12 := hy1.2.2.2.2
    exact (div_lt_div_right hHpos).mpr (by linarith)
  · intro lr hlr
    rw [hlrs] at hlr
    by_cases hsk : skip
    · rw [if_pos hsk] at hlr
      exact absurd hlr (List.not_mem_nil lr)
    · rw [if_neg hsk] at hlr
      have hgs : groupsIn loX hiX loY hiY (lineByBaseHeight bw boxes) := by
        refine lineByBaseHeight_fold_in bw loX hiX loY hiY boxes [] ?_ ?_
        · intro b hb
          exact ⟨⟨hbX1 b hb, le_trans (le_of_lt (hbX12 b hb)) (hbX2 b hb),
            hbY1 b hb, le_trans (le_of_lt (hbY12 b hb)) (hbY2 b hb),
            le_trans (hbX1 b hb) (le_of_lt (hbX12 b hb)), hbX2 b hb⟩,
            le_trans (hbY1 b hb) (le_of_lt (hbY12 b hb)), hbY2 b hb⟩
        · intro p hp
          exact absurd hp (List.not_mem_nil p)
      have hsg : groupsIn loX hiX loY hiY (sortedGroups bw boxes) := by
        intro p hp
        exact hgs p ((stableSort_perm _ _).subset hp)
      have hmg : groupsIn loX hiX loY hiY (mergedGroups bw boxes) := by
        unfold mergedGroups
        rcases hms : sortedGroups bw boxes with _ | ⟨g, rest⟩
        · intro p hp
          exact absurd hp (List.not_mem_nil p)
        · refine mergeGo_in loX hiX loY hiY rest g ?_ ?_
          · exact hsg g (by rw [hms]; simp)
          · intro q hq
            exact hsg q (by rw [hms]; simp [hq])
      have hpl := partitionedLines_in bw loX hiX loY hiY boxes hmg
      exact lineRectsOf_bounds bw (loX - im) (loY - im) (hiX - loX + 2 * im)
        (hiY - loY + 2 * im) loX hiX loY hiY boxes hpl hXu hYu lr hlr

/-- **C7, counterexample.**  The claim includes the `lastPoint` stored in
the returned box among the coordinates lying in `[0, 1]`.  But `lastPoint`
is read off the raw quantized edge *before* the box-relative rescaling
loop, so it stays in page coordinates: the single box
`{x: 5, y: 0, width: 1, height: 1}` yields `lastPoint = (6, 1)`, whose
abscissa is far outside `[0, 1]`. -/
theorem c7_counterexample :
    (construct [Box.mk 5 0 1 1] 0 0 true true).map (fun st => st.box.lastPoint) =
      some (6, 1) ∧ ¬ ((6 : ℚ) ≤ 1) := by
  constructor
  · norm_num [construct, verticalEdgesRaw, boxEdges, boxX1, boxX2, boxY1, boxY2,
      quantFloor, quantCeil, EPSILON, NUMBER_OF_DIGITS, minXOf, maxXOf, minYOf,
      maxYOf, foldMinQ, foldMaxQ, List.getLast?]
  · norm_num

/-- **C7, amended.**  For every non-empty input of boxes with positive
width and height, nonnegative border width and inner margin, the polygon
vertex coordinates returned by `getOutlines` and the line-strip coordinates
returned by `getUnderlinesAndStrikeouts` all lie in `[0, 1]`; but the
`lastPoint` stored in the returned box is in *page* coordinates (it is read
from the raw edge list before rescaling) and in general lies outside
`[0, 1]`, as `c7_counterexample` shows. -/
theorem c7_amended (boxes : List Box) (bw im : ℚ) (isLTR skip : Bool) (st : OState)
    (hne : boxes ≠ [])
    (hwf : ∀ b ∈ boxes, 0 < b.width ∧ 0 < b.height) (hbw : 0 ≤ bw) (him : 0 ≤ im)
    (hc : construct boxes bw im isLTR skip = some st) :
    (∀ poly ∈ (getOutlines st).outlines, ∀ v ∈ poly, 0 ≤ v ∧ v ≤ 1) ∧
    (∀ lr ∈ (getUnderlinesAndStrikeouts st).2,
      (0 ≤ lr.x1 ∧ lr.x1 ≤ 1) ∧ (0 ≤ lr.x2 ∧ lr.x2 ≤ 1) ∧
      (0 ≤ lr.y1 ∧ lr.y1 ≤ 1) ∧ (0 ≤ lr.y2 ∧ lr.y2 ≤ 1)) := by
  obtain ⟨hed, hlrs⟩ := construct_in boxes bw im isLTR skip st hne hwf hbw him hc
  constructor
  · have hsort : ∀ e ∈ stableSort edgeLe st.verticalEdges, edgeIn e :=
      fun e he => hed e ((stableSort_perm edgeLe st.verticalEdges).subset he)
    have hfr : ∀ g ∈ sweepFragments (stableSort edgeLe st.verticalEdges), fragIn g := by
      have h := sweep_bounds (stableSort edgeLe st.verticalEdges) ([], []) hsort
        List.Pairwise.nil (fun iv hiv => absurd hiv (List.not_mem_nil iv))
        (fun g hg => absurd hg (List.not_mem_nil g))
      exact h.2
    intro poly hpoly v hv
    exact polygonize_bounds (sweepFragments (stableSort edgeLe st.verticalEdges))
      st.box st.lineRects hfr poly hpoly v hv
  · intro lr hlr
    obtain ⟨h1, h2, h3, h4⟩ := hlrs lr hlr
    exact ⟨h1, h2, h3, h4⟩

/-- **C7, witness**: the amended bounds applied to the unit box at the
origin. -/
theorem c7_witness :
    ([Box.mk (0 : ℚ) 0 1 1] ≠ []) ∧
    (∀ b ∈ [Box.mk (0 : ℚ) 0 1 1], 0 < b.width ∧ 0 < b.height) ∧
    ((0 : ℚ) ≤ 0) ∧
    (construct [Box.mk (0 : ℚ) 0 1 1] 0 0 true true =
      some (OState.mk (BBox.mk 0 0 1 1 (1, 1))
        [Edge.mk 0 0 1 true, Edge.mk 1 0 1 false] [])) ∧
    ((∀ poly ∈ (getOutlines (OState.mk (BBox.mk 0 0 1 1 (1, 1))
        [Edge.mk 0 0 1 true, Edge.mk 1 0 1 false] [])).outlines,
        ∀ v ∈ poly, 0 ≤ v ∧ v ≤ 1) ∧
      (∀ lr ∈ (getUnderlinesAndStrikeouts (OState.mk (BBox.mk 0 0 1 1 (1, 1))
          [Edge.mk 0 0 1 true, Edge.mk 1 0 1 false] [])).2,
        (0 ≤ lr.x1 ∧ lr.x1 ≤ 1) ∧ (0 ≤ lr.x2 ∧ lr.x2 ≤ 1) ∧
        (0 ≤ lr.y1 ∧ lr.y1 ≤ 1) ∧ (0 ≤ lr.y2 ∧ lr.y2 ≤ 1))) := by
  have hne : [Box.mk (0 : ℚ) 0 1 1] ≠ [] := by simp
  have hwf : ∀ b ∈ [Box.mk (0 : ℚ) 0 1 1], 0 < b.width ∧ 0 < b.height := by
    intro b hb
    rcases List.mem_singleton.mp hb with rfl
    norm_num
  have hc : construct [Box.mk (0 : ℚ) 0 1 1] 0 0 true true =
      some (OState.mk (BBox.mk 0 0 1 1 (1, 1))
        [Edge.mk 0 0 1 true, Edge.mk 1 0 1 false] []) := by
    norm_num [construct, verticalEdgesRaw, boxEdges, boxX1, boxX2, boxY1, boxY2,
      quantFloor, quantCeil, EPSILON, NUMBER_OF_DIGITS, minXOf, maxXOf, minYOf,
      maxYOf, foldMinQ, foldMaxQ, List.getLast?]
  exact ⟨hne, hwf, le_refl 0,
    hc, c7_amended [Box.mk (0 : ℚ) 0 1 1] 0 0 true true _ hne hwf (le_refl 0)
      (le_refl 0) hc⟩

/-! ## C2: the single-box outline -/

theorem quantFloor_gt (v : ℚ) : v - EPSILON < quantFloor v := by
  have h := Int.sub_one_lt_floor (v / EPSILON)
  have hε := EPSILON_pos
  have h2 : (v / EPSILON - 1) * EPSILON < (⌊v / EPSILON⌋ : ℚ) * EPSILON :=
    mul_lt_mul_of_pos_right h hε
  calc v - EPSILON = (v / EPSILON - 1) * EPSILON := by field_simp
    _ < (⌊v / EPSILON⌋ : ℚ) * EPSILON := h2
    _ = quantFloor v := rfl

theorem quantCeil_lt (v : ℚ) : quantCeil v < v + EPSILON := by
  have h := Int.ceil_lt_add_one (v / EPSILON)
  have hε := EPSILON_pos
  have h2 : (⌈v / EPSILON⌉ : ℚ) * EPSILON < (v / EPSILON + 1) * EPSILON :=
    mul_lt_mul_of_pos_right h hε
  calc quantCeil v = (⌈v / EPSILON⌉ : ℚ) * EPSILON := rfl
    _ < (v / EPSILON + 1) * EPSILON := h2
    _ = v + EPSILON := by field_simp

theorem construct_single (b : Box) (bw im : ℚ) (isLTR skip : Bool) :
    construct [b] bw im isLTR skip = some (OState.mk
      (BBox.mk (boxX1 bw b - im) (boxY1 bw b - im)
        (boxX2 bw b - boxX1 bw b + 2 * im) (boxY2 bw b - boxY1 bw b + 2 * im)
        (if isLTR then (boxX2 bw b, boxY2 bw b) else (boxX1 bw b, boxY2 bw b)))
      [Edge.mk ((boxX1 bw b - (boxX1 bw b - im)) / (boxX2 bw b - boxX1 bw b + 2 * im))
          ((boxY1 bw b - (boxY1 bw b - im)) / (boxY2 bw b - boxY1 bw b + 2 * im))
          ((boxY2 bw b - (boxY1 bw b - im)) / (boxY2 bw b - boxY1 bw b + 2 * im)) true,
       Edge.mk ((boxX2 bw b - (boxX1 bw b - im)) / (boxX2 bw b - boxX1 bw b + 2 * im))
          ((boxY1 bw b - (boxY1 bw b - im)) / (boxY2 bw b - boxY1 bw b + 2 * im))
          ((boxY2 bw b - (boxY1 bw b - im)) / (boxY2 bw b - boxY1 bw b + 2 * im)) false]
      (if skip then [] else
        lineRectsOf bw (boxX1 bw b - im) (boxY1 bw b - im)
          (boxX2 bw b - boxX1 bw b + 2 * im) (boxY2 bw b - boxY1 bw b + 2 * im) [b])) := by
  cases isLTR <;>
    simp [construct, verticalEdgesRaw, boxEdges, minXOf, maxXOf, minYOf, maxYOf,
      foldMinQ, foldMaxQ]

theorem getOutlines_two_edges (a1 a2 c1 c2 : ℚ) (h12 : a1 < a2) (hc12 : c1 < c2)
    (box : BBox) (lrs : List LineRect) :
    (getOutlines (OState.mk box
      [Edge.mk a1 c1 c2 true, Edge.mk a2 c1 c2 false] lrs)).outlines =
      [[a1, c2, a1, c1, a2, c1, a2, c2]] := by
  have hne_a : a1 ≠ a2 := ne_of_lt h12
  have hle_a : a1 ≤ a2 := le_of_lt h12
  have hne_c' : c2 ≠ c1 := (ne_of_lt hc12).symm
  have hnlt_c : ¬ c2 < c1 := not_lt.mpr (le_of_lt hc12)
  have hsweep : sweepFragments (stableSort edgeLe
      [Edge.mk a1 c1 c2 true, Edge.mk a2 c1 c2 false]) =
      [Frag.mk a1 c1 c2, Frag.mk a2 c1 c2] := by
    have hsort : stableSort edgeLe [Edge.mk a1 c1 c2 true, Edge.mk a2 c1 c2 false] =
        [Edge.mk a1 c1 c2 true, Edge.mk a2 c1 c2 false] := by
      simp [stableSort, insSorted, edgeLe, h12]
    rw [hsort]
    simp [sweepFragments, sweepStep, breakEdge, binarySearch, binarySearchAux,
      breakEdgeStep, breakInner, insert, insertAt, remove, findFwdAux, findBwdAux,
      ivKey, ivVal]
  have hpoly : (polygonize [Frag.mk a1 c1 c2, Frag.mk a2 c1 c2] box lrs).outlines =
      [[a1, c2, a1, c1, a2, c1, a2, c2]] := by
    have hverts : vertexList [Frag.mk a1 c1 c2, Frag.mk a2 c1 c2] =
        [Vertex.mk a1 c1 0, Vertex.mk a1 c2 0, Vertex.mk a2 c1 1, Vertex.mk a2 c2 1] :=
      rfl
    have hsortv : stableSort vertexLe
        [Vertex.mk a1 c1 0, Vertex.mk a1 c2 0, Vertex.mk a2 c1 1, Vertex.mk a2 c2 1] =
        [Vertex.mk a1 c1 0, Vertex.mk a2 c1 1, Vertex.mk a1 c2 0, Vertex.mk a2 c2 1] := by
      simp [stableSort, insSorted, vertexLe, hc12, hnlt_c, hne_c', hle_a]
    have hadj : buildAdj
        [Vertex.mk a1 c1 0, Vertex.mk a2 c1 1, Vertex.mk a1 c2 0, Vertex.mk a2 c2 1]
        ([[], []], []) = ([[1, 1], [0, 0]], [0, 1]) := rfl
    show (walkOuter [Frag.mk a1 c1 c2, Frag.mk a2 c1 c2]
        (buildAdj (stableSort vertexLe (vertexList [Frag.mk a1 c1 c2, Frag.mk a2 c1 c2]))
          ([Frag.mk a1 c1 c2, Frag.mk a2 c1 c2].map (fun _ => []), [])).1
        (buildAdj (stableSort vertexLe (vertexList [Frag.mk a1 c1 c2, Frag.mk a2 c1 c2]))
          ([Frag.mk a1 c1 c2, Frag.mk a2 c1 c2].map (fun _ => []), [])).2.length
        (buildAdj (stableSort vertexLe (vertexList [Frag.mk a1 c1 c2, Frag.mk a2 c1 c2]))
          ([Frag.mk a1 c1 c2, Frag.mk a2 c1 c2].map (fun _ => []), [])).2 []) =
      [[a1, c2, a1, c1, a2, c1, a2, c2]]
    rw [hverts, hsortv]
    rw [show ([Frag.mk a1 c1 c2, Frag.mk a2 c1 c2].map (fun _ => ([] : List ℕ))) =
      [[], []] from rfl]
    rw [hadj]
    simp [walkOuter, walkInner, nbrGet, inRem, hne_a]
  show (polygonize (sweepFragments (stableSort edgeLe
      [Edge.mk a1 c1 c2 true, Edge.mk a2 c1 c2 false])) box lrs).outlines =
    [[a1, c2, a1, c1, a2, c1, a2, c2]]
  rw [hsweep, hpoly]

/-- **C2, confirmed.**  For a single box with positive width and height
(and nonnegative border width and inner margin), `getOutlines` returns
exactly one polygon, whose vertices are the four corners of the quantized
box in box-relative coordinates — left edge at `im / bboxWidth`, right
edge at `(x2 - x1 + im) / bboxWidth`, and similarly in `y` — walked as
`[x1, y2, x1, y1, x2, y1, x2, y2]`; the returned bounding box is the
quantized box inflated by the inner margin, and the quantized coordinates
are the border-inflated input coordinates up to less than one `EPSILON`
of rounding. -/
theorem c2_single_box (b : Box) (bw im : ℚ) (isLTR skip : Bool) (st : OState)
    (hw : 0 < b.width) (hh : 0 < b.height) (hbw : 0 ≤ bw) (him : 0 ≤ im)
    (hc : construct [b] bw im isLTR skip = some st) :
    (getOutlines st).outlines =
      [[im / (boxX2 bw b - boxX1 bw b + 2 * im),
        (boxY2 bw b - boxY1 bw b + im) / (boxY2 bw b - boxY1 bw b + 2 * im),
        im / (boxX2 bw b - boxX1 bw b + 2 * im),
        im / (boxY2 bw b - boxY1 bw b + 2 * im),
        (boxX2 bw b - boxX1 bw b + im) / (boxX2 bw b - boxX1 bw b + 2 * im),
        im / (boxY2 bw b - boxY1 bw b + 2 * im),
        (boxX2 bw b - boxX1 bw b + im) / (boxX2 bw b - boxX1 bw b + 2 * im),
        (boxY2 bw b - boxY1 bw b + im) / (boxY2 bw b - boxY1 bw b + 2 * im)]] ∧
    st.box.x = boxX1 bw b - im ∧
    st.box.y = boxY1 bw b - im ∧
    st.box.width = boxX2 bw b - boxX1 bw b + 2 * im ∧
    st.box.height = boxY2 bw b - boxY1 bw b + 2 * im ∧
    b.x - bw - EPSILON < boxX1 bw b ∧ boxX1 bw b ≤ b.x - bw ∧
    b.x + b.width + bw ≤ boxX2 bw b ∧ boxX2 bw b < b.x + b.width + bw + EPSILON ∧
    b.y - bw - EPSILON < boxY1 bw b ∧ boxY1 bw b ≤ b.y - bw ∧
    b.y + b.height + bw ≤ boxY2 bw b ∧ boxY2 bw b < b.y + b.height + bw + EPSILON := by
  rw [construct_single] at hc
  simp only [Option.some.injEq] at hc
  subst hc
  have hx12 : boxX1 bw b < boxX2 bw b := boxX1_lt_boxX2 bw b hw hbw
  have hy12 : boxY1 bw b < boxY2 bw b := boxY1_lt_boxY2 bw b hh hbw
  have hW : 0 < boxX2 bw b - boxX1 bw b + 2 * im := by linarith
  have hH : 0 < boxY2 bw b - boxY1 bw b + 2 * im := by linarith
  have ha : (boxX1 bw b - (boxX1 bw b - im)) / (boxX2 bw b - boxX1 bw b + 2 * im) <
      (boxX2 bw b - (boxX1 bw b - im)) / (boxX2 bw b - boxX1 bw b + 2 * im) :=
    (div_lt_div_right hW).mpr (by linarith)
  have hcy : (boxY1 bw b - (boxY1 bw b - im)) / (boxY2 bw b - boxY1 bw b + 2 * im) <
      (boxY2 bw b - (boxY1 bw b - im)) / (boxY2 bw b - boxY1 bw b + 2 * im) :=
    (div_lt_div_right hH).mpr (by linarith)
  refine ⟨?_, rfl, rfl, rfl, rfl, quantFloor_gt _, quantFloor_le _, le_quantCeil _,
    quantCeil_lt _, quantFloor_gt _, quantFloor_le _, le_quantCeil _, quantCeil_lt _⟩
  rw [getOutlines_two_edges _ _ _ _ ha hcy]
  rw [show boxX1 bw b - (boxX1 bw b - im) = im from by ring,
    show boxX2 bw b - (boxX1 bw b - im) = boxX2 bw b - boxX1 bw b + im from by ring,
    show boxY1 bw b - (boxY1 bw b - im) = im from by ring,
    show boxY2 bw b - (boxY1 bw b - im) = boxY2 bw b - boxY1 bw b + im from by ring]

/-- **C2, witness**: the single-box outline theorem applied to the unit box
at the origin with no border and no margin. -/
theorem c2_witness :
    (0 : ℚ) < (Box.mk (0 : ℚ) 0 1 1).width ∧
    (0 : ℚ) < (Box.mk (0 : ℚ) 0 1 1).height ∧
    ((0 : ℚ) ≤ 0) ∧
    construct [Box.mk (0 : ℚ) 0 1 1] 0 0 true true =
      some (OState.mk (BBox.mk 0 0 1 1 (1, 1))
        [Edge.mk 0 0 1 true, Edge.mk 1 0 1 false] []) ∧
    ((getOutlines (OState.mk (BBox.mk 0 0 1 1 (1, 1))
        [Edge.mk 0 0 1 true, Edge.mk 1 0 1 false] [])).outlines =
      [[(0 : ℚ) / (boxX2 0 (Box.mk (0 : ℚ) 0 1 1) - boxX1 0 (Box.mk (0 : ℚ) 0 1 1) + 2 * 0),
        (boxY2 0 (Box.mk (0 : ℚ) 0 1 1) - boxY1 0 (Box.mk (0 : ℚ) 0 1 1) + 0) /
          (boxY2 0 (Box.mk (0 : ℚ) 0 1 1) - boxY1 0 (Box.mk (0 : ℚ) 0 1 1) + 2 * 0),
        (0 : ℚ) / (boxX2 0 (Box.mk (0 : ℚ) 0 1 1) - boxX1 0 (Box.mk (0 : ℚ) 0 1 1) + 2 * 0),
        (0 : ℚ) / (boxY2 0 (Box.mk (0 : ℚ) 0 1 1) - boxY1 0 (Box.mk (0 : ℚ) 0 1 1) + 2 * 0),
        (boxX2 0 (Box.mk (0 : ℚ) 0 1 1) - boxX1 0 (Box.mk (0 : ℚ) 0 1 1) + 0) /
          (boxX2 0 (Box.mk (0 : ℚ) 0 1 1) - boxX1 0 (Box.mk (0 : ℚ) 0 1 1) + 2 * 0),
        (0 : ℚ) / (boxY2 0 (Box.mk (0 : ℚ) 0 1 1) - boxY1 0 (Box.mk (0 : ℚ) 0 1 1) + 2 * 0),
        (boxX2 0 (Box.mk (0 : ℚ) 0 1 1) - boxX1 0 (Box.mk (0 : ℚ) 0 1 1) + 0) /
          (boxX2 0 (Box.mk (0 : ℚ) 0 1 1) - boxX1 0 (Box.mk (0 : ℚ) 0 1 1) + 2 * 0),
        (boxY2 0 (Box.mk (0 : ℚ) 0 1 1) - boxY1 0 (Box.mk (0 : ℚ) 0 1 1) + 0) /
          (boxY2 0 (Box.mk (0 : ℚ) 0 1 1) - boxY1 0 (Box.mk (0 : ℚ) 0 1 1) + 2 * 0)]] ∧
      (OState.mk (BBox.mk (0 : ℚ) 0 1 1 (1, 1))
        [Edge.mk 0 0 1 true, Edge.mk 1 0 1 false] []).box.x =
        boxX1 0 (Box.mk (0 : ℚ) 0 1 1) - 0 ∧
      (OState.mk (BBox.mk (0 : ℚ) 0 1 1 (1, 1))
        [Edge.mk 0 0 1 true, Edge.mk 1 0 1 false] []).box.y =
        boxY1 0 (Box.mk (0 : ℚ) 0 1 1) - 0 ∧
      (OState.mk (BBox.mk (0 : ℚ) 0 1 1 (1, 1))
        [Edge.mk 0 0 1 true, Edge.mk 1 0 1 false] []).box.width =
        boxX2 0 (Box.mk (0 : ℚ) 0 1 1) - boxX1 0 (Box.mk (0 : ℚ) 0 1 1) + 2 * 0 ∧
      (OState.mk (BBox.mk (0 : ℚ) 0 1 1 (1, 1))
        [Edge.mk 0 0 1 true, Edge.mk 1 0 1 false] []).box.height =
        boxY2 0 (Box.mk (0 : ℚ) 0 1 1) - boxY1 0 (Box.mk (0 : ℚ) 0 1 1) + 2 * 0 ∧
      (Box.mk (0 : ℚ) 0 1 1).x - 0 - EPSILON < boxX1 0 (Box.mk (0 : ℚ) 0 1 1) ∧
      boxX1 0 (Box.mk (0 : ℚ) 0 1 1) ≤ (Box.mk (0 : ℚ) 0 1 1).x - 0 ∧
      (Box.mk (0 : ℚ) 0 1 1).x + (Box.mk (0 : ℚ) 0 1 1).width + 0 ≤
        boxX2 0 (Box.mk (0 : ℚ) 0 1 1) ∧
      boxX2 0 (Box.mk (0 : ℚ) 0 1 1) <
        (Box.mk (0 : ℚ) 0 1 1).x + (Box.mk (0 : ℚ) 0 1 1).width + 0 + EPSILON ∧
      (Box.mk (0 : ℚ) 0 1 1).y - 0 - EPSILON < boxY1 0 (Box.mk (0 : ℚ) 0 1 1) ∧
      boxY1 0 (Box.mk (0 : ℚ) 0 1 1) ≤ (Box.mk (0 : ℚ) 0 1 1).y - 0 ∧
      (Box.mk (0 : ℚ) 0 1 1).y + (Box.mk (0 : ℚ) 0 1 1).height + 0 ≤
        boxY2 0 (Box.mk (0 : ℚ) 0 1 1) ∧
      boxY2 0 (Box.mk (0 : ℚ) 0 1 1) <
        (Box.mk (0 : ℚ) 0 1 1).y + (Box.mk (0 : ℚ) 0 1 1).height + 0 + EPSILON) := by
  have h1 : (0 : ℚ) < (Box.mk (0 : ℚ) 0 1 1).width := by norm_num
  have h2 : (0 : ℚ) < (Box.mk (0 : ℚ) 0 1 1).height := by norm_num
  have hc : construct [Box.mk (0 : ℚ) 0 1 1] 0 0 true true =
      some (OState.mk (BBox.mk 0 0 1 1 (1, 1))
        [Edge.mk 0 0 1 true, Edge.mk 1 0 1 false] []) := by
    norm_num [construct, verticalEdgesRaw, boxEdges, boxX1, boxX2, boxY1, boxY2,
      quantFloor, quantCeil, EPSILON, NUMBER_OF_DIGITS, minXOf, maxXOf, minYOf,
      maxYOf, foldMinQ, foldMaxQ, List.getLast?]
  exact ⟨h1, h2, le_refl 0, hc,
    c2_single_box (Box.mk (0 : ℚ) 0 1 1) 0 0 true true _ h1 h2 (le_refl 0)
      (le_refl 0) hc⟩

end Outliner
